import Mathlib

/-!
Verification development for the contour extraction and ring simplification
engine of `src/imgproc/contours.cpp` (Melown/libimgproc).

The C++ code is shallowly embedded: the intrusive pointer structure
(`Segment::prev/next/ringLeader`) becomes index-based links into an
append-only list of segments; `boost::multi_index_container` with its two
`ordered_unique` indices (by `start` and by `end`) becomes a list with an
insertion function that refuses to insert a segment whose `start` or `end`
key is already present and instead designates the colliding element, which
is exactly the behaviour of `SegmentMap::insert`.  `double` coordinates
become `ℚ` (the engine only ever divides lattice integers by two), and the
border bitmap becomes a duplicate-free list of marked pixels.
-/

namespace Imgproc

abbrev Vertex := ℤ × ℤ

/-- Segment orientation, `UTILITY_GENERATE_ENUM(Direction, ...)`. -/
inductive Direction
  | r | l | u | d | lu | ld | ru | rd
deriving DecidableEq, Repr

/-- `struct Segment`: cell type, direction, endpoints and the mutable
intrusive links (`prev`, `next`, `ringLeader`), here as indices into the
builder's segment list.  `stop` stands for the C++ field `end` (a Lean
keyword). -/
structure Segment where
  type : Nat
  dir : Direction
  start : Vertex
  stop : Vertex
  prev : Option Nat
  next : Option Nat
  leader : Option Nat
deriving DecidableEq, Repr

/-- Modelled from the spec: `find_contour` parameters
{ `pixel_origin ∈ {center, corner}`, `join_straight_segments : bool`,
`ambiguous_oracle(lattice_vertex, code) → code` } (§6); the concrete
`FindContour` class lives in the missing header `contours.hpp`, but every
use of these fields is in `contours.cpp`. -/
structure Params where
  pixelOriginCenter : Bool
  joinStraightSegments : Bool
  ambiguousType : Vertex → Nat → Nat

/-- The vertex offset of `FindContour::Builder`: `(0,0)` for pixel-center
origin, `(0.5, 0.5)` otherwise. -/
def offset (P : Params) : ℚ × ℚ :=
  if P.pixelOriginCenter then (0, 0) else (1/2, 1/2)

/-- Builder state: the segment store (ids are positions, in insertion
order), the border mask as a duplicate-free pixel list, the emitted rings,
and an error flag standing for `LOGTHROW` (and for the infinite loops the
C++ would enter on corrupted links). -/
structure BState where
  segs : List Segment
  border : List Vertex
  rings : List (List Vertex)
  err : Bool
deriving Repr

def initState : BState := ⟨[], [], [], false⟩

/-- Lookup in the `StartIdx` ordered-unique index (`findByStart`). -/
def findByStart (segs : List Segment) (v : Vertex) : Option Nat :=
  segs.findIdx? (fun s => decide (s.start = v))

/-- Lookup in the `EndIdx` ordered-unique index (`findByEnd`). -/
def findByEnd (segs : List Segment) (v : Vertex) : Option Nat :=
  segs.findIdx? (fun s => decide (s.stop = v))

/-- Point update of the segment store (writing through a `Segment*`). -/
def modSeg (f : Segment → Segment) : Nat → List Segment → List Segment
  | _, [] => []
  | 0, s :: t => f s :: t
  | n+1, s :: t => s :: modSeg f n t

/-- `distributeRingLeaderPrev` body: write `l` to the segment `i` and keep
following `prev`.  The `Bool` result is `true` when the fuel ran out, which
corresponds to the C++ looping forever on a cyclic `prev` chain. -/
def distPrev (l : Option Nat) : Nat → Option Nat → List Segment → List Segment × Bool
  | _, none, segs => (segs, false)
  | 0, some _, segs => (segs, true)
  | fuel+1, some i, segs =>
      let segs1 := modSeg (fun s => { s with leader := l }) i segs
      distPrev l fuel ((segs.get? i).bind (·.prev)) segs1

/-- `distributeRingLeaderNext` body. -/
def distNext (l : Option Nat) : Nat → Option Nat → List Segment → List Segment × Bool
  | _, none, segs => (segs, false)
  | 0, some _, segs => (segs, true)
  | fuel+1, some i, segs =>
      let segs1 := modSeg (fun s => { s with leader := l }) i segs
      distNext l fuel ((segs.get? i).bind (·.next)) segs1

/-- `distributeRingLeaderPrev(s)`: grab `s`'s ringLeader and write it to
all previous segments. -/
def distributeRingLeaderPrev (i : Nat) (segs : List Segment) : List Segment × Bool :=
  match segs.get? i with
  | none => (segs, true)
  | some s => distPrev s.leader segs.length s.prev segs

/-- `distributeRingLeaderNext(s)`. -/
def distributeRingLeaderNext (i : Nat) (segs : List Segment) : List Segment × Bool :=
  match segs.get? i with
  | none => (segs, true)
  | some s => distNext s.leader segs.length s.next segs

/-- One `contour.border.set` call; the mask is a set of pixels. -/
def insertPt (p : Vertex) (m : List Vertex) : List Vertex :=
  if p ∈ m then m else m ++ [p]

/-- `FindContour::Builder::setBorder(type, i, j)`: the `SET_BORDER(X, Y)`
table, verbatim (including the shared branch of the six codes
`0101, 0111, 1010, 1011, 1101, 1110`). -/
def setBorder (ty : Nat) (i j : ℤ) (m : List Vertex) : List Vertex :=
  match ty with
  | 0 => m
  | 1 => insertPt (i, j+1) m
  | 2 => insertPt (i+1, j+1) m
  | 4 => insertPt (i+1, j) m
  | 8 => insertPt (i, j) m
  | 3 => insertPt (i+1, j+1) (insertPt (i, j+1) m)
  | 6 => insertPt (i+1, j+1) (insertPt (i+1, j) m)
  | 12 => insertPt (i+1, j) (insertPt (i, j) m)
  | 9 => insertPt (i, j+1) (insertPt (i, j) m)
  | 5 | 7 | 10 | 11 | 13 | 14 =>
      insertPt (i+1, j+1) (insertPt (i, j+1) (insertPt (i+1, j) (insertPt (i, j) m)))
  | _ => m

/-- Lattice vertex → output pixel coordinate: `v(k)/2.0 + offset(k)`. -/
def cvt (off : ℚ × ℚ) (v : Vertex) : ℚ × ℚ :=
  ((v.1 : ℚ) / 2 + off.1, (v.2 : ℚ) / 2 + off.2)

/-- The walk of `FindContour::Builder::extract`: follow `next` from `s`
until the terminal segment `endIdx`, appending `s->start` whenever the
direction changed (or unconditionally without `joinStraightSegments`).
Returns the collected vertices and `false` when the C++ would have thrown
(foreign ringLeader, missing `next`) or looped past the fuel.
`addVertex` converts each vertex to pixel coordinates as it is appended;
the builder here keeps the lattice vertex and `findContour` applies the
very same per-vertex conversion on return, giving identical ring lists. -/
def extractWalk (P : Params) (segs : List Segment) (head endIdx : Nat) :
    Nat → Nat → Nat → List Vertex × Bool
  | 0, _, _ => ([], false)
  | fuel+1, p, s =>
    if s = endIdx then ([], true)
    else
      match segs.get? s, segs.get? p with
      | some ss, some ps =>
        if ss.leader ≠ some head then ([], false)
        else
          match ss.next with
          | none => ([], false)
          | some nxt =>
            let rest := extractWalk P segs head endIdx fuel s nxt
            if !P.joinStraightSegments || decide (ss.dir ≠ ps.dir) then
              (ss.start :: rest.1, rest.2)
            else rest
      | _, _ => ([], false)

/-- The builder components `addSegment` manipulates after its initial
`setBorder` call: the segment store, the emitted rings and the error flag.
The border mask and this state are touched by disjoint code in the C++;
`addSegment` below updates both. -/
structure LState where
  segs : List Segment
  rings : List (List Vertex)
  err : Bool
deriving Repr

/-- `FindContour::Builder::extract(head)`: emit the ring of the closed
chain led by `head`. -/
def extract (P : Params) (head : Nat) (st : LState) : LState :=
  match st.segs.get? head with
  | none => { st with err := true }
  | some hs =>
    match hs.prev with
    | none => { st with err := true }
    | some hp =>
      match st.segs.get? hp with
      | none => { st with err := true }
      | some hps =>
        let endIdx := if hs.type ≠ hps.type then head else hp
        let first := hs.start
        match hs.next with
        | none => { st with err := true }
        | some s0 =>
          let w := extractWalk P st.segs head endIdx (st.segs.length + 1) head s0
          if w.2 then { st with rings := st.rings ++ [first :: w.1] }
          else { st with err := true }

/-- The linking part of `addSegment`: lookup of `prev`/`next`, the
`SegmentMap::insert` (which fails when another live segment shares the
`start` key or the `end` key — two `ordered_unique` indices — in which
case the returned iterator designates the colliding element and no new
segment is stored), the `prev`/`next` writes, ringLeader unification and
ring extraction. -/
def linkSegment (P : Params) (ty : Nat) (dir : Direction)
    (a b : Vertex) (st : LState) : LState :=
  let segs0 := st.segs
  let prev := findByEnd segs0 a
  let next := findByStart segs0 b
  let inserted :=
    match findByStart segs0 a, findByEnd segs0 b with
    | some k, _ => (k, segs0)
    | none, some k => (k, segs0)
    | none, none =>
        (segs0.length, segs0 ++ [(⟨ty, dir, a, b, prev, next, none⟩ : Segment)])
  let sIdx := inserted.1
  let segs1 := inserted.2
  if prev = none ∧ next = none then
    { st with segs := segs1 }
  else
    let segs2 :=
      match prev with
      | some p => modSeg (fun s => { s with next := some sIdx }) p segs1
      | none => segs1
    let segs3 :=
      match next with
      | some n => modSeg (fun s => { s with prev := some sIdx }) n segs2
      | none => segs2
    let pL := match prev with
      | some p => (segs1.get? p).bind (·.leader)
      | none => none
    let nL := match next with
      | some n => (segs1.get? n).bind (·.leader)
      | none => none
    if pL = none ∧ nL = none then
      let segs4 := modSeg (fun s => { s with leader := some sIdx }) sIdx segs3
      let segs5 :=
        match next with
        | some n => modSeg (fun s => { s with leader := some sIdx }) n segs4
        | none => segs4
      let segs6 :=
        match prev with
        | some p => modSeg (fun s => { s with leader := some sIdx }) p segs5
        | none => segs5
      { st with segs := segs6 }
    else if pL = none then
      match next with
      | some n =>
        let d := distributeRingLeaderPrev n segs3
        { st with segs := d.1, err := st.err || d.2 }
      | none => { st with segs := segs3, err := true }
    else if nL = none then
      match prev with
      | some p =>
        let d := distributeRingLeaderNext p segs3
        { st with segs := d.1, err := st.err || d.2 }
      | none => { st with segs := segs3, err := true }
    else if pL ≠ nL then
      match prev with
      | some p =>
        let d := distributeRingLeaderNext p segs3
        { st with segs := d.1, err := st.err || d.2 }
      | none => { st with segs := segs3, err := true }
    else
      let segs4 := modSeg (fun s => { s with leader := pL }) sIdx segs3
      match pL with
      | some l => extract P l { st with segs := segs4 }
      | none => { st with segs := segs4, err := true }

/-- `FindContour::Builder::addSegment(type, direction, i, j, start, end)`:
mark the border mask (`setBorder`), then run the linking machinery. -/
def addSegment (P : Params) (ty : Nat) (dir : Direction) (i j : ℤ)
    (a b : Vertex) (st : BState) : BState :=
  let l := linkSegment P ty dir a b ⟨st.segs, st.rings, st.err⟩
  ⟨l.segs, setBorder ty i j st.border, l.rings, l.err⟩

/-- One `ADD_SEGMENT(D, X1, Y1, X2, Y2)` invocation, as data: all
arguments of the underlying `addSegment` call (with `x = 2 i`, `y = 2 j`
already applied). -/
structure Call where
  ty : Nat
  dir : Direction
  i : ℤ
  j : ℤ
  a : Vertex
  b : Vertex
deriving DecidableEq, Repr

def mkCall (ty : Nat) (dir : Direction) (i j x1 y1 x2 y2 : ℤ) : Call :=
  ⟨ty, dir, i, j, (2*i + x1, 2*j + y1), (2*i + x2, 2*j + y2)⟩

/-- `FindContour::Builder::addAmbiguous(otype, i, j)` as its list of
`ADD_SEGMENT` calls.  `ambiguousType` receives the doubled lattice vertex
`(2 i, 2 j)` and the original type. -/
def addAmbiguousCalls (P : Params) (otype : Nat) (i j : ℤ) : List Call :=
  let ty := P.ambiguousType (2*i, 2*j) otype
  if ty = otype then
    match ty with
    | 5 => [mkCall ty .lu i j 0 1 1 0, mkCall ty .rd i j 2 1 1 2]
    | 10 => [mkCall ty .ld i j 1 0 2 1, mkCall ty .ru i j 1 2 0 1]
    | _ => []
  else
    match ty with
    | 5 => [mkCall ty .ld i j 1 0 0 1, mkCall ty .ru i j 1 2 2 1]
    | 10 => [mkCall ty .lu i j 2 1 1 0, mkCall ty .rd i j 0 1 1 2]
    | _ => []

/-- `FindContour::Builder::add(i, j, type)`: the inner-cell table. -/
def addCalls (P : Params) (i j : ℤ) (ty : Nat) : List Call :=
  match ty with
  | 1 => [mkCall 1 .rd i j 0 1 1 2]
  | 2 => [mkCall 2 .ru i j 1 2 2 1]
  | 3 => [mkCall 3 .r i j 0 1 2 1]
  | 4 => [mkCall 4 .lu i j 2 1 1 0]
  | 5 => addAmbiguousCalls P 5 i j
  | 6 => [mkCall 6 .u i j 1 2 1 0]
  | 7 => [mkCall 7 .ru i j 0 1 1 0]
  | 8 => [mkCall 8 .ld i j 1 0 0 1]
  | 9 => [mkCall 9 .d i j 1 0 1 2]
  | 10 => addAmbiguousCalls P 10 i j
  | 11 => [mkCall 11 .rd i j 1 0 2 1]
  | 12 => [mkCall 12 .l i j 2 1 0 1]
  | 13 => [mkCall 13 .ld i j 2 1 1 2]
  | 14 => [mkCall 14 .lu i j 1 2 0 1]
  | _ => []

/-- `FindContour::Builder::addBorder(i, j, type)`: the border-cell table.
Note the missing `return` in `case b0010`, which falls through into
`case b0011` and issues a third `ADD_SEGMENT(r, 0, 1, 2, 1)`. -/
def addBorderCalls (i j : ℤ) (ty : Nat) : List Call :=
  match ty with
  | 1 => [mkCall 1 .r i j 0 1 1 1, mkCall 1 .d i j 1 1 1 2]
  | 2 => [mkCall 2 .u i j 1 2 1 1, mkCall 2 .r i j 1 1 2 1, mkCall 2 .r i j 0 1 2 1]
  | 3 => [mkCall 3 .r i j 0 1 2 1]
  | 4 => [mkCall 4 .l i j 2 1 1 1, mkCall 4 .u i j 1 1 1 0]
  | 5 => [mkCall 5 .u i j 0 1 0 0, mkCall 5 .r i j 0 0 1 0,
          mkCall 5 .d i j 2 1 2 2, mkCall 5 .l i j 2 2 1 2]
  | 6 => [mkCall 6 .u i j 1 2 1 0]
  | 7 => [mkCall 7 .u i j 0 1 0 0, mkCall 7 .r i j 0 0 1 0]
  | 8 => [mkCall 8 .d i j 1 0 1 1, mkCall 8 .l i j 1 1 0 1]
  | 9 => [mkCall 9 .d i j 1 0 1 2]
  | 10 => [mkCall 10 .r i j 1 0 2 0, mkCall 10 .d i j 2 0 2 1,
           mkCall 10 .l i j 1 2 0 2, mkCall 10 .u i j 0 2 0 1]
  | 11 => [mkCall 11 .r i j 1 0 2 0, mkCall 11 .d i j 2 0 2 1]
  | 12 => [mkCall 12 .l i j 2 1 0 1]
  | 13 => [mkCall 13 .d i j 2 1 2 2, mkCall 13 .l i j 2 2 1 2]
  | 14 => [mkCall 14 .l i j 1 2 0 2, mkCall 14 .u i j 0 2 0 1]
  | _ => []

def runCalls (P : Params) (cs : List Call) (st : BState) : BState :=
  cs.foldl (fun st c => addSegment P c.ty c.dir c.i c.j c.a c.b st) st

def add (P : Params) (i j : ℤ) (ty : Nat) (st : BState) : BState :=
  runCalls P (addCalls P i j ty) st

def addBorder (P : Params) (i j : ℤ) (ty : Nat) (st : BState) : BState :=
  runCalls P (addBorderCalls i j ty) st

/-- Modelled from the spec: the raster view (§4.1, §6): `get(x, y) → {0,1}`
returning 0 outside `[0,W) × [0,H)`; `Contour::Raster` itself lives in the
missing header. -/
structure Raster where
  width : ℤ
  height : ℤ
  val : ℤ → ℤ → Bool

def Raster.get (r : Raster) (x y : ℤ) : Nat :=
  if 0 ≤ x ∧ x < r.width ∧ 0 ≤ y ∧ y < r.height ∧ r.val x y then 1 else 0

/-- The cell classifier of `FindContour::operator()`:
`get(x,y+1) | get(x+1,y+1)<<1 | get(x+1,y)<<2 | get(x,y)<<3`. -/
def getFlags (r : Raster) (x y : ℤ) : Nat :=
  r.get x (y+1) + 2 * r.get (x+1) (y+1) + 4 * r.get (x+1) y + 8 * r.get x y

/-- `a, a+1, ..., b` (empty when `b < a`). -/
def intRange (a b : ℤ) : List ℤ :=
  (List.range (b + 1 - a).toNat).map (fun (k : ℕ) => a + (k : ℤ))

/-- A processed cell of the sweep and whether it goes through `addBorder`. -/
structure Cell where
  i : ℤ
  j : ℤ
  isBorder : Bool
deriving DecidableEq, Repr

/-- The cells visited by `FindContour::operator()`, in sweep order: first
row `j = -1` (border), then for each inner row the first column, the inner
columns, the last column, then the last row `j = yend` (border). -/
def processedCells (r : Raster) : List Cell :=
  let xend := r.width - 1
  let yend := r.height - 1
  ((intRange (-1) xend).map (fun i => ⟨i, -1, true⟩))
  ++ ((intRange 0 (yend - 1)).flatMap (fun j =>
        (⟨-1, j, true⟩ : Cell) ::
        ((intRange 0 (xend - 1)).map (fun i => (⟨i, j, false⟩ : Cell))
          ++ [⟨xend, j, true⟩])))
  ++ ((intRange (-1) xend).map (fun i => ⟨i, yend, true⟩))

/-- The `ADD_SEGMENT` calls a single cell issues. -/
def cellCalls (P : Params) (r : Raster) (c : Cell) : List Call :=
  if c.isBorder then addBorderCalls c.i c.j (getFlags r c.i c.j)
  else addCalls P c.i c.j (getFlags r c.i c.j)

/-- All `addSegment` calls of a sweep, in order. -/
def sweepCalls (P : Params) (r : Raster) : List Call :=
  (processedCells r).flatMap (cellCalls P r)

def stepCall (P : Params) (st : BState) (c : Call) : BState :=
  addSegment P c.ty c.dir c.i c.j c.a c.b st

/-- The builder state after the whole sweep of `FindContour::operator()`. -/
def sweep (P : Params) (r : Raster) : BState :=
  (sweepCalls P r).foldl (stepCall P) initState

/-- All intermediate builder states of a sweep ("at every point during a
`find_contour` sweep"): state 0 is the initial state, state `k+1` follows
the `k`-th `addSegment` call. -/
def sweepStates (P : Params) (r : Raster) : List BState :=
  (sweepCalls P r).scanl (stepCall P) initState

/-- Modelled from the spec: `Contour { rings, border }` (§6, the struct is
declared in the missing `contours.hpp`); the border mask is the set of
marked pixels. -/
structure Contour where
  rings : List (List (ℚ × ℚ))
  border : List Vertex
deriving DecidableEq, Repr

/-- `FindContour::operator()(raster)`: run the sweep and return the
contour, every ring vertex converted by `addVertex`'s formula
`v(k)/2.0 + offset(k)`; `none` when the C++ would have signalled a fatal
error (`LOGTHROW`). -/
def findContour (P : Params) (r : Raster) : Option Contour :=
  let st := sweep P r
  if st.err then none
  else some ⟨st.rings.map (fun ring => ring.map (cvt (offset P))), st.border⟩

/-- The default oracle: keep the ambiguous code as is (§4.2). -/
def defaultOracle : Vertex → Nat → Nat := fun _ t => t

/-!
### Simplification

`findLockedPoints`, `simplifyRing` and `simplify` from the anonymous
namespace at the bottom of `contours.cpp`.  `math::Point2d` becomes `ℚ × ℚ`;
the third coordinate of the work points (`Point3`, holding the cost, with
`InvalidArea = ∞` for locked points) becomes `Option ℚ` with `none = ∞`,
matching `std::isfinite` tests and IEEE comparisons against `∞`.
-/

abbrev Point2 := ℚ × ℚ
abbrev Polygon := List Point2

/-- `area(a, b, c)`: area of the parallelogram spanned by three points
(twice the triangle area). -/
def area (a b c : Point2) : ℚ :=
  |((b.1 - a.1) * (c.2 - a.2)) - ((c.1 - a.1) * (b.2 - a.2))|

/-- `++cardinality[p]` on the `std::map<math::Point2d, int>`; an
association list (the map's internal ordering only affects iteration
order, which no claim depends on). -/
def bump : List (Point2 × Nat) → Point2 → List (Point2 × Nat)
  | [], p => [(p, 1)]
  | (q, n) :: t, p => if q = p then (q, n+1) :: t else (q, n) :: bump t p

/-- The cardinality map of `findLockedPoints`: every occurrence of a point
in any ring of any contour bumps its count. -/
def cardinality (cs : List Contour) : List (Point2 × Nat) :=
  cs.foldl (fun m c => c.rings.foldl (fun m ring => ring.foldl bump m) m) []

/-- `findLockedPoints`: the points of cardinality `> 2`. -/
def findLockedPoints (cs : List Contour) : List Point2 :=
  ((cardinality cs).filter (fun q => 2 < q.2)).map (·.1)

/-- A work point of `simplifyRing` (`math::Point3`): coordinates plus cost,
`none` being `InvalidArea = ∞`. -/
abbrev SNode := Point2 × Option ℚ

/-- IEEE `<` on costs with `none = ∞`: `∞ < x` is false, `x < ∞` is true
for finite `x`, `∞ < ∞` is false. -/
def costLt : Option ℚ → Option ℚ → Bool
  | some a, some b => decide (a < b)
  | some _, none => true
  | none, _ => false

/-- The `compare` lambda of `simplifyRing` (max-heap order): `true` iff
`l` precedes `r`, i.e. `r` is closer to the heap front. -/
def compare (l s : SNode) : Bool :=
  if costLt l.2 s.2 then false
  else if costLt s.2 l.2 then true
  else if l.1.1 < s.1.1 then false
  else if s.1.1 < l.1.1 then true
  else decide (l.1.2 < s.1.2)

/-- The initial cost of ring point `k` (the `add` lambda): locked points
get `InvalidArea`, the others the parallelogram area of their cyclic
neighbours. -/
def ringCost (locked : List Point2) (ring : Polygon) (k : Nat) : Option ℚ :=
  let n := ring.length
  let p := ring.getD k (0, 0)
  if p ∈ locked then none
  else some (area (ring.getD ((k + n - 1) % n) (0, 0)) p (ring.getD ((k + 1) % n) (0, 0)))

/-- The work list `points` right after construction: ids in ring order.
(The C++ unrolls the first and last point; for `ring.size() > 4` this is
exactly the cyclic-neighbour formula.) -/
def mkNodes (locked : List Point2) (ring : Polygon) : List (Nat × SNode) :=
  (List.range ring.length).map (fun k => (k, (ring.getD k (0, 0), ringCost locked ring k)))

/-- The work heap: handles of the unlocked points, in ring order. -/
def mkHeap (locked : List Point2) (ring : Polygon) : List Nat :=
  (List.range ring.length).filter (fun k => decide (ring.getD k (0, 0) ∉ locked))

def idxOf (nodes : List (Nat × SNode)) (id : Nat) : Option Nat :=
  nodes.findIdx? (fun e => decide (e.1 = id))

def nodeVal (nodes : List (Nat × SNode)) (id : Nat) : SNode :=
  (((nodes.find? (fun e => decide (e.1 = id))).map (·.2)).getD ((0, 0), none))

/-- `std::make_heap` + front: the element at the heap front is a maximal
element of the range under `compare` (a strict weak ordering); elements
equivalent under it carry identical coordinates and cost, so the linear
scan below selects a front the C++ could have produced. -/
def selectMax (nodes : List (Nat × SNode)) : List Nat → Nat → Nat
  | [], acc => acc
  | h :: t, acc =>
      selectMax nodes t (if compare (nodeVal nodes acc) (nodeVal nodes h) then h else acc)

def coordAt (nodes : List (Nat × SNode)) (pos : Nat) : Point2 :=
  (nodes.getD pos (0, ((0, 0), none))).2.1

/-- Recompute the cost at position `pos` from its cyclic neighbours, but
only when the stored cost is finite (`std::isfinite`). -/
def updCost (nodes : List (Nat × SNode)) (pos pa pb : Nat) : List (Nat × SNode) :=
  match nodes.get? pos with
  | none => nodes
  | some (id, (p, c)) =>
    match c with
    | none => nodes
    | some _ => nodes.set pos (id, (p, some (area (coordAt nodes pa) p (coordAt nodes pb))))

/-- The body of one removal: `points.erase`, wrap-around of the returned
iterator, and the two neighbour-cost recomputations.  When the erasure
empties the list the C++ decrements the `end()` iterator of an empty
`std::list`; no recomputation target remains, and the observable point
sequence is empty either way. -/
def removeStep (nodes : List (Nat × SNode)) (sel : Nat) : List (Nat × SNode) :=
  match idxOf nodes sel with
  | none => nodes
  | some k =>
    let nodes1 := nodes.eraseIdx k
    let m := nodes1.length
    if m = 0 then nodes1
    else
      let kp := if k = m then 0 else k
      let pp := (kp + m - 1) % m
      let nodes2 := updCost nodes1 pp ((pp + m - 1) % m) kp
      updCost nodes2 kp pp ((kp + 1) % m)

/-- `(*point)(2) > stopCondition` with `none = ∞`. -/
def costGtStop (c : Option ℚ) (stop2 : ℚ) : Bool :=
  match c with
  | none => true
  | some a => decide (stop2 < a)

/-- The removal loop of `simplifyRing`, instrumented: besides the final
point list it returns, per executed removal, the removed point's value and
the values of all heap members before the removal (the trace is discarded
by `simplifyRing` itself). -/
def simplifyLoopT (stop2 : ℚ) :
    Nat → List Nat → List (Nat × SNode) →
    List (Nat × SNode) × List (SNode × List SNode)
  | 0, _, nodes => (nodes, [])
  | _+1, [], nodes => (nodes, [])
  | fuel+1, h :: t, nodes =>
    let sel := selectMax nodes t h
    let c := nodeVal nodes sel
    if costGtStop c.2 stop2 then (nodes, [])
    else
      let nodes1 := removeStep nodes sel
      let rest := simplifyLoopT stop2 fuel ((h :: t).erase sel) nodes1
      (rest.1, (c, (h :: t).map (nodeVal nodes)) :: rest.2)

/-- `simplifyRing(ring, lockedPoints, stopCondition)`. -/
def simplifyRing (ring : Polygon) (lockedPoints : List Point2)
    (stopCondition : ℚ) : Polygon :=
  let stop2 := stopCondition * 2
  if ring.length ≤ 4 then ring
  else
    let nodes := mkNodes lockedPoints ring
    let heap := mkHeap lockedPoints ring
    (simplifyLoopT stop2 heap.length heap nodes).1.map (fun e => e.2.1)

/-- The removal trace of `simplifyRing` (empty for small rings). -/
def simplifyRingTrace (ring : Polygon) (lockedPoints : List Point2)
    (stopCondition : ℚ) : List (SNode × List SNode) :=
  let stop2 := stopCondition * 2
  if ring.length ≤ 4 then []
  else
    let nodes := mkNodes lockedPoints ring
    let heap := mkHeap lockedPoints ring
    (simplifyLoopT stop2 heap.length heap nodes).2

/-- `simplify(contours)`: lock the shared points, then simplify every ring
of every non-empty contour with the fixed tolerance `10.0`. -/
def simplify (contours : List Contour) : List Contour :=
  let locked := findLockedPoints contours
  contours.map (fun c =>
    if c.rings.isEmpty then c
    else { c with rings := c.rings.map (fun ring => simplifyRing ring locked 10) })

/-!
### Specification-side vocabulary

Definitions used only to state the claims (never by the embedding above).
-/

/-- The corner pixels of cell `(i,j)` whose bit is set in the code `c`
(`b0 = (i,j+1)`, `b1 = (i+1,j+1)`, `b2 = (i+1,j)`, `b3 = (i,j)`). -/
def bitCorners (c : Nat) (i j : ℤ) : List Vertex :=
  (if c.testBit 0 then [(i, j+1)] else [])
  ++ (if c.testBit 1 then [(i+1, j+1)] else [])
  ++ (if c.testBit 2 then [(i+1, j)] else [])
  ++ (if c.testBit 3 then [(i, j)] else [])

/-- All four corner pixels of cell `(i, j)`. -/
def allCorners (i j : ℤ) : List Vertex :=
  [(i, j), (i+1, j), (i, j+1), (i+1, j+1)]

/-- Number of set bits among the four corner bits. -/
def popcount4 (c : Nat) : Nat :=
  (c.testBit 0).toNat + (c.testBit 1).toNat + (c.testBit 2).toNat + (c.testBit 3).toNat

/-- C3's reading of `setBorder`: set-bit corners; all four corners for the
two saddles only; nothing for `0000`/`1111`. -/
def claimMarks (c : Nat) (i j : ℤ) : List Vertex :=
  if c = 0 ∨ c = 15 then []
  else if c = 5 ∨ c = 10 then allCorners i j
  else bitCorners c i j

/-- What `setBorder` actually marks: additionally, every code with three
set bits marks all four corners (it shares the saddle branch). -/
def actualMarks (c : Nat) (i j : ℤ) : List Vertex :=
  if c = 0 ∨ c = 15 then []
  else if c = 5 ∨ c = 10 ∨ 3 ≤ popcount4 c then allCorners i j
  else bitCorners c i j

/-- Total number of occurrences of `p`, with multiplicity, across all
rings of all contours. -/
def totalCount (p : Point2) (cs : List Contour) : Nat :=
  ((cs.flatMap Contour.rings).map (fun ring => ring.count p)).sum

/-- Number of distinct rings (across all contours) in which `p` occurs. -/
def ringsWith (p : Point2) (cs : List Contour) : Nat :=
  (cs.flatMap Contour.rings).countP (fun ring => decide (p ∈ ring))

/-- A sweep oracle satisfying the interface contract of §4.2: it returns
the ambiguous code itself or its bitwise complement. -/
def OracleOK (o : Vertex → Nat → Nat) : Prop :=
  ∀ v t, o v t = t ∨ o v t = 15 - t

/-- Lookup of a key's count in an association list (0 when absent). -/
def countIn : List (Point2 × Nat) → Point2 → Nat
  | [], _ => 0
  | (q, n) :: t, p => if q = p then n else countIn t p

/-- Costs with `∞` as an order-theoretic top element. -/
def toTop : Option ℚ → WithTop ℚ
  | none => ⊤
  | some a => (a : WithTop ℚ)

/-- The heap priority of a work point, as a lexicographic key: smallest
cost first, then smallest x, then *largest* y (note the negation). The
front of the `simplifyRing` heap is the point with the least key. -/
def heapKey (e : SNode) : (WithTop ℚ) ×ₗ (ℚ ×ₗ ℚ) :=
  toLex (toTop e.2, toLex (e.1.1, -e.1.2))

/-!
### Concrete inputs used by witnesses and counterexamples
-/

/-- The 1×1 raster `[[1]]`. -/
def raster11 : Raster := ⟨1, 1, fun _ _ => true⟩

/-- The 2×1 raster `[[1, 0]]` (pixel `(0,0)` on, pixel `(1,0)` off). -/
def raster10 : Raster := ⟨2, 1, fun x _ => x = 0⟩

/-- Pixel-center origin, straight segments joined, default oracle. -/
def paramsC : Params := ⟨true, true, defaultOracle⟩

/-- The contour of `raster11` under `paramsC`. -/
def contour11 : Contour :=
  ⟨[[(-(1/2), -(1/2)), (1/2, -(1/2)), (1/2, 1/2), (-(1/2), 1/2)]], [(0, 0)]⟩

/-- The contour of `raster10` under `paramsC`. -/
def contour10 : Contour :=
  ⟨[[(-(1/2), -(1/2)), (1/2, -(1/2)), (1/2, 1/2), (-(1/2), 1/2)]], [(0, 0)]⟩

/-- One contour with a single ring that visits the same point three
times. -/
def contoursTriple : List Contour := [⟨[[(0, 0), (0, 0), (0, 0)]], []⟩]

/-- A five-point ring with two unlocked points of equal cost and equal x
but different y. -/
def ringTie : Polygon := [(1, 0), (0, 1), (0, 3), (1, 4), (3, 2)]

/-- Locks for `ringTie`: everything except `(0,1)` and `(0,3)`. -/
def lockTie : List Point2 := [(1, 0), (1, 4), (3, 2)]

def borderFold (cs : List Call) (m : List Vertex) : List Vertex :=
  cs.foldl (fun m c => setBorder c.ty c.i c.j m) m

/-!
### Linked-list structure of the segment store
-/

/-- The immutable identity of a segment: its lattice endpoints. -/
def keyOf (s : Segment) : Vertex × Vertex := (s.start, s.stop)

/-- Forget the `ringLeader` link (the only field the leader-distribution
writes touch). -/
def noL (s : Segment) : Segment := { s with leader := none }

def segNext (segs : List Segment) (x : Nat) : Option Nat :=
  (segs.get? x).bind (·.next)

def segPrev (segs : List Segment) (x : Nat) : Option Nat :=
  (segs.get? x).bind (·.prev)

def segLeader (segs : List Segment) (x : Nat) : Option Nat :=
  (segs.get? x).bind (·.leader)

/-- `x --next--> y` with the back link and matching lattice endpoints. -/
def linked (segs : List Segment) (x y : Nat) : Prop :=
  segNext segs x = some y ∧ segPrev segs y = some x ∧
  ∃ sx sy, segs.get? x = some sx ∧ segs.get? y = some sy ∧ sx.stop = sy.start

/-- The stores agree at `x` up to the `ringLeader` field. -/
def sameSeg (segs segs' : List Segment) (x : Nat) : Prop :=
  (segs'.get? x).map noL = (segs.get? x).map noL

/-- Row-major sweep order on cells. -/
def cellLt (c c' : Cell) : Prop :=
  c.j < c'.j ∨ (c.j = c'.j ∧ c.i < c'.i)

/-- The cell code assembled from its four corner bits
(`b0 = (i,j+1)`, `b1 = (i+1,j+1)`, `b2 = (i+1,j)`, `b3 = (i,j)`). -/
def bits2code (b0 b1 b2 b3 : Bool) : Nat :=
  b0.toNat + 2 * b1.toNat + 4 * b2.toNat + 8 * b3.toNat

/-- The codes a border cell can classify to: every border cell has two
corner bits reading out-of-range zeros. -/
def validBorderCodes : List Nat := [0, 1, 2, 3, 4, 6, 8, 9, 12]

/-- Which of the three `addAmbiguous` behaviours an oracle answer selects:
`0` = kept, `1` = swapped to the other saddle, `2` = any other answer (no
segments are emitted at all). -/
def ambClass (otype amb : Nat) : Nat :=
  if amb = otype then 0 else if amb = 15 - otype then 1 else 2

/-- Start/end offset pairs (relative to the doubled cell origin `(2i,2j)`)
of the segments an inner cell emits, from the `add` table. -/
def innerKeys (code cls : Nat) : List ((ℤ × ℤ) × (ℤ × ℤ)) :=
  match code with
  | 1 => [((0,1),(1,2))]
  | 2 => [((1,2),(2,1))]
  | 3 => [((0,1),(2,1))]
  | 4 => [((2,1),(1,0))]
  | 5 => match cls with
    | 0 => [((0,1),(1,0)), ((2,1),(1,2))]
    | 1 => [((2,1),(1,0)), ((0,1),(1,2))]
    | _ => []
  | 6 => [((1,2),(1,0))]
  | 7 => [((0,1),(1,0))]
  | 8 => [((1,0),(0,1))]
  | 9 => [((1,0),(1,2))]
  | 10 => match cls with
    | 0 => [((1,0),(2,1)), ((1,2),(0,1))]
    | 1 => [((1,0),(0,1)), ((1,2),(2,1))]
    | _ => []
  | 11 => [((1,0),(2,1))]
  | 12 => [((2,1),(0,1))]
  | 13 => [((2,1),(1,2))]
  | 14 => [((1,2),(0,1))]
  | _ => []

/-- Offset key pairs of the segments a border cell emits, from the
`addBorder` table; the third, fall-through segment of code `0b0010` is
listed separately (`dupKey`). -/
def borderKeys (code : Nat) : List ((ℤ × ℤ) × (ℤ × ℤ)) :=
  match code with
  | 1 => [((0,1),(1,1)), ((1,1),(1,2))]
  | 2 => [((1,2),(1,1)), ((1,1),(2,1))]
  | 3 => [((0,1),(2,1))]
  | 4 => [((2,1),(1,1)), ((1,1),(1,0))]
  | 5 => [((0,1),(0,0)), ((0,0),(1,0)), ((2,1),(2,2)), ((2,2),(1,2))]
  | 6 => [((1,2),(1,0))]
  | 7 => [((0,1),(0,0)), ((0,0),(1,0))]
  | 8 => [((1,0),(1,1)), ((1,1),(0,1))]
  | 9 => [((1,0),(1,2))]
  | 10 => [((1,0),(2,0)), ((2,0),(2,1)), ((1,2),(0,2)), ((0,2),(0,1))]
  | 11 => [((1,0),(2,0)), ((2,0),(2,1))]
  | 12 => [((2,1),(0,1))]
  | 13 => [((2,1),(2,2)), ((2,2),(1,2))]
  | 14 => [((1,2),(0,2)), ((0,2),(0,1))]
  | _ => []

def cellKeysN (isB : Bool) (code cls : Nat) : List ((ℤ × ℤ) × (ℤ × ℤ)) :=
  if isB then borderKeys code else innerKeys code cls

def hasDup (isB : Bool) (code : Nat) : Bool := isB && code == 2

def shiftKey (i j : ℤ) (k : (ℤ × ℤ) × (ℤ × ℤ)) : Vertex × Vertex :=
  ((2*i + k.1.1, 2*j + k.1.2), (2*i + k.2.1, 2*j + k.2.2))

/-- The key pair of the rejected fall-through segment of border code
`0b0010`. -/
def dupKey (i j : ℤ) : Vertex × Vertex := ((2*i, 2*j+1), (2*i+2, 2*j+1))

def callKey (c : Call) : Vertex × Vertex := (c.a, c.b)

/-- The principal (actually stored) key list a cell contributes. -/
def cellStoreKeys (r : Raster) (P : Params) (c : Cell) :
    List (Vertex × Vertex) :=
  (cellKeysN c.isBorder (getFlags r c.i c.j)
    (ambClass (getFlags r c.i c.j)
      (P.ambiguousType (2*c.i, 2*c.j) (getFlags r c.i c.j)))).map
    (shiftKey c.i c.j)

/-- Well-formedness of a key offset: inside the doubled cell square, not a
cell corner (at least one odd coordinate). -/
abbrev offOK (o : ℤ × ℤ) : Prop :=
  (0 ≤ o.1 ∧ o.1 ≤ 2 ∧ 0 ≤ o.2 ∧ o.2 ≤ 2) ∧ (o.1 % 2 = 1 ∨ o.2 % 2 = 1)

/-- A configuration actually arising in a sweep: border cells only carry
band-restricted codes. -/
abbrev validCfg (isB : Bool) (code : Nat) : Prop :=
  isB = true → code ∈ validBorderCodes

/-- The vertices `extract`'s loop collects along a visit list (predecessor
passed for the direction comparison). -/
def walkSpell (P : Params) (segs : List Segment) : Nat → List Nat → List Vertex
  | _, [] => []
  | p, s :: t =>
    (match segs.get? s, segs.get? p with
     | some ss, some ps =>
       if !P.joinStraightSegments || decide (ss.dir ≠ ps.dir) then [ss.start]
       else []
     | _, _ => []) ++ walkSpell P segs s t

/-- The ring `extract` emits from a closed chain listed head first. -/
def ringOfCycle (P : Params) (segs : List Segment) (cyc : List Nat) :
    List Vertex :=
  match cyc, cyc.getLast? with
  | head :: rest, some lst =>
    (match segs.get? head with | some hs => [hs.start] | none => []) ++
    (match segs.get? head, segs.get? lst with
     | some hs, some ls =>
       if hs.type ≠ ls.type then walkSpell P segs head rest
       else walkSpell P segs head rest.dropLast
     | _, _ => [])
  | _, _ => []

/-- A cyclically closed chain of segments: consecutive `next`/`prev` links
with matching lattice endpoints, wrapping around. -/
def CycClosed (segs : List Segment) (cyc : List Nat) : Prop :=
  cyc ≠ [] ∧ List.Chain' (linked segs) cyc ∧
  (∀ x y, cyc.getLast? = some x → cyc.head? = some y → linked segs x y)

/-- The ring was extracted from a closed chain of the store. -/
def RingWitness (P : Params) (segs : List Segment) (ring : List Vertex) :
    Prop :=
  ∃ cyc, CycClosed segs cyc ∧ ring = ringOfCycle P segs cyc

/-- `x₀ → x₁ → ... → xₖ → e` along `next` links. -/
def nextChainTo (segs : List Segment) : List Nat → Nat → Prop
  | [], _ => True
  | [x], e => segNext segs x = some e
  | x :: y :: t, e => segNext segs x = some y ∧ nextChainTo segs (y :: t) e

/-- No segment is degenerate (the tables never emit `start = end`). -/
def NDSeg (segs : List Segment) : Prop :=
  ∀ x s, segs.get? x = some s → s.start ≠ s.stop

/-- C8's invariant, forward direction: `A.next = B` implies `B.prev = A`
and `A.end = B.start`. -/
def NextProp (segs : List Segment) : Prop :=
  ∀ x y sx, segs.get? x = some sx → sx.next = some y →
    ∃ sy, segs.get? y = some sy ∧ sy.prev = some x ∧ sx.stop = sy.start

/-- The mirror invariant: `B.prev = A` implies `A.next = B`. -/
def PrevProp (segs : List Segment) : Prop :=
  ∀ x y sy, segs.get? y = some sy → sy.prev = some x →
    ∃ sx, segs.get? x = some sx ∧ sx.next = some y

/-- The doubly-linked-store invariant. -/
def Inv2 (segs : List Segment) : Prop :=
  NextProp segs ∧ PrevProp segs ∧ NDSeg segs

/-- The store writes of a fresh `addSegment`: append the new segment with
the found links, point the predecessor's `next` and the successor's
`prev` at it.  Everything `linkSegment` does beyond this only rewrites
`ringLeader` fields. -/
def linkWrite (segs : List Segment) (ty : Nat) (dir : Direction)
    (a b : Vertex) : List Segment :=
  let prev := findByEnd segs a
  let next := findByStart segs b
  let segs1 := segs ++ [(⟨ty, dir, a, b, prev, next, none⟩ : Segment)]
  let segs2 :=
    match prev with
    | some p => modSeg (fun s => { s with next := some segs.length }) p segs1
    | none => segs1
  match next with
  | some q => modSeg (fun s => { s with prev := some segs.length }) q segs2
  | none => segs2

/-- The rolling invariant of the sweep: the stored keys are exactly `K`,
the store is a well-formed doubly-linked structure, and every emitted ring
was extracted from a closed chain of the current store. -/
def KeyInv (P : Params) (st : BState) (K : List (Vertex × Vertex)) : Prop :=
  st.segs.map keyOf = K ∧ Inv2 st.segs ∧
  ∀ ring ∈ st.rings, RingWitness P st.segs ring

/-- The stored keys after a call list: a call colliding with a stored key
is rejected by the `ordered_unique` indices, a fresh one appends its key. -/
def keysAfter (K : List (Vertex × Vertex)) :
    List Call → List (Vertex × Vertex)
  | [] => K
  | c :: cs =>
    if ∃ k ∈ K, k.1 = c.a ∨ k.2 = c.b then keysAfter K cs
    else keysAfter (K ++ [(c.a, c.b)]) cs

/-- Admissibility of a call list against stored keys `K`: each call is
either entirely fresh (neither endpoint key occurs on the matching side)
or a strict duplicate (it collides in the store but links to nothing). -/
def RunOK (K : List (Vertex × Vertex)) : List Call → Prop
  | [] => True
  | c :: cs =>
    ((∀ k ∈ K, k.1 ≠ c.a ∧ k.2 ≠ c.b) ∧ c.a ≠ c.b ∧
      RunOK (K ++ [(c.a, c.b)]) cs) ∨
    ((∀ k ∈ K, k.2 ≠ c.a ∧ k.1 ≠ c.b) ∧ (∃ k ∈ K, k.1 = c.a ∨ k.2 = c.b) ∧
      RunOK K cs)

/-!
## Theorems

Helper lemmas first, then one theorem per claim (with witnesses and
counterexamples where required).
-/

theorem mem_insertPt {p q : Vertex} {m : List Vertex} :
    p ∈ insertPt q m ↔ p ∈ m ∨ p = q := by
  unfold insertPt
  split
  · rename_i hq
    constructor
    · exact Or.inl
    · rintro (h | rfl)
      · exact h
      · exact hq
  · simp [or_comm]

/-- Membership in whatever `setBorder` produced: the old mask plus the
`actualMarks` of the code. -/
theorem setBorder_mem (c : Nat) (hc : c < 16) (i j : ℤ) (m : List Vertex) (p : Vertex) :
    p ∈ setBorder c i j m ↔ p ∈ m ∨ p ∈ actualMarks c i j := by
  interval_cases c <;>
    simp [setBorder, actualMarks, popcount4, bitCorners, allCorners,
      mem_insertPt, Nat.testBit] <;>
    tauto

theorem contour11_eval : findContour paramsC raster11 = some contour11 := by
  have hr : (sweep paramsC raster11).rings =
      [[(-1, -1), (1, -1), (1, 1), (-1, 1)]] := by decide
  have hb : (sweep paramsC raster11).border = [(0, 0)] := by decide
  have he : (sweep paramsC raster11).err = false := by decide
  simp only [findContour, hr, hb, he, Bool.false_eq_true, if_false,
    List.map_cons, List.map_nil, Option.some.injEq, contour11, Contour.mk.injEq]
  norm_num [cvt, offset, paramsC]

theorem contour10_eval : findContour paramsC raster10 = some contour10 := by
  have hr : (sweep paramsC raster10).rings =
      [[(-1, -1), (1, -1), (1, 1), (-1, 1)]] := by decide
  have hb : (sweep paramsC raster10).border = [(0, 0)] := by decide
  have he : (sweep paramsC raster10).err = false := by decide
  simp only [findContour, hr, hb, he, Bool.false_eq_true, if_false,
    List.map_cons, List.map_nil, Option.some.injEq, contour10, Contour.mk.injEq]
  norm_num [cvt, offset, paramsC]

/-- C1: the 1×1 raster `[[1]]`, pixel-center origin, joined straight
segments: one ring with vertex sequence
`(-0.5,-0.5), (0.5,-0.5), (0.5,0.5), (-0.5,0.5)` and border mask `{(0,0)}`. -/
theorem c1_one_pixel :
    findContour paramsC raster11 =
      some ⟨[[(-(1/2), -(1/2)), (1/2, -(1/2)), (1/2, 1/2), (-(1/2), 1/2)]],
            [(0, 0)]⟩ :=
  contour11_eval

/-- C9: a 0×0 raster (any pixel function) returns a contour with no rings
and an empty border mask, for every parameter set — not an error. -/
theorem c9_degenerate_raster (P : Params) (v : ℤ → ℤ → Bool) :
    findContour P ⟨0, 0, v⟩ = some ⟨[], []⟩ := by
  rfl

/-- C3 fails as stated: `setBorder` with the three-bit code `0b0111` marks
the corner `(i, j)` although bit 3 is clear; at `(0,0)` on the empty mask
the pixel `(0,0)` is marked, while the claim's table marks only the three
set-bit corners. -/
theorem c3_counterexample :
    ¬ (∀ (c : Nat), c < 16 → ∀ (i j : ℤ) (m : List Vertex) (p : Vertex),
        (p ∈ setBorder c i j m ↔ p ∈ m ∨ p ∈ claimMarks c i j)) := by
  intro h
  have h7 := (h 7 (by norm_num) 0 0 [] ((0 : ℤ), (0 : ℤ))).mp (by decide)
  revert h7
  decide

/-- C3, amended: `setBorder` marks the set-bit corners of the code, except
that the saddles `0101`, `1010` *and every code with three set bits* mark
all four corners, and `0000`/`1111` mark nothing. -/
theorem c3_setBorder_marks (c : Nat) (hc : c < 16) (i j : ℤ) (m : List Vertex)
    (p : Vertex) :
    p ∈ setBorder c i j m ↔ p ∈ m ∨ p ∈ actualMarks c i j :=
  setBorder_mem c hc i j m p

/-- Witness for `c3_setBorder_marks` at code 7. -/
theorem c3_setBorder_marks_witness :
    (7 : Nat) < 16 ∧
      (((0 : ℤ), (0 : ℤ)) ∈ setBorder 7 0 0 [] ↔
        ((0 : ℤ), (0 : ℤ)) ∈ ([] : List Vertex) ∨
          ((0 : ℤ), (0 : ℤ)) ∈ actualMarks 7 0 0) :=
  ⟨by norm_num, c3_setBorder_marks 7 (by norm_num) 0 0 [] ((0 : ℤ), (0 : ℤ))⟩

/-!
### Locked points (C5)
-/

theorem bump_cons_eq (r q : Point2) (n : Nat) (t : List (Point2 × Nat))
    (h : r = q) : bump ((r, n) :: t) q = (r, n + 1) :: t := by
  simp [bump, h]

theorem bump_cons_ne (r q : Point2) (n : Nat) (t : List (Point2 × Nat))
    (h : ¬ r = q) : bump ((r, n) :: t) q = (r, n) :: bump t q := by
  simp [bump, h]

theorem countIn_bump (m : List (Point2 × Nat)) (p q : Point2) :
    countIn (bump m q) p = countIn m p + (if p = q then 1 else 0) := by
  induction m with
  | nil =>
    simp only [bump, countIn]
    by_cases h : q = p
    · simp [h]
    · rw [if_neg h, if_neg (fun hpq => h (Eq.symm hpq))]
  | cons e t ih =>
    obtain ⟨r, n⟩ := e
    by_cases hrq : r = q
    · rw [bump_cons_eq r q n t hrq]
      subst hrq
      simp only [countIn]
      by_cases hp : r = p
      · subst hp
        simp
      · rw [if_neg hp, if_neg hp, if_neg (fun hpq => hp (Eq.symm hpq)), Nat.add_zero]
    · rw [bump_cons_ne r q n t hrq]
      simp only [countIn]
      by_cases hp : r = p
      · have hpq : ¬ p = q := fun h => hrq (hp.trans h)
        simp [hp, hpq]
      · rw [if_neg hp, if_neg hp, ih]

theorem keys_bump (m : List (Point2 × Nat)) (p q : Point2) :
    p ∈ (bump m q).map Prod.fst ↔ p ∈ m.map Prod.fst ∨ p = q := by
  induction m with
  | nil => simp [bump, eq_comm]
  | cons e t ih =>
    obtain ⟨r, n⟩ := e
    by_cases hrq : r = q
    · rw [bump_cons_eq r q n t hrq]
      subst hrq
      simp only [List.map_cons, List.mem_cons]
      tauto
    · rw [bump_cons_ne r q n t hrq]
      simp only [List.map_cons, List.mem_cons, ih]
      tauto

theorem keysNodup_bump (m : List (Point2 × Nat)) (q : Point2)
    (h : (m.map Prod.fst).Nodup) : ((bump m q).map Prod.fst).Nodup := by
  induction m with
  | nil => simp [bump]
  | cons e t ih =>
    obtain ⟨r, n⟩ := e
    simp only [List.map_cons, List.nodup_cons] at h
    by_cases hrq : r = q
    · rw [bump_cons_eq r q n t hrq]
      simp only [List.map_cons, List.nodup_cons]
      exact ⟨h.1, h.2⟩
    · rw [bump_cons_ne r q n t hrq]
      simp only [List.map_cons, List.nodup_cons]
      refine ⟨?_, ih h.2⟩
      intro hmem
      rcases (keys_bump t r q).mp hmem with hin | hrq2
      · exact h.1 hin
      · exact hrq hrq2

theorem countIn_of_mem (m : List (Point2 × Nat)) (e : Point2 × Nat)
    (hn : (m.map Prod.fst).Nodup) (he : e ∈ m) : countIn m e.1 = e.2 := by
  induction m with
  | nil => cases he
  | cons f t ih =>
    obtain ⟨r, n⟩ := f
    simp only [List.map_cons, List.nodup_cons] at hn
    rcases List.mem_cons.mp he with he1 | he1
    · subst he1
      simp [countIn]
    · have hne : ¬ r = e.1 := by
        intro hre
        exact hn.1 (hre ▸ (List.mem_map.mpr ⟨e, he1, rfl⟩))
      simp only [countIn, if_neg hne]
      exact ih hn.2 he1

theorem mem_keys_of_pos (m : List (Point2 × Nat)) (p : Point2)
    (h : 0 < countIn m p) : p ∈ m.map Prod.fst := by
  induction m with
  | nil => simp [countIn] at h
  | cons f t ih =>
    obtain ⟨r, n⟩ := f
    simp only [countIn] at h
    by_cases hrp : r = p
    · simp [hrp]
    · simp only [if_neg hrp] at h
      simp [ih h]

theorem countIn_ringFold (ring : Polygon) (m : List (Point2 × Nat)) (p : Point2) :
    countIn (ring.foldl bump m) p = countIn m p + ring.count p := by
  induction ring generalizing m with
  | nil => simp
  | cons a t ih =>
    simp only [List.foldl_cons, ih, countIn_bump, List.count_cons, beq_iff_eq]
    by_cases h : p = a
    · subst h
      simp
      omega
    · rw [if_neg h, if_neg (fun hap => h (Eq.symm hap))]
      omega

theorem keysNodup_ringFold (ring : Polygon) (m : List (Point2 × Nat))
    (h : (m.map Prod.fst).Nodup) : ((ring.foldl bump m).map Prod.fst).Nodup := by
  induction ring generalizing m with
  | nil => exact h
  | cons a t ih => exact ih _ (keysNodup_bump m a h)

theorem countIn_ringsFold (rs : List Polygon) (m : List (Point2 × Nat)) (p : Point2) :
    countIn (rs.foldl (fun m ring => ring.foldl bump m) m) p =
      countIn m p + (rs.map (fun ring => ring.count p)).sum := by
  induction rs generalizing m with
  | nil => simp
  | cons ring t ih =>
    simp only [List.foldl_cons, ih, countIn_ringFold, List.map_cons, List.sum_cons]
    omega

theorem keysNodup_ringsFold (rs : List Polygon) (m : List (Point2 × Nat))
    (h : (m.map Prod.fst).Nodup) :
    ((rs.foldl (fun m ring => ring.foldl bump m) m).map Prod.fst).Nodup := by
  induction rs generalizing m with
  | nil => exact h
  | cons ring t ih => exact ih _ (keysNodup_ringFold ring m h)

theorem totalCount_cons (p : Point2) (c : Contour) (t : List Contour) :
    totalCount p (c :: t) =
      (c.rings.map (fun ring => ring.count p)).sum + totalCount p t := by
  simp [totalCount]

theorem countIn_cardinality (cs : List Contour) (p : Point2) :
    countIn (cardinality cs) p = totalCount p cs := by
  have main : ∀ (l : List Contour) (m : List (Point2 × Nat)),
      countIn (l.foldl (fun m c => c.rings.foldl
        (fun m ring => ring.foldl bump m) m) m) p =
      countIn m p + totalCount p l := by
    intro l
    induction l with
    | nil => simp [totalCount]
    | cons c t ih =>
      intro m
      rw [List.foldl_cons, ih, countIn_ringsFold, totalCount_cons]
      have hb : (c.rings.map (fun ring => List.count p ring)).sum
          = (c.rings.map (fun ring => ring.count p)).sum := rfl
      rw [hb]
      omega
  simpa [cardinality, countIn] using main cs []

theorem keysNodup_cardinality (cs : List Contour) :
    ((cardinality cs).map Prod.fst).Nodup := by
  have main : ∀ (l : List Contour) (m : List (Point2 × Nat)),
      (m.map Prod.fst).Nodup →
      ((l.foldl (fun m c => c.rings.foldl
        (fun m ring => ring.foldl bump m) m) m).map Prod.fst).Nodup := by
    intro l
    induction l with
    | nil => exact fun m h => h
    | cons c t ih =>
      intro m hm
      exact ih _ (keysNodup_ringsFold c.rings m hm)
  simpa [cardinality] using main cs [] (by simp)

/-- C5, amended: a vertex is locked (given cost `+∞` and never entered in
the work heap by `simplifyRing`) iff its total number of occurrences,
counted *with multiplicity*, across all rings of all contours exceeds
two — not the number of distinct rings containing it. -/
theorem c5_locked_iff (cs : List Contour) (p : Point2) :
    p ∈ findLockedPoints cs ↔ 2 < totalCount p cs := by
  unfold findLockedPoints
  rw [List.mem_map]
  constructor
  · rintro ⟨e, hmem, rfl⟩
    rw [List.mem_filter] at hmem
    have := countIn_of_mem (cardinality cs) e (keysNodup_cardinality cs) hmem.1
    have h2 : 2 < e.2 := by simpa using hmem.2
    rw [countIn_cardinality] at this
    omega
  · intro h
    rw [← countIn_cardinality] at h
    have hpos : 0 < countIn (cardinality cs) p := by omega
    obtain ⟨e, he, hfst⟩ := List.mem_map.mp (mem_keys_of_pos _ _ hpos)
    refine ⟨e, ?_, hfst⟩
    rw [List.mem_filter]
    refine ⟨he, ?_⟩
    have := countIn_of_mem (cardinality cs) e (keysNodup_cardinality cs) he
    rw [hfst] at this
    simp only [decide_eq_true_eq]
    omega

/-!
### The simplifier never invents vertices (C10)
-/

theorem getD_range_map {α : Type} (l : List α) (d : α) :
    (List.range l.length).map (fun k => l.getD k d) = l := by
  induction l with
  | nil => simp
  | cons a t ih =>
    rw [List.length_cons, List.range_succ_eq_map, List.map_cons, List.map_map]
    have hc : ((fun k => (a :: t).getD k d) ∘ Nat.succ) = fun k => t.getD k d := by
      funext k
      simp
    simp only [List.getD_cons_zero, hc, ih]

theorem mkNodes_proj (lp : List Point2) (ring : Polygon) :
    (mkNodes lp ring).map (fun e => e.2.1) = ring := by
  unfold mkNodes
  rw [List.map_map]
  exact getD_range_map ring (0, 0)

theorem set_same {α : Type} :
    ∀ (l : List α) (i : Nat) (a : α), l.get? i = some a → l.set i a = l
  | [], _, _, h => by cases h
  | b :: t, 0, a, h => by
      simp only [List.get?_cons_zero, Option.some.injEq] at h
      rw [List.set_cons_zero, h]
  | b :: t, i+1, a, h => by
      rw [List.set_cons_succ, set_same t i a h]

theorem updCost_proj (nodes : List (Nat × SNode)) (pos pa pb : Nat) :
    (updCost nodes pos pa pb).map (fun e => e.2.1) = nodes.map (fun e => e.2.1) := by
  unfold updCost
  cases hg : nodes.get? pos with
  | none => rfl
  | some e =>
    obtain ⟨id, p, c⟩ := e
    cases c with
    | none => rfl
    | some a =>
      rw [List.map_set]
      apply set_same
      rw [List.get?_map, hg]
      rfl

theorem removeStep_proj_sublist (nodes : List (Nat × SNode)) (sel : Nat) :
    ((removeStep nodes sel).map (fun e => e.2.1)).Sublist
      (nodes.map (fun e => e.2.1)) := by
  unfold removeStep
  cases h : idxOf nodes sel with
  | none =>
    simp only [h]
    exact List.Sublist.refl _
  | some k =>
    simp only [h]
    have hsub : ((nodes.eraseIdx k).map (fun e => e.2.1)).Sublist
        (nodes.map (fun e => e.2.1)) :=
      (List.eraseIdx_sublist nodes k).map _
    split
    · exact hsub
    · rw [updCost_proj, updCost_proj]
      exact hsub

theorem simplifyLoopT_proj_sublist (stop2 : ℚ) :
    ∀ (fuel : Nat) (heap : List Nat) (nodes : List (Nat × SNode)),
    (((simplifyLoopT stop2 fuel heap nodes).1).map (fun e => e.2.1)).Sublist
      (nodes.map (fun e => e.2.1)) := by
  intro fuel
  induction fuel with
  | zero => exact fun heap nodes => List.Sublist.refl _
  | succ n ih =>
    intro heap nodes
    cases heap with
    | nil => exact List.Sublist.refl _
    | cons h t =>
      simp only [simplifyLoopT]
      split
      · exact List.Sublist.refl _
      · exact (ih _ _).trans
          (removeStep_proj_sublist nodes (selectMax nodes t h))

/-- C10: the ring returned by `simplifyRing` is a subsequence of the input
ring (vertices unchanged, relative order preserved, nothing added); since
`simplify` only replaces each ring of each contour by `simplifyRing` of it,
`simplify` never introduces coordinates absent from its input. -/
theorem c10_subsequence :
    (∀ (ring : Polygon) (lp : List Point2) (stop : ℚ),
        (simplifyRing ring lp stop).Sublist ring) ∧
    (∀ (cs : List Contour), ∀ c ∈ simplify cs, ∀ rg ∈ c.rings,
        ∃ c0 ∈ cs, ∃ rg0 ∈ c0.rings, rg.Sublist rg0) := by
  have part1 : ∀ (ring : Polygon) (lp : List Point2) (stop : ℚ),
      (simplifyRing ring lp stop).Sublist ring := by
    intro ring lp stop
    unfold simplifyRing
    split
    · exact List.Sublist.refl _
    · have h := simplifyLoopT_proj_sublist (stop * 2)
        (mkHeap lp ring).length (mkHeap lp ring) (mkNodes lp ring)
      rw [mkNodes_proj] at h
      exact h
  refine ⟨part1, ?_⟩
  intro cs c hc rg hrg
  unfold simplify at hc
  obtain ⟨c0, hc0, rfl⟩ := List.mem_map.mp hc
  by_cases hemp : c0.rings.isEmpty
  · simp only [hemp, if_pos] at hrg
    refine ⟨c0, hc0, rg, hrg, List.Sublist.refl _⟩
  · simp only [hemp, if_neg, Bool.false_eq_true] at hrg
    obtain ⟨rg0, hrg0, rfl⟩ := List.mem_map.mp hrg
    exact ⟨c0, hc0, rg0, hrg0, part1 rg0 _ 10⟩

/-- Witness: `c10_subsequence` applied at a concrete ring. -/
theorem c10_subsequence_witness :
    (simplifyRing ringTie lockTie 100).Sublist ringTie :=
  c10_subsequence.1 ringTie lockTie 100

/-!
### The border cell `0b0010` (C2)

Supporting lemmas describing single `addSegment` calls symbolically, used
here and by the sweep-level development below.
-/



theorem findByEnd_none (l : List Segment) (v : Vertex)
    (h : ∀ s ∈ l, s.stop ≠ v) : findByEnd l v = none := by
  unfold findByEnd
  rw [List.findIdx?_eq_none_iff]
  intro s hs
  simpa using h s hs

theorem findByStart_none (l : List Segment) (v : Vertex)
    (h : ∀ s ∈ l, s.start ≠ v) : findByStart l v = none := by
  unfold findByStart
  rw [List.findIdx?_eq_none_iff]
  intro s hs
  simpa using h s hs

theorem addSegment_stranded (P : Params) (st : BState) (i j : ℤ) (a b : Vertex)
    (ty : Nat) (dir : Direction)
    (hEa : findByEnd st.segs a = none)
    (hSb : findByStart st.segs b = none)
    (hSa : findByStart st.segs a = none)
    (hEb : findByEnd st.segs b = none) :
    addSegment P ty dir i j a b st =
      { st with
          border := setBorder ty i j st.border
          segs := st.segs ++ [⟨ty, dir, a, b, none, none, none⟩] } := by
  simp only [addSegment, linkSegment, hEa, hSb, hSa, hEb]
  simp

theorem modSeg_length (f : Segment → Segment) (n : Nat) (l : List Segment) :
    (modSeg f n l).length = l.length := by
  induction l generalizing n with
  | nil => cases n <;> rfl
  | cons a t ih =>
    cases n with
    | zero => rfl
    | succ m =>
      show (a :: modSeg f m t).length = (a :: t).length
      simp [ih]

theorem modSeg_modSeg (f g : Segment → Segment) (n : Nat) (l : List Segment) :
    modSeg f n (modSeg g n l) = modSeg (fun s => f (g s)) n l := by
  induction l generalizing n with
  | nil => cases n <;> rfl
  | cons a t ih =>
    cases n with
    | zero => rfl
    | succ m =>
      show a :: modSeg f m (modSeg g m t) = a :: modSeg (fun s => f (g s)) m t
      rw [ih]

theorem modSeg_append_lt (f : Segment → Segment) (l x : List Segment)
    (n : Nat) (h : n < l.length) :
    modSeg f n (l ++ x) = modSeg f n l ++ x := by
  induction l generalizing n with
  | nil => cases h
  | cons a t ih =>
    cases n with
    | zero => rfl
    | succ m =>
      show a :: modSeg f m (t ++ x) = a :: (modSeg f m t ++ x)
      rw [ih m (by simpa using Nat.lt_of_succ_lt_succ h)]

theorem modSeg_append_eq (f : Segment → Segment) (l : List Segment) (x : Segment) :
    modSeg f l.length (l ++ [x]) = l ++ [f x] := by
  induction l with
  | nil => rfl
  | cons a t ih =>
    show a :: modSeg f t.length (t ++ [x]) = a :: (t ++ [f x])
    rw [ih]

theorem modSeg_append_eq2 (f : Segment → Segment) (l : List Segment)
    (x : Segment) (n : Nat) (h : n = l.length) :
    modSeg f n (l ++ [x]) = l ++ [f x] := by
  subst h
  exact modSeg_append_eq f l x

theorem get?_append_length (l : List Segment) (x : Segment) :
    (l ++ [x]).get? l.length = some x := by
  induction l with
  | nil => rfl
  | cons a t ih => simpa using ih

/-- `addSegment` with a fresh segment whose `start` matches an existing
`end` (tail of an open chain) and nothing else, the chain having no
leader: link and give everything the new segment as leader. -/
theorem addSegment_prev_noleader (P : Params) (ty : Nat) (dir : Direction)
    (i j : ℤ) (a b : Vertex) (st : BState) (p : Nat)
    (hP : findByEnd st.segs a = some p)
    (hN : findByStart st.segs b = none)
    (hSa : findByStart st.segs a = none)
    (hEb : findByEnd st.segs b = none)
    (hplen : p < st.segs.length)
    (hpL : (st.segs.get? p).bind (·.leader) = none) :
    addSegment P ty dir i j a b st =
      { st with
          border := setBorder ty i j st.border
          segs := modSeg (fun s =>
              { s with next := some st.segs.length,
                       leader := some st.segs.length }) p st.segs ++
            [⟨ty, dir, a, b, some p, none, some st.segs.length⟩] } := by
  have hg : (st.segs ++
      [(⟨ty, dir, a, b, some p, none, none⟩ : Segment)]).get? p = st.segs.get? p :=
    List.get?_append hplen
  simp only [addSegment, linkSegment, hP, hN, hSa, hEb, hg, hpL]
  simp only [reduceCtorEq, false_and, if_false, and_self, if_true, ite_true,
    ite_false, and_true, true_and]
  rw [modSeg_append_lt _ _ _ _ hplen,
    modSeg_append_eq2 _ _ _ _ (by rw [modSeg_length]),
    modSeg_append_lt _ _ _ _ (by rw [modSeg_length]; exact hplen),
    modSeg_modSeg]

theorem findByStart_append_single (l : List Segment) (x : Segment) (v : Vertex)
    (h : findByStart l v = none) :
    findByStart (l ++ [x]) v =
      if x.start = v then some l.length else none := by
  unfold findByStart at *
  rw [List.findIdx?_append, h]
  by_cases hx : x.start = v <;> simp [hx]

theorem findByEnd_append_single (l : List Segment) (x : Segment) (v : Vertex)
    (h : findByEnd l v = none) :
    findByEnd (l ++ [x]) v =
      if x.stop = v then some l.length else none := by
  unfold findByEnd at *
  rw [List.findIdx?_append, h]
  by_cases hx : x.stop = v <;> simp [hx]

/-- `addSegment` whose insertion is rejected by the `EndIdx` unique index
and which finds neither predecessor nor successor: only the border mask
changes. -/
theorem addSegment_rejected_stranded (P : Params) (ty : Nat) (dir : Direction)
    (i j : ℤ) (a b : Vertex) (st : BState) (k : Nat)
    (hP : findByEnd st.segs a = none)
    (hN : findByStart st.segs b = none)
    (hEb : findByEnd st.segs b = some k) :
    addSegment P ty dir i j a b st =
      { st with border := setBorder ty i j st.border } := by
  simp only [addSegment, linkSegment, hP, hN, hEb]
  cases hSa : findByStart st.segs a <;> simp [hSa]

theorem mem_insertPt_self (p : Vertex) (m : List Vertex) : p ∈ insertPt p m := by
  unfold insertPt
  split
  · assumption
  · simp

theorem insertPt_idem (p : Vertex) (m : List Vertex) :
    insertPt p (insertPt p m) = insertPt p m := by
  show (if p ∈ insertPt p m then insertPt p m else insertPt p m ++ [p]) =
    insertPt p m
  rw [if_pos (mem_insertPt_self p m)]

theorem c2_border_code2 (P : Params) (st : BState) (i j : ℤ)
    (hs : ∀ s ∈ st.segs,
      s.start ≠ (2*i+1, 2*j+2) ∧ s.start ≠ (2*i+1, 2*j+1) ∧
      s.start ≠ (2*i+2, 2*j+1) ∧
      s.stop ≠ (2*i+1, 2*j+2) ∧ s.stop ≠ (2*i+1, 2*j+1) ∧
      s.stop ≠ (2*i+2, 2*j+1) ∧ s.stop ≠ (2*i, 2*j+1)) :
    addBorder P i j 2 st =
      { st with
          border := insertPt (i+1, j+1) st.border
          segs := st.segs ++
            [⟨2, .u, (2*i+1, 2*j+2), (2*i+1, 2*j+1),
              none, some (st.segs.length + 1), some (st.segs.length + 1)⟩,
             ⟨2, .r, (2*i+1, 2*j+1), (2*i+2, 2*j+1),
              some st.segs.length, none, some (st.segs.length + 1)⟩] } := by
  have hSa := findByStart_none st.segs (2*i+1, 2*j+2) (fun s h => (hs s h).1)
  have hSb := findByStart_none st.segs (2*i+1, 2*j+1) (fun s h => (hs s h).2.1)
  have hSc := findByStart_none st.segs (2*i+2, 2*j+1) (fun s h => (hs s h).2.2.1)
  have hEa := findByEnd_none st.segs (2*i+1, 2*j+2) (fun s h => (hs s h).2.2.2.1)
  have hEb := findByEnd_none st.segs (2*i+1, 2*j+1) (fun s h => (hs s h).2.2.2.2.1)
  have hEc := findByEnd_none st.segs (2*i+2, 2*j+1) (fun s h => (hs s h).2.2.2.2.2.1)
  have hEd := findByEnd_none st.segs (2*i, 2*j+1) (fun s h => (hs s h).2.2.2.2.2.2)
  have hne1 : ((2*i+1 : ℤ), (2*j+2 : ℤ)) ≠ (2*i+1, 2*j+1) := by
    intro hcon
    have := congrArg Prod.snd hcon
    simp at this
  have hne2 : ((2*i+1 : ℤ), (2*j+2 : ℤ)) ≠ (2*i+2, 2*j+1) := by
    intro hcon
    have := congrArg Prod.fst hcon
    simp at this
  have hne3 : ((2*i+1 : ℤ), (2*j+1 : ℤ)) ≠ (2*i+2, 2*j+1) := by
    intro hcon
    have := congrArg Prod.fst hcon
    simp at this
  have hne4 : ((2*i+1 : ℤ), (2*j+1 : ℤ)) ≠ (2*i, 2*j+1) := by
    intro hcon
    have := congrArg Prod.fst hcon
    simp at this
  have hne5 : ((2*i+2 : ℤ), (2*j+1 : ℤ)) ≠ (2*i, 2*j+1) := by
    intro hcon
    have := congrArg Prod.fst hcon
    simp at this
  set u : Segment :=
    ⟨2, .u, (2*i+1, 2*j+2), (2*i+1, 2*j+1), none, none, none⟩ with hu
  set u' : Segment :=
    ⟨2, .u, (2*i+1, 2*j+2), (2*i+1, 2*j+1),
      none, some (st.segs.length + 1), some (st.segs.length + 1)⟩ with hu2
  set r' : Segment :=
    ⟨2, .r, (2*i+1, 2*j+1), (2*i+2, 2*j+1),
      some st.segs.length, none, some (st.segs.length + 1)⟩ with hr2
  show runCalls P (addBorderCalls i j 2) st = _
  simp only [addBorderCalls, runCalls, List.foldl_cons, List.foldl_nil, mkCall,
    add_zero]
  rw [addSegment_stranded P st i j _ _ 2 .u hEa hSb hSa hEb]
  set st1 : BState :=
    { st with border := setBorder 2 i j st.border, segs := st.segs ++ [u] }
    with hst1
  have hlen1 : st1.segs = st.segs ++ [u] := rfl
  have hEb1 : findByEnd st1.segs (2*i+1, 2*j+1) = some st.segs.length := by
    rw [hlen1, findByEnd_append_single st.segs u _ hEb]
    simp [hu]
  have hSc1 : findByStart st1.segs (2*i+2, 2*j+1) = none := by
    rw [hlen1, findByStart_append_single st.segs u _ hSc]
    simp [hu, hne2]
  have hSb1 : findByStart st1.segs (2*i+1, 2*j+1) = none := by
    rw [hlen1, findByStart_append_single st.segs u _ hSb]
    simp [hu, hne1]
  have hEc1 : findByEnd st1.segs (2*i+2, 2*j+1) = none := by
    rw [hlen1, findByEnd_append_single st.segs u _ hEc]
    simp [hu, hne3]
  have hplen1 : st.segs.length < st1.segs.length := by
    rw [hlen1]
    simp
  have hpL1 : (st1.segs.get? st.segs.length).bind (·.leader) = none := by
    rw [hlen1, get?_append_length]
    simp [hu]
  rw [addSegment_prev_noleader P 2 .r i j _ _ st1 st.segs.length hEb1 hSc1
    hSb1 hEc1 hplen1 hpL1]
  set st2 : BState :=
    { st1 with
        border := setBorder 2 i j st1.border
        segs := modSeg (fun s =>
            { s with next := some st1.segs.length,
                     leader := some st1.segs.length }) st.segs.length st1.segs ++
          [⟨2, .r, (2*i+1, 2*j+1), (2*i+2, 2*j+1),
            some st.segs.length, none, some st1.segs.length⟩] } with hst2
  have hsegs2 : st2.segs = st.segs ++ [u', r'] := by
    rw [hst2]
    show modSeg _ st.segs.length st1.segs ++ _ = _
    rw [hlen1, modSeg_append_eq2 _ _ _ _ rfl]
    have hlen1b : st1.segs.length = st.segs.length + 1 := by
      rw [hlen1]
      simp
    rw [hlen1b, hu, hu2, hr2]
    simp [List.append_assoc]
  have hEd2 : findByEnd st2.segs (2*i, 2*j+1) = none := by
    rw [hsegs2]
    apply findByEnd_none
    intro s hsm
    rcases List.mem_append.mp hsm with hold | hnew
    · exact (hs s hold).2.2.2.2.2.2
    · rcases List.mem_cons.mp hnew with rfl | hnew2
      · exact hne4
      · rcases List.mem_cons.mp hnew2 with rfl | hnil
        · exact hne5
        · cases hnil
  have hSc2 : findByStart st2.segs (2*i+2, 2*j+1) = none := by
    rw [hsegs2]
    apply findByStart_none
    intro s hsm
    rcases List.mem_append.mp hsm with hold | hnew
    · exact (hs s hold).2.2.1
    · rcases List.mem_cons.mp hnew with rfl | hnew2
      · exact hne2
      · rcases List.mem_cons.mp hnew2 with rfl | hnil
        · exact hne3
        · cases hnil
  have hEc2 : findByEnd st2.segs (2*i+2, 2*j+1) = some (st.segs.length + 1) := by
    rw [hsegs2, show st.segs ++ [u', r'] = (st.segs ++ [u']) ++ [r'] by
      simp [List.append_assoc]]
    have hstep : findByEnd (st.segs ++ [u']) (2*i+2, 2*j+1) = none := by
      rw [findByEnd_append_single st.segs u' _ hEc]
      simp [hu2, hne3]
    rw [findByEnd_append_single _ r' _ hstep]
    simp [hr2]
  rw [addSegment_rejected_stranded P 2 .r i j _ _ st2 (st.segs.length + 1)
    hEd2 hSc2 hEc2]
  rw [hst2, hst1]
  show ({ st with
      border := setBorder 2 i j (setBorder 2 i j (setBorder 2 i j st.border))
      segs := _ } : BState) = _
  have hb : setBorder 2 i j (setBorder 2 i j (setBorder 2 i j st.border)) =
      insertPt (i+1, j+1) st.border := by
    show insertPt (i+1, j+1) (insertPt (i+1, j+1) (insertPt (i+1, j+1) st.border)) = _
    rw [insertPt_idem, insertPt_idem]
  rw [hb]
  have hsegs2b := hsegs2
  rw [hst2] at hsegs2b
  simp only [BState.mk.injEq]
  exact ⟨hsegs2b, trivial, trivial, trivial⟩


/-- Witness for `c2_border_code2` on the empty builder state at cell
`(0, 0)`. -/
theorem c2_border_code2_witness :
    addBorder paramsC 0 0 2 initState =
      { initState with
          border := insertPt (0+1, 0+1) initState.border
          segs := initState.segs ++
            [⟨2, .u, (2*0+1, 2*0+2), (2*0+1, 2*0+1),
              none, some (initState.segs.length + 1),
              some (initState.segs.length + 1)⟩,
             ⟨2, .r, (2*0+1, 2*0+1), (2*0+2, 2*0+1),
              some initState.segs.length, none,
              some (initState.segs.length + 1)⟩] } :=
  c2_border_code2 paramsC initState 0 0 (by intro s hs; cases hs)

/-!
### The removal order of `simplifyRing` (C6)
-/

theorem costLt_iff (a b : Option ℚ) : costLt a b = true ↔ toTop a < toTop b := by
  cases a <;> cases b <;>
    simp [costLt, toTop, WithTop.coe_lt_coe, WithTop.coe_lt_top, not_top_lt,
      lt_self_iff_false]

theorem toTop_inj {a b : Option ℚ} (h : toTop a = toTop b) : a = b := by
  cases a <;> cases b <;> simp [toTop, WithTop.coe_eq_coe] at h ⊢ <;> exact h

theorem lex_lt_iff {A B : Type} [LinearOrder A] [LinearOrder B]
    (a1 : A) (a2 : B) (c1 : A) (c2 : B) :
    toLex (a1, a2) < toLex (c1, c2) ↔ a1 < c1 ∨ (a1 = c1 ∧ a2 < c2) :=
  Prod.Lex.lt_iff (a1, a2) (c1, c2)

theorem lex_le_iff {A B : Type} [LinearOrder A] [LinearOrder B]
    (a1 : A) (a2 : B) (c1 : A) (c2 : B) :
    toLex (a1, a2) ≤ toLex (c1, c2) ↔ a1 < c1 ∨ (a1 = c1 ∧ a2 ≤ c2) :=
  Prod.Lex.le_iff (a1, a2) (c1, c2)

theorem compare_true_iff (l s : SNode) :
    compare l s = true ↔ heapKey s < heapKey l := by
  unfold compare heapKey
  rw [lex_lt_iff, lex_lt_iff]
  split_ifs with h1 h2 h3 h4
  · have hl := (costLt_iff _ _).mp h1
    simp only [Bool.false_eq_true, false_iff]
    rintro (hlt | ⟨heq, -⟩)
    · exact asymm hl hlt
    · rw [heq] at hl
      exact lt_irrefl _ hl
  · simp only [true_iff]
    exact Or.inl ((costLt_iff _ _).mp h2)
  all_goals
    have hle1 : ¬ toTop l.2 < toTop s.2 := fun hh => h1 ((costLt_iff _ _).mpr hh)
  all_goals
    have hle2 : ¬ toTop s.2 < toTop l.2 := fun hh => h2 ((costLt_iff _ _).mpr hh)
  all_goals
    have heq : toTop s.2 = toTop l.2 := le_antisymm (not_lt.mp hle1) (not_lt.mp hle2)
  · simp only [Bool.false_eq_true, false_iff]
    rintro (hlt | ⟨-, hx | ⟨hxe, -⟩⟩)
    · rw [heq] at hlt
      exact lt_irrefl _ hlt
    · exact asymm h3 hx
    · rw [hxe] at h3
      exact lt_irrefl _ h3
  · simp only [true_iff]
    exact Or.inr ⟨heq, Or.inl h4⟩
  · have hx : s.1.1 = l.1.1 := le_antisymm (not_lt.mp h3) (not_lt.mp h4)
    rw [decide_eq_true_eq]
    constructor
    · intro hy
      exact Or.inr ⟨heq, Or.inr ⟨hx, neg_lt_neg hy⟩⟩
    · rintro (hlt | ⟨-, hxlt | ⟨-, hy⟩⟩)
      · rw [heq] at hlt
        exact absurd hlt (lt_irrefl _)
      · exact absurd hxlt h4
      · exact neg_lt_neg_iff.mp hy

theorem compare_false_iff (l s : SNode) :
    compare l s = false ↔ heapKey l ≤ heapKey s := by
  rw [← not_lt, ← compare_true_iff]
  cases hc : compare l s <;> simp [hc]

theorem selectMax_key_le (nodes : List (Nat × SNode)) :
    ∀ (t : List Nat) (acc : Nat), ∀ x ∈ acc :: t,
      heapKey (nodeVal nodes (selectMax nodes t acc)) ≤
        heapKey (nodeVal nodes x) := by
  intro t
  induction t with
  | nil =>
    intro acc x hx
    rcases List.mem_cons.mp hx with hx1 | hx
    · rw [hx1]
      exact le_refl _
    · cases hx
  | cons h t ih =>
    intro acc x hx
    show heapKey (nodeVal nodes (selectMax nodes t
      (if compare (nodeVal nodes acc) (nodeVal nodes h) then h else acc))) ≤ _
    by_cases hc : compare (nodeVal nodes acc) (nodeVal nodes h) = true
    · rw [if_pos hc]
      rcases List.mem_cons.mp hx with hx1 | hx2
      · rw [hx1]
        exact (ih h h (List.mem_cons_self h t)).trans
          (le_of_lt ((compare_true_iff _ _).mp hc))
      · exact ih h x hx2
    · rw [if_neg hc]
      rcases List.mem_cons.mp hx with hx1 | hx2
      · rw [hx1]
        exact ih acc acc (List.mem_cons_self acc t)
      · rcases List.mem_cons.mp hx2 with hx3 | hx4
        · rw [hx3]
          exact (ih acc acc (List.mem_cons_self acc t)).trans
            ((compare_false_iff _ _).mp (by rwa [Bool.not_eq_true] at hc))
        · exact ih acc x (List.mem_cons_of_mem acc hx4)

theorem simplifyLoopT_trace_min (stop2 : ℚ) :
    ∀ (fuel : Nat) (heap : List Nat) (nodes : List (Nat × SNode)),
      ∀ e ∈ (simplifyLoopT stop2 fuel heap nodes).2, ∀ q ∈ e.2,
        heapKey e.1 ≤ heapKey q := by
  intro fuel
  induction fuel with
  | zero =>
    intro heap nodes e he
    simp [simplifyLoopT] at he
  | succ n ih =>
    intro heap nodes e he q hq
    cases heap with
    | nil => simp [simplifyLoopT] at he
    | cons h t =>
      simp only [simplifyLoopT] at he
      split at he
      · simp at he
      · rcases List.mem_cons.mp he with rfl | hrest
        · obtain ⟨x, hx, rfl⟩ := List.mem_map.mp hq
          exact selectMax_key_le nodes t h x hx
        · exact ih _ _ e hrest q hq

theorem heapKey_le_iff (c q : SNode) :
    heapKey c ≤ heapKey q ↔
      costLt c.2 q.2 = true ∨
        (c.2 = q.2 ∧ (c.1.1 < q.1.1 ∨ (c.1.1 = q.1.1 ∧ q.1.2 ≤ c.1.2))) := by
  unfold heapKey
  rw [lex_le_iff, lex_le_iff]
  constructor
  · rintro (hlt | ⟨heq, hx | ⟨hxe, hy⟩⟩)
    · exact Or.inl ((costLt_iff _ _).mpr hlt)
    · exact Or.inr ⟨toTop_inj heq, Or.inl hx⟩
    · exact Or.inr ⟨toTop_inj heq, Or.inr ⟨hxe, neg_le_neg_iff.mp hy⟩⟩
  · rintro (hlt | ⟨heq, hx | ⟨hxe, hy⟩⟩)
    · exact Or.inl ((costLt_iff _ _).mp hlt)
    · exact Or.inr ⟨by rw [heq], Or.inl hx⟩
    · exact Or.inr ⟨by rw [heq], Or.inr ⟨hxe, neg_le_neg hy⟩⟩

/-- C6, amended: at every removal step of `simplifyRing`, the removed
point has minimum cost among the remaining heap points; among points tied
on minimum cost the one with smaller x is removed first; but among points
tied on both cost and x, the one with *larger* y is removed first (the
comparison lambda's final `p1(1) < p2(1)` puts the larger y at the heap
front). -/
theorem c6_removal_order (ring : Polygon) (lp : List Point2) (stop : ℚ) :
    ∀ e ∈ simplifyRingTrace ring lp stop, ∀ q ∈ e.2,
      costLt e.1.2 q.2 = true ∨
        (e.1.2 = q.2 ∧ (e.1.1.1 < q.1.1 ∨ (e.1.1.1 = q.1.1 ∧ q.1.2 ≤ e.1.1.2))) := by
  intro e he q hq
  refine (heapKey_le_iff e.1 q).mp ?_
  unfold simplifyRingTrace at he
  split at he
  · cases he
  · exact simplifyLoopT_trace_min _ _ _ _ e he q hq

/-- The removal trace of the tie-breaking example: of the two unlocked
points `(0,1)` and `(0,3)` (equal cost 2, equal x), the one with larger y
is removed first. -/
theorem ringTie_trace :
    simplifyRingTrace ringTie lockTie 100 =
      [(((0, 3), some 2), [((0, 1), some 2), ((0, 3), some 2)]),
       (((0, 1), some 4), [((0, 1), some 4)])] := by
  norm_num [simplifyRingTrace, simplifyLoopT, mkNodes, mkHeap, ringCost, area,
    nodeVal, idxOf, selectMax, compare, costLt, costGtStop, removeStep, updCost,
    coordAt, ringTie, lockTie, List.range_succ, List.eraseIdx, List.erase]

/-- Witness for `c6_removal_order` at the concrete trace step of
`ringTie`. -/
theorem c6_removal_order_witness :
    costLt (((0, 3), some 2) : SNode).2 ((((0, 1), some 2)) : SNode).2 = true ∨
      ((((0, 3), some 2) : SNode).2 = ((((0, 1), some 2)) : SNode).2 ∧
        ((((0, 3), some 2) : SNode).1.1 < ((((0, 1), some 2)) : SNode).1.1 ∨
          ((((0, 3), some 2) : SNode).1.1 = ((((0, 1), some 2)) : SNode).1.1 ∧
            ((((0, 1), some 2)) : SNode).1.2 ≤ (((0, 3), some 2) : SNode).1.2))) :=
  c6_removal_order ringTie lockTie 100
    (((0, 3), some 2), [((0, 1), some 2), ((0, 3), some 2)])
    (by rw [ringTie_trace]; exact List.mem_cons_self _ _)
    ((0, 1), some 2)
    (by exact List.mem_cons_self _ _)

/-- C6 fails as stated: with the claim's tie-break (smaller y first), the
first removal of the `ringTie` run would have to be `(0,1)`, but the code
removes `(0,3)` first while `(0,1)` (same cost, same x, smaller y) is
still removable. -/
theorem c6_counterexample :
    ¬ (∀ (ring : Polygon) (lp : List Point2) (stop : ℚ),
        ∀ e ∈ simplifyRingTrace ring lp stop, ∀ q ∈ e.2,
          costLt e.1.2 q.2 = true ∨
            (e.1.2 = q.2 ∧ (e.1.1.1 < q.1.1 ∨
              (e.1.1.1 = q.1.1 ∧ e.1.1.2 ≤ q.1.2)))) := by
  intro h
  have hstep := h ringTie lockTie 100
    (((0, 3), some 2), [((0, 1), some 2), ((0, 3), some 2)])
    (by rw [ringTie_trace]; exact List.mem_cons_self _ _)
    ((0, 1), some 2)
    (List.mem_cons_self _ _)
  rcases hstep with hlt | ⟨-, hx | ⟨-, hy⟩⟩
  · simp only [costLt, decide_eq_true_eq] at hlt
    exact absurd hlt (by norm_num)
  · exact absurd hx (by norm_num)
  · exact absurd hy (by norm_num)

/-- C5 fails as stated: in a single contour whose only ring visits `(0,0)`
three times, `(0,0)` is locked by `findLockedPoints` (occurrence count 3)
although it occurs in only one ring. -/
theorem c5_counterexample :
    ¬ (∀ (cs : List Contour) (p : Point2),
        p ∈ findLockedPoints cs ↔ 2 < ringsWith p cs) := by
  intro h
  have hmem : ((0 : ℚ), (0 : ℚ)) ∈ findLockedPoints contoursTriple := by
    have : totalCount ((0 : ℚ), (0 : ℚ)) contoursTriple = 3 := by
      simp [totalCount, contoursTriple]
    rw [c5_locked_iff, this]
    omega
  have hrw : ringsWith ((0 : ℚ), (0 : ℚ)) contoursTriple = 1 := by
    simp [ringsWith, contoursTriple]
  have := (h contoursTriple ((0 : ℚ), (0 : ℚ))).mp hmem
  rw [hrw] at this
  omega

/-!
### The border mask (C4)
-/

theorem addSegment_border (P : Params) (ty : Nat) (dir : Direction)
    (i j : ℤ) (a b : Vertex) (st : BState) :
    (addSegment P ty dir i j a b st).border = setBorder ty i j st.border := rfl

theorem foldl_calls_border (P : Params) (cs : List Call) (st : BState) :
    (cs.foldl (stepCall P) st).border = borderFold cs st.border := by
  induction cs generalizing st with
  | nil => rfl
  | cons c t ih =>
    show (t.foldl (stepCall P) (stepCall P st c)).border = _
    rw [ih]
    rfl

theorem borderFold_append (l1 l2 : List Call) (m : List Vertex) :
    borderFold (l1 ++ l2) m = borderFold l2 (borderFold l1 m) :=
  List.foldl_append ..

theorem getFlags_lt (r : Raster) (x y : ℤ) : getFlags r x y < 16 := by
  have h1 : r.get x (y+1) ≤ 1 := by
    unfold Raster.get
    split <;> norm_num
  have h2 : r.get (x+1) (y+1) ≤ 1 := by
    unfold Raster.get
    split <;> norm_num
  have h3 : r.get (x+1) y ≤ 1 := by
    unfold Raster.get
    split <;> norm_num
  have h4 : r.get x y ≤ 1 := by
    unfold Raster.get
    split <;> norm_num
  unfold getFlags
  omega

set_option maxHeartbeats 1000000 in
theorem borderFold_cell_mem (P : Params) (r : Raster) (c : Cell)
    (hP : OracleOK P.ambiguousType) (m : List Vertex) (p : Vertex) :
    p ∈ borderFold (cellCalls P r c) m ↔
      p ∈ m ∨ (getFlags r c.i c.j ≠ 0 ∧ getFlags r c.i c.j ≠ 15 ∧
        p ∈ actualMarks (getFlags r c.i c.j) c.i c.j) := by
  rcases c with ⟨i, j, isB⟩
  show p ∈ borderFold (cellCalls P r ⟨i, j, isB⟩) m ↔
    p ∈ m ∨ (getFlags r i j ≠ 0 ∧ getFlags r i j ≠ 15 ∧
      p ∈ actualMarks (getFlags r i j) i j)
  have hlt := getFlags_lt r i j
  have hcc : cellCalls P r ⟨i, j, isB⟩ =
      if isB then addBorderCalls i j (getFlags r i j)
      else addCalls P i j (getFlags r i j) := rfl
  rw [hcc]
  set code := getFlags r i j with hcode
  clear_value code
  cases isB
  · simp only [if_neg Bool.false_ne_true]
    interval_cases code
    case «5» =>
      show p ∈ borderFold (addAmbiguousCalls P 5 i j) m ↔ _
      rcases hP (2*i, 2*j) 5 with hty | hty <;>
        simp [addAmbiguousCalls, hty, borderFold, mkCall, setBorder,
          actualMarks, popcount4, bitCorners, allCorners, mem_insertPt,
          Nat.testBit] <;> tauto
    case «10» =>
      show p ∈ borderFold (addAmbiguousCalls P 10 i j) m ↔ _
      rcases hP (2*i, 2*j) 10 with hty | hty <;>
        simp [addAmbiguousCalls, hty, borderFold, mkCall, setBorder,
          actualMarks, popcount4, bitCorners, allCorners, mem_insertPt,
          Nat.testBit] <;> tauto
    all_goals
      simp [addCalls, borderFold, mkCall, setBorder, actualMarks, popcount4,
        bitCorners, allCorners, mem_insertPt, Nat.testBit] <;> tauto
  · simp only [if_pos rfl]
    interval_cases code <;>
      simp [addBorderCalls, borderFold, mkCall, setBorder, actualMarks,
        popcount4, bitCorners, allCorners, mem_insertPt, Nat.testBit] <;>
      tauto

theorem borderFold_cells_mem (P : Params) (r : Raster)
    (hP : OracleOK P.ambiguousType) (L : List Cell) (m : List Vertex)
    (p : Vertex) :
    p ∈ borderFold (L.flatMap (cellCalls P r)) m ↔
      p ∈ m ∨ ∃ c ∈ L, getFlags r c.i c.j ≠ 0 ∧ getFlags r c.i c.j ≠ 15 ∧
        p ∈ actualMarks (getFlags r c.i c.j) c.i c.j := by
  induction L generalizing m with
  | nil => simp [borderFold]
  | cons c t ih =>
    rw [List.flatMap_cons, borderFold_append, ih, borderFold_cell_mem P r c hP]
    rw [List.exists_mem_cons_iff]
    tauto

theorem sweep_border_mem (P : Params) (r : Raster)
    (hP : OracleOK P.ambiguousType) (p : Vertex) :
    p ∈ (sweep P r).border ↔
      ∃ c ∈ processedCells r, getFlags r c.i c.j ≠ 0 ∧
        getFlags r c.i c.j ≠ 15 ∧
        p ∈ actualMarks (getFlags r c.i c.j) c.i c.j := by
  have h1 : (sweep P r).border = borderFold (sweepCalls P r) [] :=
    foldl_calls_border P (sweepCalls P r) initState
  rw [h1, sweepCalls, borderFold_cells_mem P r hP]
  simp

/-- C4 (counterexample): on the raster `[[1, 0]]` the pixel `(1, 0)` is a
corner of the processed cell `(0, 0)` whose code `0b1000` is neither
`0b0000` nor `0b1111`, yet the returned border mask is `{(0, 0)}` and does
not contain `(1, 0)`: the mask is not the set of corners of non-trivial
cells. -/
theorem c4_counterexample :
    ∃ co, findContour paramsC raster10 = some co ∧
      (∃ c ∈ processedCells raster10, getFlags raster10 c.i c.j ≠ 0 ∧
        getFlags raster10 c.i c.j ≠ 15 ∧
        ((1 : ℤ), (0 : ℤ)) ∈ allCorners c.i c.j) ∧
      ((1 : ℤ), (0 : ℤ)) ∉ co.border := by
  refine ⟨contour10, contour10_eval, ⟨⟨0, 0, true⟩, ?_, ?_, ?_, ?_⟩, ?_⟩
  · decide
  · decide
  · decide
  · decide
  · decide

/-- C4 (amended): for every raster and conforming oracle, a pixel is in
the returned border mask iff some processed cell with code outside
`{0b0000, 0b1111}` marks it under `setBorder`'s actual table: the set-bit
corners of the cell's code, upgraded to all four corners when the code is
a saddle (`0b0101`, `0b1010`) or has three set bits. -/
theorem c4_border_mask (P : Params) (r : Raster)
    (hP : OracleOK P.ambiguousType) (co : Contour)
    (h : findContour P r = some co) (p : Vertex) :
    p ∈ co.border ↔
      ∃ c ∈ processedCells r, getFlags r c.i c.j ≠ 0 ∧
        getFlags r c.i c.j ≠ 15 ∧
        p ∈ actualMarks (getFlags r c.i c.j) c.i c.j := by
  have hb : co.border = (sweep P r).border := by
    unfold findContour at h
    by_cases he : (sweep P r).err
    · rw [if_pos he] at h
      exact absurd h (by simp)
    · rw [if_neg he] at h
      rw [Option.some.injEq] at h
      rw [← h]
  rw [hb]
  exact sweep_border_mem P r hP p

theorem c4_border_mask_witness :
    ((0 : ℤ), (0 : ℤ)) ∈ contour11.border ↔
      ∃ c ∈ processedCells raster11, getFlags raster11 c.i c.j ≠ 0 ∧
        getFlags raster11 c.i c.j ≠ 15 ∧
        ((0 : ℤ), (0 : ℤ)) ∈
          actualMarks (getFlags raster11 c.i c.j) c.i c.j :=
  c4_border_mask paramsC raster11 (fun _ _ => Or.inl rfl) contour11
    contour11_eval ((0 : ℤ), (0 : ℤ))


theorem modSeg_get?_ne (f : Segment → Segment) (n m : Nat) (l : List Segment)
    (h : m ≠ n) : (modSeg f n l).get? m = l.get? m := by
  induction l generalizing n m with
  | nil => cases n <;> rfl
  | cons s t ih =>
    cases n with
    | zero => cases m with
      | zero => omega
      | succ m => rfl
    | succ n =>
      cases m with
      | zero => rfl
      | succ m =>
        show (modSeg f n t).get? m = t.get? m
        exact ih n m (by omega)

theorem modSeg_get?_eq (f : Segment → Segment) (n : Nat) (l : List Segment) :
    (modSeg f n l).get? n = (l.get? n).map f := by
  induction l generalizing n with
  | nil => cases n <;> rfl
  | cons s t ih =>
    cases n with
    | zero => rfl
    | succ n => exact ih n

theorem get?_append_lt (l x : List Segment) (m : Nat) (h : m < l.length) :
    (l ++ x).get? m = l.get? m := by
  simp [List.get?_eq_getElem?, List.getElem?_append_left h]

theorem sameSeg_refl (segs : List Segment) (x : Nat) : sameSeg segs segs x := rfl

theorem segNext_of_sameSeg {segs segs' : List Segment} {x : Nat}
    (h : sameSeg segs segs' x) : segNext segs' x = segNext segs x := by
  unfold sameSeg at h
  unfold segNext
  cases h1 : segs'.get? x with
  | none => cases h2 : segs.get? x with
    | none => rfl
    | some s => rw [h1, h2] at h; simp at h
  | some s => cases h2 : segs.get? x with
    | none => rw [h1, h2] at h; simp at h
    | some s' =>
      rw [h1, h2] at h
      simp only [Option.map_some'] at h
      have : s.next = s'.next := by
        have := congrArg Segment.next (Option.some.inj h)
        simpa [noL] using this
      simp [this]

theorem segPrev_of_sameSeg {segs segs' : List Segment} {x : Nat}
    (h : sameSeg segs segs' x) : segPrev segs' x = segPrev segs x := by
  unfold sameSeg at h
  unfold segPrev
  cases h1 : segs'.get? x with
  | none => cases h2 : segs.get? x with
    | none => rfl
    | some s => rw [h1, h2] at h; simp at h
  | some s => cases h2 : segs.get? x with
    | none => rw [h1, h2] at h; simp at h
    | some s' =>
      rw [h1, h2] at h
      simp only [Option.map_some'] at h
      have : s.prev = s'.prev := by
        have := congrArg Segment.prev (Option.some.inj h)
        simpa [noL] using this
      simp [this]

theorem keys_of_sameSeg {segs segs' : List Segment} {x : Nat}
    (h : sameSeg segs segs' x) :
    (segs'.get? x).map keyOf = (segs.get? x).map keyOf := by
  unfold sameSeg at h
  cases h1 : segs'.get? x with
  | none => cases h2 : segs.get? x with
    | none => rfl
    | some s => rw [h1, h2] at h; simp at h
  | some s => cases h2 : segs.get? x with
    | none => rw [h1, h2] at h; simp at h
    | some s' =>
      rw [h1, h2] at h
      simp only [Option.map_some'] at h
      have hs := Option.some.inj h
      have h3 : s.start = s'.start := by
        have := congrArg Segment.start hs
        simpa [noL] using this
      have h4 : s.stop = s'.stop := by
        have := congrArg Segment.stop hs
        simpa [noL] using this
      simp [keyOf, h3, h4]

theorem linked_of_sameSeg {segs segs' : List Segment} {x y : Nat}
    (hx : sameSeg segs segs' x) (hy : sameSeg segs segs' y)
    (h : linked segs x y) : linked segs' x y := by
  obtain ⟨h1, h2, sx, sy, h3, h4, h5⟩ := h
  refine ⟨by rw [segNext_of_sameSeg hx, h1], by rw [segPrev_of_sameSeg hy, h2], ?_⟩
  have kx := keys_of_sameSeg hx
  have ky := keys_of_sameSeg hy
  rw [h3] at kx
  rw [h4] at ky
  cases h6 : segs'.get? x with
  | none => rw [h6] at kx; simp at kx
  | some tx =>
    cases h7 : segs'.get? y with
    | none => rw [h7] at ky; simp at ky
    | some ty =>
      rw [h6] at kx
      rw [h7] at ky
      simp only [Option.map_some'] at kx ky
      have e1 : tx.stop = sx.stop := congrArg Prod.snd (Option.some.inj kx)
      have e2 : ty.start = sy.start := congrArg Prod.fst (Option.some.inj ky)
      exact ⟨tx, ty, rfl, rfl, by rw [e1, e2, h5]⟩

theorem chain'_of_sameSeg {segs segs' : List Segment} {ch : List Nat}
    (hall : ∀ x ∈ ch, sameSeg segs segs' x)
    (h : List.Chain' (linked segs) ch) : List.Chain' (linked segs') ch := by
  induction ch with
  | nil => exact List.chain'_nil
  | cons a t ih =>
    cases t with
    | nil => simp
    | cons b u =>
      rw [List.chain'_cons] at h ⊢
      refine ⟨linked_of_sameSeg (hall a (by simp)) (hall b (by simp)) h.1, ?_⟩
      exact ih (fun x hx => hall x (List.mem_cons_of_mem a hx)) h.2

theorem mem_intRange {x a b : ℤ} : x ∈ intRange a b ↔ a ≤ x ∧ x ≤ b := by
  unfold intRange
  constructor
  · intro h
    obtain ⟨k, hk0, hk⟩ := List.mem_map.mp h
    have := List.mem_range.mp hk0
    omega
  · rintro ⟨h1, h2⟩
    exact List.mem_map.mpr ⟨(x - a).toNat, List.mem_range.mpr (by omega),
      by omega⟩

theorem intRange_sorted (a b : ℤ) : List.Pairwise (· < ·) (intRange a b) := by
  unfold intRange
  rw [List.pairwise_map]
  have := List.pairwise_lt_range (b + 1 - a).toNat
  exact this.imp (fun {x y} h => by omega)

theorem get_eq_zero (r : Raster) (x y : ℤ)
    (h : x < 0 ∨ r.width ≤ x ∨ y < 0 ∨ r.height ≤ y) : r.get x y = 0 := by
  unfold Raster.get
  rw [if_neg]
  rintro ⟨h1, h2, h3, h4, _⟩
  omega

theorem get_le_one (r : Raster) (x y : ℤ) : r.get x y ≤ 1 := by
  unfold Raster.get
  split <;> norm_num

theorem getFlags_eq_bits (r : Raster) (x y : ℤ) :
    getFlags r x y = bits2code (r.get x (y+1) == 1) (r.get (x+1) (y+1) == 1)
      (r.get (x+1) y == 1) (r.get x y == 1) := by
  have h0 := get_le_one r x (y+1)
  have h1 := get_le_one r (x+1) (y+1)
  have h2 := get_le_one r (x+1) y
  have h3 := get_le_one r x y
  unfold getFlags bits2code
  set g0 := r.get x (y+1)
  set g1 := r.get (x+1) (y+1)
  set g2 := r.get (x+1) y
  set g3 := r.get x y
  clear_value g0 g1 g2 g3
  interval_cases g0 <;> interval_cases g1 <;> interval_cases g2 <;>
    interval_cases g3 <;> rfl

theorem mem_processedCells {r : Raster} {c : Cell} (h : c ∈ processedCells r) :
    (c.isBorder = true ∧
      (c.j = -1 ∨ c.j = r.height - 1 ∨ c.i = -1 ∨ c.i = r.width - 1)) ∨
    (c.isBorder = false ∧ 0 ≤ c.i ∧ c.i ≤ r.width - 2 ∧ 0 ≤ c.j ∧
      c.j ≤ r.height - 2) := by
  unfold processedCells at h
  simp only [List.mem_append, List.mem_map, List.mem_flatMap, List.mem_cons,
    mem_intRange] at h
  rcases h with (⟨i, hi, rfl⟩ | ⟨j, hj, hc⟩) | ⟨i, hi, rfl⟩
  · exact Or.inl ⟨rfl, Or.inl rfl⟩
  · rcases hc with rfl | hc
    · exact Or.inl ⟨rfl, Or.inr (Or.inr (Or.inl rfl))⟩
    · rcases hc with ⟨i, hi, rfl⟩ | hc
      · refine Or.inr ⟨rfl, ?_, ?_, ?_, ?_⟩ <;> (dsimp only) <;> omega
      · rcases hc with rfl | h0
        · exact Or.inl ⟨rfl, Or.inr (Or.inr (Or.inr rfl))⟩
        · cases h0
  · exact Or.inl ⟨rfl, Or.inr (Or.inl rfl)⟩

theorem border_code_mem (r : Raster) (c : Cell) (hc : c ∈ processedCells r)
    (hb : c.isBorder = true) : getFlags r c.i c.j ∈ validBorderCodes := by
  have g0 := get_le_one r c.i (c.j+1)
  have g1 := get_le_one r (c.i+1) (c.j+1)
  have g2 := get_le_one r (c.i+1) c.j
  have g3 := get_le_one r c.i c.j
  rcases mem_processedCells hc with ⟨_, hj⟩ | ⟨hf, _⟩
  · unfold getFlags
    rcases hj with h | h | h | h
    · rw [get_eq_zero r (c.i+1) c.j (by omega), get_eq_zero r c.i c.j (by omega)]
      set a0 := r.get c.i (c.j+1)
      set a1 := r.get (c.i+1) (c.j+1)
      clear_value a0 a1
      interval_cases a0 <;> interval_cases a1 <;> decide
    · rw [get_eq_zero r c.i (c.j+1) (by omega),
        get_eq_zero r (c.i+1) (c.j+1) (by omega)]
      set a2 := r.get (c.i+1) c.j
      set a3 := r.get c.i c.j
      clear_value a2 a3
      interval_cases a2 <;> interval_cases a3 <;> decide
    · rw [get_eq_zero r c.i (c.j+1) (by omega), get_eq_zero r c.i c.j (by omega)]
      set a1 := r.get (c.i+1) (c.j+1)
      set a2 := r.get (c.i+1) c.j
      clear_value a1 a2
      interval_cases a1 <;> interval_cases a2 <;> decide
    · rw [get_eq_zero r (c.i+1) (c.j+1) (by omega),
        get_eq_zero r (c.i+1) c.j (by omega)]
      set a0 := r.get c.i (c.j+1)
      set a3 := r.get c.i c.j
      clear_value a0 a3
      interval_cases a0 <;> interval_cases a3 <;> decide
  · rw [hb] at hf
    cases hf

theorem mem_row {r : Raster} {j : ℤ} {c : Cell}
    (h : c ∈ (⟨-1, j, true⟩ : Cell) ::
      ((intRange 0 (r.width - 1 - 1)).map (fun i => (⟨i, j, false⟩ : Cell))
        ++ [⟨r.width - 1, j, true⟩])) : c.j = j := by
  rcases List.mem_cons.mp h with rfl | h
  · rfl
  · rcases List.mem_append.mp h with h | h
    · obtain ⟨i, _, rfl⟩ := List.mem_map.mp h
      rfl
    · rcases List.mem_cons.mp h with rfl | h
      · rfl
      · cases h

theorem row_sorted (r : Raster) (hw : 1 ≤ r.width) (j : ℤ) :
    List.Pairwise cellLt ((⟨-1, j, true⟩ : Cell) ::
      ((intRange 0 (r.width - 1 - 1)).map (fun i => (⟨i, j, false⟩ : Cell))
        ++ [⟨r.width - 1, j, true⟩])) := by
  rw [List.pairwise_cons]
  constructor
  · intro c hc
    rcases List.mem_append.mp hc with h | h
    · obtain ⟨i, hi, rfl⟩ := List.mem_map.mp h
      have := mem_intRange.mp hi
      exact Or.inr ⟨rfl, by dsimp only; omega⟩
    · rcases List.mem_cons.mp h with rfl | h
      · exact Or.inr ⟨rfl, by dsimp only; omega⟩
      · cases h
  · rw [List.pairwise_append]
    refine ⟨?_, List.pairwise_singleton _ _, ?_⟩
    · rw [List.pairwise_map]
      exact (intRange_sorted 0 (r.width - 1 - 1)).imp
        (fun {x y} h => Or.inr ⟨rfl, h⟩)
    · intro a ha b hb
      obtain ⟨i, hi, rfl⟩ := List.mem_map.mp ha
      have := mem_intRange.mp hi
      rcases List.mem_cons.mp hb with rfl | hb
      · exact Or.inr ⟨rfl, by dsimp only; omega⟩
      · cases hb

theorem processedCells_sorted (r : Raster) (hw : 1 ≤ r.width)
    (hh : 1 ≤ r.height) :
    List.Pairwise cellLt (processedCells r) := by
  unfold processedCells
  rw [List.pairwise_append, List.pairwise_append]
  refine ⟨⟨?_, ?_, ?_⟩, ?_, ?_⟩
  · rw [List.pairwise_map]
    exact (intRange_sorted (-1) (r.width - 1)).imp
      (fun {x y} h => Or.inr ⟨rfl, h⟩)
  · rw [List.flatMap_def, List.pairwise_flatten]
    constructor
    · intro l hl
      obtain ⟨j, _, rfl⟩ := List.mem_map.mp hl
      exact row_sorted r hw j
    · rw [List.pairwise_map]
      refine (intRange_sorted 0 (r.height - 1 - 1)).imp ?_
      intro j j' hjj x hx y hy
      have hxj := mem_row hx
      have hyj := mem_row hy
      exact Or.inl (by omega)
  · intro a ha b hb
    obtain ⟨i, _, rfl⟩ := List.mem_map.mp ha
    rw [List.mem_flatMap] at hb
    obtain ⟨j, hj, hbj⟩ := hb
    have := mem_intRange.mp hj
    have hbjj := mem_row hbj
    exact Or.inl (by dsimp only; omega)
  · rw [List.pairwise_map]
    exact (intRange_sorted (-1) (r.width - 1)).imp
      (fun {x y} h => Or.inr ⟨rfl, h⟩)
  · intro a ha b hb
    obtain ⟨i, _, rfl⟩ := List.mem_map.mp hb
    rcases List.mem_append.mp ha with h | h
    · obtain ⟨i', _, rfl⟩ := List.mem_map.mp h
      exact Or.inl (by dsimp only; omega)
    · rw [List.mem_flatMap] at h
      obtain ⟨j, hj, haj⟩ := h
      have := mem_intRange.mp hj
      have hajj := mem_row haj
      exact Or.inl (by dsimp only; omega)

theorem getFlags_lt16 (r : Raster) (x y : ℤ) : getFlags r x y < 16 := by
  have h1 := get_le_one r x (y+1)
  have h2 := get_le_one r (x+1) (y+1)
  have h3 := get_le_one r (x+1) y
  have h4 := get_le_one r x y
  unfold getFlags
  omega

theorem ambMatch_other (amb : ℕ) (h5 : amb ≠ 5) (h10 : amb ≠ 10)
    (A B : List Call) :
    (match amb with | 5 => A | 10 => B | _ => []) = [] := by
  match amb with
  | 5 => exact absurd rfl h5
  | 10 => exact absurd rfl h10
  | 0 | 1 | 2 | 3 | 4 | 6 | 7 | 8 | 9 => rfl
  | (n+11) => rfl

theorem cellCalls_keys (P : Params) (r : Raster) (c : Cell) :
    (cellCalls P r c).map callKey =
      cellStoreKeys r P c ++
      (if hasDup c.isBorder (getFlags r c.i c.j) = true
       then [dupKey c.i c.j] else []) := by
  rcases c with ⟨i, j, isB⟩
  have hlt := getFlags_lt16 r i j
  show (cellCalls P r ⟨i, j, isB⟩).map callKey =
    (cellKeysN isB (getFlags r i j)
      (ambClass (getFlags r i j)
        (P.ambiguousType (2*i, 2*j) (getFlags r i j)))).map (shiftKey i j) ++
    (if hasDup isB (getFlags r i j) = true then [dupKey i j] else [])
  have hcc : cellCalls P r ⟨i, j, isB⟩ =
      if isB then addBorderCalls i j (getFlags r i j)
      else addCalls P i j (getFlags r i j) := rfl
  rw [hcc]
  set code := getFlags r i j with hcode
  clear_value code
  cases isB
  · simp only [if_neg Bool.false_ne_true]
    interval_cases code
    case «5» =>
      show (addAmbiguousCalls P 5 i j).map callKey = _
      rw [addAmbiguousCalls]
      by_cases h5 : P.ambiguousType (2*i, 2*j) 5 = 5
      · rw [h5]
        simp only [ambClass, if_pos rfl]
        rfl
      · rw [if_neg h5]
        by_cases h10 : P.ambiguousType (2*i, 2*j) 5 = 10
        · rw [h10]
          simp only [ambClass, if_neg (by omega : ¬(10 : ℕ) = 5)]
          rfl
        · rw [ambMatch_other _ h5 h10]
          simp only [ambClass, if_neg h5]
          rw [if_neg (by simpa using h10)]
          rfl
    case «10» =>
      show (addAmbiguousCalls P 10 i j).map callKey = _
      rw [addAmbiguousCalls]
      by_cases h10 : P.ambiguousType (2*i, 2*j) 10 = 10
      · rw [h10]
        simp only [ambClass, if_pos rfl]
        rfl
      · rw [if_neg h10]
        by_cases h5 : P.ambiguousType (2*i, 2*j) 10 = 5
        · rw [h5]
          simp only [ambClass, if_neg (by omega : ¬(5 : ℕ) = 10)]
          rfl
        · rw [ambMatch_other _ h5 h10]
          simp only [ambClass, if_neg h10]
          rw [if_neg (by simpa using h5)]
          rfl
    all_goals rfl
  · rw [if_pos rfl]
    interval_cases code <;>
      first
      | rfl
      | simp [addBorderCalls, callKey, mkCall, cellKeysN, borderKeys,
          shiftKey, dupKey, hasDup]

theorem ambClass_lt3 (o a : Nat) : ambClass o a < 3 := by
  unfold ambClass
  split
  · omega
  · split <;> omega

theorem keys_offOK : ∀ code ∈ List.range 16, ∀ cls ∈ List.range 3,
    ∀ isB : Bool,
    validCfg isB code →
    ∀ k ∈ cellKeysN isB code cls, offOK k.1 ∧ offOK k.2 := by decide

theorem keys_same_cell : ∀ code ∈ List.range 16, ∀ cls ∈ List.range 3,
    ∀ isB : Bool,
    validCfg isB code →
    (cellKeysN isB code cls).Pairwise
      (fun k k' => k.1 ≠ k'.1 ∧ k.2 ≠ k'.2) := by decide

theorem keys_horizontal : ∀ (b0L b3L s1 s2 b1R b2R isBL isBR : Bool),
    ∀ clsL ∈ List.range 3, ∀ clsR ∈ List.range 3,
    validCfg isBL (bits2code b0L s1 s2 b3L) →
    validCfg isBR (bits2code s1 b1R b2R s2) →
    ∀ kL ∈ cellKeysN isBL (bits2code b0L s1 s2 b3L) clsL,
    ∀ kR ∈ cellKeysN isBR (bits2code s1 b1R b2R s2) clsR,
      ¬(kL.1.1 = kR.1.1 + 2 ∧ kL.1.2 = kR.1.2) ∧
      ¬(kL.2.1 = kR.2.1 + 2 ∧ kL.2.2 = kR.2.2) := by decide

theorem keys_vertical : ∀ (t0 t1 b2L b3L b0U b1U isBL isBU : Bool),
    ∀ clsL ∈ List.range 3, ∀ clsU ∈ List.range 3,
    validCfg isBL (bits2code t0 t1 b2L b3L) →
    validCfg isBU (bits2code b0U b1U t1 t0) →
    ∀ kL ∈ cellKeysN isBL (bits2code t0 t1 b2L b3L) clsL,
    ∀ kU ∈ cellKeysN isBU (bits2code b0U b1U t1 t0) clsU,
      ¬(kL.1.1 = kU.1.1 ∧ kL.1.2 = kU.1.2 + 2) ∧
      ¬(kL.2.1 = kU.2.1 ∧ kL.2.2 = kU.2.2 + 2) := by decide

theorem keys_no_left_midpoint : ∀ (b0 b3 isB : Bool),
    ∀ cls ∈ List.range 3,
    validCfg isB (bits2code b0 false false b3) →
    ∀ k ∈ cellKeysN isB (bits2code b0 false false b3) cls,
      k.1 ≠ ((2 : ℤ), (1 : ℤ)) ∧ k.2 ≠ ((2 : ℤ), (1 : ℤ)) := by decide

theorem modSeg_leader_sameSeg (l : Option Nat) (k : Nat) (segs : List Segment)
    (x : Nat) :
    sameSeg segs (modSeg (fun s => { s with leader := l }) k segs) x := by
  unfold sameSeg
  by_cases h : x = k
  · subst h
    rw [modSeg_get?_eq]
    cases segs.get? x <;> rfl
  · rw [modSeg_get?_ne _ _ _ _ h]

theorem findByEnd_some {segs : List Segment} {v : Vertex} {p : Nat}
    (h : findByEnd segs v = some p) :
    ∃ sp, segs.get? p = some sp ∧ sp.stop = v := by
  unfold findByEnd at h
  rw [List.findIdx?_eq_some_iff_getElem] at h
  obtain ⟨hlt, hp, _⟩ := h
  refine ⟨segs[p], ?_, by simpa using hp⟩
  rw [List.get?_eq_getElem?, List.getElem?_eq_getElem hlt]

theorem findByStart_some {segs : List Segment} {v : Vertex} {p : Nat}
    (h : findByStart segs v = some p) :
    ∃ sp, segs.get? p = some sp ∧ sp.start = v := by
  unfold findByStart at h
  rw [List.findIdx?_eq_some_iff_getElem] at h
  obtain ⟨hlt, hp, _⟩ := h
  refine ⟨segs[p], ?_, by simpa using hp⟩
  rw [List.get?_eq_getElem?, List.getElem?_eq_getElem hlt]

/-- A colliding insertion that finds neither `prev` nor `next` leaves the
builder untouched. -/
theorem linkSegment_noop (P : Params) (ty : Nat) (dir : Direction)
    (a b : Vertex) (st : LState)
    (hcol : ¬(findByStart st.segs a = none ∧ findByEnd st.segs b = none))
    (hpr : findByEnd st.segs a = none) (hnx : findByStart st.segs b = none) :
    linkSegment P ty dir a b st = st := by
  simp only [linkSegment]
  rw [hpr, hnx]
  cases hfs : findByStart st.segs a with
  | some k =>
    dsimp only
    rw [if_pos ⟨rfl, rfl⟩]
  | none =>
    cases hfe : findByEnd st.segs b with
    | some k =>
      dsimp only
      rw [if_pos ⟨rfl, rfl⟩]
    | none => exact absurd ⟨hfs, hfe⟩ hcol

theorem extractWalk_at_end (P : Params) (segs : List Segment)
    (head endIdx : Nat) (fuel p0 : Nat) :
    extractWalk P segs head endIdx (fuel + 1) p0 endIdx = ([], true) := by
  unfold extractWalk
  rw [if_pos rfl]

theorem walkSpell_cons (P : Params) (segs : List Segment) (p0 s0 : Nat)
    (t : List Nat) :
    walkSpell P segs p0 (s0 :: t) =
      (match segs.get? s0, segs.get? p0 with
       | some ss, some ps =>
         if !P.joinStraightSegments || decide (ss.dir ≠ ps.dir) then [ss.start]
         else []
       | _, _ => []) ++ walkSpell P segs s0 t := rfl

theorem chain_to_nextChainTo (segs : List Segment) (xs : List Nat) (e : Nat)
    (h : List.Chain' (linked segs) (xs ++ [e])) : nextChainTo segs xs e := by
  induction xs with
  | nil => trivial
  | cons x t ih =>
    cases t with
    | nil =>
      simp only [List.singleton_append] at h
      rw [List.chain'_cons] at h
      exact h.1.1
    | cons y u =>
      simp only [List.cons_append] at h
      rw [List.chain'_cons] at h
      refine ⟨h.1.1, ih ?_⟩
      simpa using h.2

theorem distPrev_sameSeg (l : Option Nat) (fuel : Nat) (o : Option Nat)
    (segs : List Segment) (x : Nat) :
    sameSeg segs (distPrev l fuel o segs).1 x := by
  induction fuel generalizing o segs with
  | zero => cases o <;> rfl
  | succ f ih =>
    cases o with
    | none => rfl
    | some i =>
      show sameSeg segs (distPrev l f _ (modSeg _ i segs)).1 x
      have h1 := ih ((segs.get? i).bind (·.prev))
        (modSeg (fun s => { s with leader := l }) i segs)
      have h2 := modSeg_leader_sameSeg l i segs x
      unfold sameSeg at h1 h2 ⊢
      rw [h1, h2]

theorem distNext_sameSeg (l : Option Nat) (fuel : Nat) (o : Option Nat)
    (segs : List Segment) (x : Nat) :
    sameSeg segs (distNext l fuel o segs).1 x := by
  induction fuel generalizing o segs with
  | zero => cases o <;> rfl
  | succ f ih =>
    cases o with
    | none => rfl
    | some i =>
      show sameSeg segs (distNext l f _ (modSeg _ i segs)).1 x
      have h1 := ih ((segs.get? i).bind (·.next))
        (modSeg (fun s => { s with leader := l }) i segs)
      have h2 := modSeg_leader_sameSeg l i segs x
      unfold sameSeg at h1 h2 ⊢
      rw [h1, h2]

theorem distributeRingLeaderPrev_sameSeg (i : Nat) (segs : List Segment)
    (x : Nat) : sameSeg segs (distributeRingLeaderPrev i segs).1 x := by
  unfold distributeRingLeaderPrev
  cases segs.get? i with
  | none => rfl
  | some s => exact distPrev_sameSeg s.leader segs.length s.prev segs x

theorem distributeRingLeaderNext_sameSeg (i : Nat) (segs : List Segment)
    (x : Nat) : sameSeg segs (distributeRingLeaderNext i segs).1 x := by
  unfold distributeRingLeaderNext
  cases segs.get? i with
  | none => rfl
  | some s => exact distNext_sameSeg s.leader segs.length s.next segs x

/-- `extract` never touches the segment store, and appends a ring only
when its walk genuinely reached the end segment. -/
theorem extract_shape (P : Params) (head : Nat) (st : LState) :
    (extract P head st).segs = st.segs ∧
    ((extract P head st).rings = st.rings ∨
     ∃ hs hp hps s0 vs,
       st.segs.get? head = some hs ∧ hs.prev = some hp ∧
       st.segs.get? hp = some hps ∧ hs.next = some s0 ∧
       extractWalk P st.segs head (if hs.type ≠ hps.type then head else hp)
         (st.segs.length + 1) head s0 = (vs, true) ∧
       (extract P head st).rings = st.rings ++ [hs.start :: vs]) := by
  unfold extract
  cases hhs : st.segs.get? head with
  | none => exact ⟨rfl, Or.inl rfl⟩
  | some hs =>
    dsimp only
    cases hprev : hs.prev with
    | none => exact ⟨rfl, Or.inl rfl⟩
    | some hp =>
      dsimp only
      cases hhps : st.segs.get? hp with
      | none => exact ⟨rfl, Or.inl rfl⟩
      | some hps =>
        dsimp only
        cases hnext : hs.next with
        | none => exact ⟨rfl, Or.inl rfl⟩
        | some s0 =>
          dsimp only
          cases hw : extractWalk P st.segs head
              (if hs.type ≠ hps.type then head else hp)
              (st.segs.length + 1) head s0 with
          | mk vs ok =>
            cases ok with
            | false =>
              rw [if_neg (by simp)]
              exact ⟨rfl, Or.inl rfl⟩
            | true =>
              rw [if_pos rfl]
              exact ⟨rfl, Or.inr ⟨hs, hp, hps, s0, vs, rfl, hprev, hhps,
                hnext, hw, rfl⟩⟩

/-- A successful `extractWalk` exhibits the chain it followed. -/
theorem extractWalk_success (P : Params) (segs : List Segment)
    (head endIdx : Nat) :
    ∀ (fuel p0 s0 : Nat) (vs : List Vertex),
    extractWalk P segs head endIdx fuel p0 s0 = (vs, true) →
    (s0 = endIdx ∧ vs = []) ∨
    (∃ visit, nextChainTo segs (s0 :: visit) endIdx ∧
      vs = walkSpell P segs p0 (s0 :: visit)) := by
  intro fuel
  induction fuel with
  | zero =>
    intro p0 s0 vs h
    cases h
  | succ f ih =>
    intro p0 s0 vs h
    unfold extractWalk at h
    by_cases hend : s0 = endIdx
    · rw [if_pos hend] at h
      exact Or.inl ⟨hend, (Prod.mk.injEq _ _ _ _ ▸ h).1.symm⟩
    · rw [if_neg hend] at h
      cases hs0 : segs.get? s0 with
      | none => rw [hs0] at h; cases hp0 : segs.get? p0 <;> rw [hp0] at h <;> cases h
      | some ss =>
        rw [hs0] at h
        cases hp0 : segs.get? p0 with
        | none => rw [hp0] at h; cases h
        | some ps =>
          rw [hp0] at h
          dsimp only at h
          by_cases hlead : ss.leader ≠ some head
          · rw [if_pos hlead] at h
            cases h
          · rw [if_neg hlead] at h
            cases hnxt : ss.next with
            | none => rw [hnxt] at h; cases h
            | some nxt =>
              rw [hnxt] at h
              dsimp only at h
              cases hrec : extractWalk P segs head endIdx f s0 nxt with
              | mk rvs rok =>
                rw [hrec] at h
                cases rok with
                | false =>
                  split at h <;> simp at h
                | true =>
                  obtain hrvs := ih s0 nxt rvs hrec
                  have hnext0 : segNext segs s0 = some nxt := by
                    unfold segNext
                    rw [hs0]
                    simpa using hnxt
                  refine Or.inr ?_
                  rcases hrvs with ⟨rfl, rfl⟩ | ⟨visit, hchain, rfl⟩
                  · refine ⟨[], hnext0, ?_⟩
                    rw [walkSpell_cons P segs p0 s0 [], hs0, hp0]
                    dsimp only
                    split at h <;>
                      rw [Prod.mk.injEq] at h <;>
                      obtain ⟨hvs, -⟩ := h <;>
                      rw [← hvs] <;>
                      rename_i hcond
                    · rw [if_pos hcond]
                      rfl
                    · rw [if_neg hcond]
                      rfl
                  · refine ⟨nxt :: visit, ⟨hnext0, hchain⟩, ?_⟩
                    rw [walkSpell_cons P segs p0 s0 (nxt :: visit), hs0, hp0]
                    dsimp only
                    split at h <;>
                      rw [Prod.mk.injEq] at h <;>
                      obtain ⟨hvs, -⟩ := h <;>
                      rw [← hvs] <;>
                      rename_i hcond
                    · rw [if_pos hcond]
                      rfl
                    · rw [if_neg hcond]
                      rfl

theorem linked_of_next {segs : List Segment} (hinv : Inv2 segs) {x y : Nat}
    (h : segNext segs x = some y) : linked segs x y := by
  have h0 := h
  unfold segNext at h0
  cases hx : segs.get? x with
  | none => rw [hx] at h0; cases h0
  | some sx =>
    rw [hx] at h0
    simp only [Option.some_bind] at h0
    obtain ⟨sy, hy, hyp, hkey⟩ := hinv.1 x y sx hx h0
    exact ⟨h, by unfold segPrev; rw [hy]; simpa using hyp,
      sx, sy, hx, hy, hkey⟩

theorem nextChainTo_chain {segs : List Segment} (hinv : Inv2 segs)
    (xs : List Nat) (e : Nat) (h : nextChainTo segs xs e) :
    List.Chain' (linked segs) xs ∧
    (∀ x, xs.getLast? = some x → linked segs x e) := by
  induction xs with
  | nil => exact ⟨List.chain'_nil, by intro x hx; cases hx⟩
  | cons x t ih =>
    cases t with
    | nil =>
      refine ⟨List.chain'_singleton x, ?_⟩
      intro z hz
      obtain rfl : x = z := by simpa using hz
      exact linked_of_next hinv h
    | cons y u =>
      obtain ⟨h1, h2⟩ := h
      obtain ⟨hc, hl⟩ := ih h2
      refine ⟨List.chain'_cons.mpr ⟨linked_of_next hinv h1, hc⟩, ?_⟩
      intro z hz
      rw [List.getLast?_cons_cons] at hz
      exact hl z hz

theorem chain'_mem_succ {R : Nat → Nat → Prop} {l : List Nat}
    (h : List.Chain' R l) :
    ∀ x ∈ l, (∃ y, R x y) ∨ l.getLast? = some x := by
  induction l with
  | nil => intro x hx; cases hx
  | cons a t ih =>
    intro x hx
    rcases List.mem_cons.mp hx with rfl | hxt
    · cases t with
      | nil => exact Or.inr rfl
      | cons b u => exact Or.inl ⟨b, (List.chain'_cons.mp h).1⟩
    · cases t with
      | nil => cases hxt
      | cons b u =>
        rcases ih (List.chain'_cons.mp h).2 x hxt with hl | hr
        · exact Or.inl hl
        · exact Or.inr (by rw [List.getLast?_cons_cons]; exact hr)

theorem chain'_mem_pred {R : Nat → Nat → Prop} {l : List Nat}
    (h : List.Chain' R l) :
    ∀ x ∈ l, (∃ y, R y x) ∨ l.head? = some x := by
  induction l with
  | nil => intro x hx; cases hx
  | cons a t ih =>
    intro x hx
    rcases List.mem_cons.mp hx with rfl | hxt
    · exact Or.inr rfl
    · cases t with
      | nil => cases hxt
      | cons b u =>
        rcases ih (List.chain'_cons.mp h).2 x hxt with hl | hr
        · exact Or.inl hl
        · refine Or.inl ⟨a, ?_⟩
          obtain rfl : b = x := by simpa using hr
          exact (List.chain'_cons.mp h).1

theorem cycClosed_next_ne {segs : List Segment} {cyc : List Nat}
    (h : CycClosed segs cyc) :
    ∀ x ∈ cyc, segNext segs x ≠ none ∧ segPrev segs x ≠ none := by
  obtain ⟨hne, hchain, hwrap⟩ := h
  intro x hx
  constructor
  · rcases chain'_mem_succ hchain x hx with ⟨y, hy⟩ | hlast
    · rw [hy.1]
      simp
    · obtain ⟨hd, hhd⟩ : ∃ hd, cyc.head? = some hd := by
        cases cyc with
        | nil => exact absurd rfl hne
        | cons a t => exact ⟨a, rfl⟩
      have := hwrap x hd hlast hhd
      rw [this.1]
      simp
  · rcases chain'_mem_pred hchain x hx with ⟨y, hy⟩ | hhead
    · rw [hy.2.1]
      simp
    · obtain ⟨lst, hlst⟩ : ∃ lst, cyc.getLast? = some lst := by
        cases cyc with
        | nil => exact absurd rfl hne
        | cons a t => exact ⟨_, List.getLast?_eq_getLast _ (by simp)⟩
      have := hwrap lst x hlst hhead
      rw [this.2.1]
      simp

theorem ringOfCycle_cons (P : Params) (segs : List Segment) (head : Nat)
    (rest : List Nat) (lst : Nat) (hs ls : Segment)
    (hlst : (head :: rest).getLast? = some lst)
    (hhs : segs.get? head = some hs) (hls : segs.get? lst = some ls) :
    ringOfCycle P segs (head :: rest) =
      hs.start :: (if hs.type ≠ ls.type then walkSpell P segs head rest
        else walkSpell P segs head rest.dropLast) := by
  unfold ringOfCycle
  rw [hlst]
  dsimp only
  rw [hhs, hls]
  dsimp only
  split
  · rfl
  · rfl

theorem ring_witness_of_walk (P : Params) (segs : List Segment)
    (hinv : Inv2 segs) (head hp s0 : Nat) (hs hps : Segment)
    (vs : List Vertex)
    (hhs : segs.get? head = some hs) (hprev : hs.prev = some hp)
    (hhps : segs.get? hp = some hps) (hnext : hs.next = some s0)
    (hw : extractWalk P segs head (if hs.type ≠ hps.type then head else hp)
      (segs.length + 1) head s0 = (vs, true)) :
    RingWitness P segs (hs.start :: vs) := by
  have hheadlink : segNext segs head = some s0 := by
    unfold segNext
    rw [hhs]
    simpa using hnext
  have hphd : segPrev segs head = some hp := by
    unfold segPrev
    rw [hhs]
    simpa using hprev
  have hpnext : hps.next = some head := by
    obtain ⟨sx, hsx, hsxn⟩ := hinv.2.1 hp head hs hhs hprev
    rw [hhps] at hsx
    rw [Option.some.inj hsx]
    exact hsxn
  have hwrapl : linked segs hp head := by
    refine linked_of_next hinv ?_
    unfold segNext
    rw [hhps]
    simpa using hpnext
  by_cases hty : hs.type ≠ hps.type
  · rw [if_pos hty] at hw
    rcases extractWalk_success P segs head head _ head s0 vs hw with
      ⟨rfl, rfl⟩ | ⟨visit, hchain, rfl⟩
    · -- the walk ended immediately: a one-segment loop
      have hloop : segNext segs s0 = some s0 := hheadlink
      refine ⟨[s0], ⟨by simp, List.chain'_singleton _, ?_⟩, ?_⟩
      · intro x y hx hy
        obtain rfl : s0 = x := by simpa using hx
        obtain rfl : s0 = y := by simpa using hy
        exact linked_of_next hinv hloop
      · rw [ringOfCycle_cons P segs s0 [] s0 hs hs rfl hhs hhs]
        rw [if_neg (by simp)]
        rfl
    · obtain ⟨hch, hlastlink⟩ := nextChainTo_chain hinv _ _ hchain
      have hlst? : (s0 :: visit).getLast? =
          some ((s0 :: visit).getLast (by simp)) :=
        List.getLast?_eq_getLast _ (by simp)
      have hll := hlastlink _ hlst?
      have hlsthp : (s0 :: visit).getLast (by simp) = hp := by
        have h1 := hll.2.1
        rw [hphd] at h1
        exact (Option.some.inj h1).symm
      refine ⟨head :: s0 :: visit, ⟨by simp, ?_, ?_⟩, ?_⟩
      · exact List.chain'_cons.mpr ⟨linked_of_next hinv hheadlink, hch⟩
      · intro x y hx hy
        rw [List.getLast?_cons_cons, hlst?] at hx
        obtain rfl : (s0 :: visit).getLast (by simp) = x :=
          Option.some.inj hx
        obtain rfl : head = y := by simpa using hy
        exact hlsthp ▸ hwrapl
      · rw [ringOfCycle_cons P segs head (s0 :: visit) hp hs hps
          (by rw [List.getLast?_cons_cons, hlst?, hlsthp]) hhs hhps]
        rw [if_pos hty]
  · rw [if_neg hty] at hw
    rcases extractWalk_success P segs head hp _ head s0 vs hw with
      ⟨rfl, rfl⟩ | ⟨visit, hchain, rfl⟩
    · -- two-segment ring
      refine ⟨[head, s0], ⟨by simp, ?_, ?_⟩, ?_⟩
      · exact List.chain'_cons.mpr
          ⟨linked_of_next hinv hheadlink, List.chain'_singleton _⟩
      · intro x y hx hy
        obtain rfl : s0 = x := by simpa using hx
        obtain rfl : head = y := by simpa using hy
        exact hwrapl
      · rw [ringOfCycle_cons P segs head [s0] s0 hs hps rfl hhs hhps]
        rw [if_neg hty]
        rfl
    · obtain ⟨hch, hlastlink⟩ := nextChainTo_chain hinv _ _ hchain
      have hlst? : (s0 :: visit).getLast? =
          some ((s0 :: visit).getLast (by simp)) :=
        List.getLast?_eq_getLast _ (by simp)
      have hll := hlastlink _ hlst?
      refine ⟨head :: ((s0 :: visit) ++ [hp]), ⟨by simp, ?_, ?_⟩, ?_⟩
      · refine List.chain'_cons.mpr ⟨linked_of_next hinv hheadlink, ?_⟩
        show List.Chain' (linked segs) ((s0 :: visit) ++ [hp])
        rw [List.chain'_append]
        refine ⟨hch, List.chain'_singleton _, ?_⟩
        intro x hx y hy
        rw [hlst?] at hx
        obtain rfl : (s0 :: visit).getLast (by simp) = x :=
          Option.some.inj hx
        obtain rfl : hp = y := by simpa using hy
        exact hll
      · intro x y hx hy
        have hx3 : ((head :: (s0 :: visit)) ++ [hp]).getLast? = some x := hx
        rw [List.getLast?_concat] at hx3
        obtain rfl : hp = x := Option.some.inj hx3
        obtain rfl : head = y := by simpa using hy
        exact hwrapl
      · rw [ringOfCycle_cons P segs head ((s0 :: visit) ++ [hp]) hp hs hps
          (by rw [← List.cons_append, List.getLast?_concat]) hhs hhps]
        rw [if_neg hty, List.dropLast_concat]

theorem get?_some_lt {segs : List Segment} {x : Nat} {s : Segment}
    (h : segs.get? x = some s) : x < segs.length := by
  by_contra hge
  rw [List.get?_eq_getElem?, List.getElem?_eq_none_iff.mpr (by omega)] at h
  cases h

theorem get?_append_single_cases {l : List Segment} {f : Segment} {x : Nat}
    {s : Segment} (h : (l ++ [f]).get? x = some s) :
    (x < l.length ∧ l.get? x = some s) ∨ (x = l.length ∧ s = f) := by
  by_cases hx : x < l.length
  · rw [get?_append_lt _ _ _ hx] at h
    exact Or.inl ⟨hx, h⟩
  · have hlen := get?_some_lt h
    rw [List.length_append] at hlen
    simp only [List.length_cons, List.length_nil] at hlen
    have hxe : x = l.length := by omega
    subst hxe
    rw [get?_append_length] at h
    exact Or.inr ⟨rfl, (Option.some.inj h).symm⟩

theorem findByStart_none_nostart {segs : List Segment} {v : Vertex}
    (h : findByStart segs v = none) :
    ∀ x s, segs.get? x = some s → s.start ≠ v := by
  intro x s hget
  unfold findByStart at h
  rw [List.findIdx?_eq_none_iff] at h
  have hmem : s ∈ segs := List.get?_mem hget
  simpa using h s hmem

theorem findByEnd_none_nostop {segs : List Segment} {v : Vertex}
    (h : findByEnd segs v = none) :
    ∀ x s, segs.get? x = some s → s.stop ≠ v := by
  intro x s hget
  unfold findByEnd at h
  rw [List.findIdx?_eq_none_iff] at h
  have hmem : s ∈ segs := List.get?_mem hget
  simpa using h s hmem

theorem findByEnd_some_get {segs : List Segment} {v : Vertex} {p : Nat}
    (h : findByEnd segs v = some p) :
    ∃ sp, segs.get? p = some sp ∧ sp.stop = v := findByEnd_some h

theorem next_none_of_nostart {segs : List Segment} (hinv : Inv2 segs)
    {v : Vertex} (hfs : findByStart segs v = none)
    {p : Nat} {sp : Segment} (hp : segs.get? p = some sp)
    (hstop : sp.stop = v) : sp.next = none := by
  cases hn : sp.next with
  | none => rfl
  | some y =>
    obtain ⟨sy, hy, _, hkey⟩ := hinv.1 p y sp hp hn
    exact absurd (by rw [← hkey]; exact hstop)
      (findByStart_none_nostart hfs y sy hy)

theorem prev_none_of_nostop {segs : List Segment} (hinv : Inv2 segs)
    {v : Vertex} (hfe : findByEnd segs v = none)
    {q : Nat} {sq : Segment} (hq : segs.get? q = some sq)
    (hstart : sq.start = v) : sq.prev = none := by
  cases hn : sq.prev with
  | none => rfl
  | some x =>
    obtain ⟨sx, hx, hxn⟩ := hinv.2.1 x q sq hq hn
    obtain ⟨sy, hy, _, hkey⟩ := hinv.1 x q sx hx hxn
    rw [hq] at hy
    obtain rfl := Option.some.inj hy
    exact absurd (by rw [hkey]; exact hstart)
      (findByEnd_none_nostop hfe x sx hx)

theorem inv2_write_nn (segs : List Segment) (ty : Nat) (dir : Direction)
    (a b : Vertex) (hinv : Inv2 segs) (hab : a ≠ b) :
    Inv2 (segs ++ [(⟨ty, dir, a, b, none, none, none⟩ : Segment)]) := by
  obtain ⟨hN, hP, hD⟩ := hinv
  refine ⟨?_, ?_, ?_⟩
  · intro x y sx hx hxn
    rcases get?_append_single_cases hx with ⟨hlt, hold⟩ | ⟨rfl, rfl⟩
    · obtain ⟨sy, hy, hyp, hkey⟩ := hN x y sx hold hxn
      exact ⟨sy, by rw [get?_append_lt _ _ _ (get?_some_lt hy)]; exact hy,
        hyp, hkey⟩
    · cases hxn
  · intro x y sy hy hyp
    rcases get?_append_single_cases hy with ⟨hlt, hold⟩ | ⟨rfl, rfl⟩
    · obtain ⟨sx, hx, hxn⟩ := hP x y sy hold hyp
      exact ⟨sx, by rw [get?_append_lt _ _ _ (get?_some_lt hx)]; exact hx, hxn⟩
    · cases hyp
  · intro x s hx
    rcases get?_append_single_cases hx with ⟨hlt, hold⟩ | ⟨rfl, rfl⟩
    · exact hD x s hold
    · exact hab

theorem inv2_write_sn (segs : List Segment) (ty : Nat) (dir : Direction)
    (a b : Vertex) (p : Nat) (sp : Segment)
    (hinv : Inv2 segs) (hab : a ≠ b)
    (hsp : segs.get? p = some sp) (hspstop : sp.stop = a)
    (hspnext : sp.next = none)
    (hnostart : ∀ x s, segs.get? x = some s → s.start ≠ a) :
    Inv2 (modSeg (fun s => { s with next := some segs.length }) p
      (segs ++ [(⟨ty, dir, a, b, some p, none, none⟩ : Segment)])) := by
  obtain ⟨hN, hP, hD⟩ := hinv
  have hplt : p < segs.length := get?_some_lt hsp
  set fresh : Segment := ⟨ty, dir, a, b, some p, none, none⟩ with hfreshdef
  have hgp : (modSeg (fun s => { s with next := some segs.length }) p
      (segs ++ [fresh])).get? p = some { sp with next := some segs.length } := by
    rw [modSeg_get?_eq, get?_append_lt _ _ _ hplt, hsp]
    rfl
  have hgn : (modSeg (fun s => { s with next := some segs.length }) p
      (segs ++ [fresh])).get? segs.length = some fresh := by
    rw [modSeg_get?_ne _ _ _ _ (by omega), get?_append_length]
  have hgo : ∀ z, z ≠ p → (modSeg (fun s => { s with next := some segs.length }) p
      (segs ++ [fresh])).get? z = (segs ++ [fresh]).get? z := fun z hz =>
    modSeg_get?_ne _ _ _ _ hz
  refine ⟨?_, ?_, ?_⟩
  · intro x y sx hx hxn
    by_cases hxp : x = p
    · subst hxp
      rw [hgp] at hx
      obtain rfl := Option.some.inj hx
      simp only at hxn
      obtain rfl : y = segs.length := by
        have := Option.some.inj hxn
        omega
      exact ⟨fresh, hgn, by simpa using rfl, by simpa using hspstop⟩
    · rw [hgo x hxp] at hx
      rcases get?_append_single_cases hx with ⟨hlt, hold⟩ | ⟨rfl, rfl⟩
      · obtain ⟨sy, hy, hyp, hkey⟩ := hN x y sx hold hxn
        by_cases hyp2 : y = p
        · subst hyp2
          rw [hy] at hsp
          have heq := Option.some.inj hsp
          refine ⟨{ sp with next := some segs.length }, hgp, ?_, ?_⟩
          · show sp.prev = some x
            rw [← heq]
            exact hyp
          · show sx.stop = sp.start
            rw [← heq]
            exact hkey
        · refine ⟨sy, ?_, hyp, hkey⟩
          rw [hgo y hyp2, get?_append_lt _ _ _ (get?_some_lt hy)]
          exact hy
      · cases hxn
  · intro x y sy hy hyp
    by_cases hyn : y = segs.length
    · subst hyn
      rw [hgn] at hy
      obtain rfl := Option.some.inj hy
      have hxeq : p = x := by
        have h2 : some p = some x := hyp
        exact Option.some.inj h2
      exact ⟨{ sp with next := some segs.length }, by rw [← hxeq]; exact hgp,
        rfl⟩
    · by_cases hyp2 : y = p
      · rw [hyp2] at hy ⊢
        rw [hgp] at hy
        obtain rfl := Option.some.inj hy
        simp only at hyp
        obtain ⟨sx, hx, hxn⟩ := hP x p sp hsp hyp
        have hxp : x ≠ p := by
          intro h
          subst h
          rw [hx] at hsp
          obtain rfl := Option.some.inj hsp
          rw [hspnext] at hxn
          cases hxn
        refine ⟨sx, ?_, hxn⟩
        rw [hgo x hxp, get?_append_lt _ _ _ (get?_some_lt hx)]
        exact hx
      · rw [hgo y hyp2] at hy
        rcases get?_append_single_cases hy with ⟨hlt, hold⟩ | ⟨rfl, rfl⟩
        · obtain ⟨sx, hx, hxn⟩ := hP x y sy hold hyp
          have hxp : x ≠ p := by
            intro h
            subst h
            rw [hx] at hsp
            obtain rfl := Option.some.inj hsp
            rw [hspnext] at hxn
            cases hxn
          refine ⟨sx, ?_, hxn⟩
          rw [hgo x hxp, get?_append_lt _ _ _ (get?_some_lt hx)]
          exact hx
        · exact absurd rfl hyn
  · intro x s hx
    by_cases hxp : x = p
    · rw [hxp, hgp] at hx
      obtain rfl := Option.some.inj hx
      exact hD p sp hsp
    · rw [hgo x hxp] at hx
      rcases get?_append_single_cases hx with ⟨hlt, hold⟩ | ⟨rfl, rfl⟩
      · exact hD x s hold
      · exact hab

theorem inv2_write_ns (segs : List Segment) (ty : Nat) (dir : Direction)
    (a b : Vertex) (q : Nat) (sq : Segment)
    (hinv : Inv2 segs) (hab : a ≠ b)
    (hsq : segs.get? q = some sq) (hsqstart : sq.start = b)
    (hsqprev : sq.prev = none) :
    Inv2 (modSeg (fun s => { s with prev := some segs.length }) q
      (segs ++ [(⟨ty, dir, a, b, none, some q, none⟩ : Segment)])) := by
  obtain ⟨hN, hP, hD⟩ := hinv
  have hqlt : q < segs.length := get?_some_lt hsq
  set fresh : Segment := ⟨ty, dir, a, b, none, some q, none⟩ with hfreshdef
  have hgq : (modSeg (fun s => { s with prev := some segs.length }) q
      (segs ++ [fresh])).get? q = some { sq with prev := some segs.length } := by
    rw [modSeg_get?_eq, get?_append_lt _ _ _ hqlt, hsq]
    rfl
  have hgn : (modSeg (fun s => { s with prev := some segs.length }) q
      (segs ++ [fresh])).get? segs.length = some fresh := by
    rw [modSeg_get?_ne _ _ _ _ (by omega), get?_append_length]
  have hgo : ∀ z, z ≠ q → (modSeg (fun s => { s with prev := some segs.length }) q
      (segs ++ [fresh])).get? z = (segs ++ [fresh]).get? z := fun z hz =>
    modSeg_get?_ne _ _ _ _ hz
  refine ⟨?_, ?_, ?_⟩
  · intro x y sx hx hxn
    by_cases hxn2 : x = segs.length
    · rw [hxn2, hgn] at hx
      obtain rfl := Option.some.inj hx
      have hyq : q = y := by
        have h2 : some q = some y := hxn
        exact Option.some.inj h2
      rw [hxn2, ← hyq]
      exact ⟨{ sq with prev := some segs.length }, hgq, rfl,
        by simpa using hsqstart.symm⟩
    · by_cases hxq : x = q
      · rw [hxq, hgq] at hx
        obtain rfl := Option.some.inj hx
        simp only at hxn
        obtain ⟨sy, hy, hyp, hkey⟩ := hN q y sq hsq hxn
        have hyq : y ≠ q := by
          intro h
          rw [h, hsq] at hy
          obtain rfl := Option.some.inj hy
          exact hD q sq hsq (by rw [← hkey])
        have hyn : y ≠ segs.length := by
          have := get?_some_lt hy
          omega
        refine ⟨sy, ?_, ?_, ?_⟩
        · rw [hgo y hyq, get?_append_lt _ _ _ (get?_some_lt hy)]
          exact hy
        · rw [hxq]
          exact hyp
        · exact hkey
      · rw [hgo x hxq] at hx
        rcases get?_append_single_cases hx with ⟨hlt, hold⟩ | ⟨he, rfl⟩
        · obtain ⟨sy, hy, hyp, hkey⟩ := hN x y sx hold hxn
          have hyq : y ≠ q := by
            intro h
            rw [h, hsq] at hy
            obtain rfl := Option.some.inj hy
            rw [hsqprev] at hyp
            cases hyp
          refine ⟨sy, ?_, hyp, hkey⟩
          rw [hgo y hyq, get?_append_lt _ _ _ (get?_some_lt hy)]
          exact hy
        · exact absurd he hxn2
  · intro x y sy hy hyp
    by_cases hyq : y = q
    · rw [hyq, hgq] at hy
      obtain rfl := Option.some.inj hy
      simp only at hyp
      have hxn : segs.length = x := by
        have h2 : some segs.length = some x := hyp
        exact Option.some.inj h2
      rw [hyq, ← hxn]
      exact ⟨fresh, hgn, rfl⟩
    · by_cases hyn : y = segs.length
      · rw [hyn, hgn] at hy
        obtain rfl := Option.some.inj hy
        cases hyp
      · rw [hgo y hyq] at hy
        rcases get?_append_single_cases hy with ⟨hlt, hold⟩ | ⟨he, rfl⟩
        · obtain ⟨sx, hx, hxn⟩ := hP x y sy hold hyp
          by_cases hxq : x = q
          · rw [hxq] at hx
            rw [hx] at hsq
            have heq := Option.some.inj hsq
            refine ⟨{ sq with prev := some segs.length },
              by rw [hxq]; exact hgq, ?_⟩
            show sq.next = some y
            rw [← heq]
            exact hxn
          · refine ⟨sx, ?_, hxn⟩
            rw [hgo x hxq, get?_append_lt _ _ _ (get?_some_lt hx)]
            exact hx
        · exact absurd he hyn
  · intro x s hx
    by_cases hxq : x = q
    · rw [hxq, hgq] at hx
      obtain rfl := Option.some.inj hx
      exact hD q sq hsq
    · rw [hgo x hxq] at hx
      rcases get?_append_single_cases hx with ⟨hlt, hold⟩ | ⟨he, rfl⟩
      · exact hD x s hold
      · exact hab

theorem inv2_write_ss_ne (segs : List Segment) (ty : Nat) (dir : Direction)
    (a b : Vertex) (p q : Nat) (sp sq : Segment) (hpq : p ≠ q)
    (hinv : Inv2 segs) (hab : a ≠ b)
    (hsp : segs.get? p = some sp) (hspstop : sp.stop = a)
    (hspnext : sp.next = none)
    (hsq : segs.get? q = some sq) (hsqstart : sq.start = b)
    (hsqprev : sq.prev = none) :
    Inv2 (modSeg (fun s => { s with prev := some segs.length }) q
      (modSeg (fun s => { s with next := some segs.length }) p
        (segs ++ [(⟨ty, dir, a, b, some p, some q, none⟩ : Segment)]))) := by
  obtain ⟨hN, hP, hD⟩ := hinv
  have hplt : p < segs.length := get?_some_lt hsp
  have hqlt : q < segs.length := get?_some_lt hsq
  set fresh : Segment := ⟨ty, dir, a, b, some p, some q, none⟩ with hfreshdef
  set S := modSeg (fun s => { s with prev := some segs.length }) q
    (modSeg (fun s => { s with next := some segs.length }) p
      (segs ++ [fresh])) with hSdef
  have hgq : S.get? q = some { sq with prev := some segs.length } := by
    rw [hSdef, modSeg_get?_eq, modSeg_get?_ne _ _ _ _ (Ne.symm hpq),
      get?_append_lt _ _ _ hqlt, hsq]
    rfl
  have hgp : S.get? p = some { sp with next := some segs.length } := by
    rw [hSdef, modSeg_get?_ne _ _ _ _ hpq, modSeg_get?_eq,
      get?_append_lt _ _ _ hplt, hsp]
    rfl
  have hgn : S.get? segs.length = some fresh := by
    rw [hSdef, modSeg_get?_ne _ _ _ _ (by omega),
      modSeg_get?_ne _ _ _ _ (by omega), get?_append_length]
  have hgo : ∀ z, z ≠ p → z ≠ q → S.get? z = (segs ++ [fresh]).get? z := by
    intro z hzp hzq
    rw [hSdef, modSeg_get?_ne _ _ _ _ hzq, modSeg_get?_ne _ _ _ _ hzp]
  refine ⟨?_, ?_, ?_⟩
  · intro x y sx hx hxn
    by_cases hxp : x = p
    · rw [hxp, hgp] at hx
      obtain rfl := Option.some.inj hx
      simp only at hxn
      have hyn : segs.length = y := Option.some.inj hxn
      rw [← hyn]
      exact ⟨fresh, hgn, by rw [hxp], by simpa using hspstop⟩
    · by_cases hxn2 : x = segs.length
      · rw [hxn2, hgn] at hx
        obtain rfl := Option.some.inj hx
        have hyq : q = y := Option.some.inj hxn
        rw [← hyq]
        exact ⟨{ sq with prev := some segs.length }, hgq,
          by rw [hxn2], by simpa using hsqstart.symm⟩
      · by_cases hxq : x = q
        · rw [hxq, hgq] at hx
          obtain rfl := Option.some.inj hx
          simp only at hxn
          obtain ⟨sy, hy, hyp, hkey⟩ := hN q y sq hsq hxn
          by_cases hyq : y = q
          · rw [hyq, hsq] at hy
            obtain rfl := Option.some.inj hy
            exact absurd (by rw [← hkey]) (hD q sq hsq)
          · by_cases hyp2 : y = p
            · rw [hyp2] at hy
              rw [hy] at hsp
              have heq := Option.some.inj hsp
              refine ⟨{ sp with next := some segs.length },
                by rw [hyp2]; exact hgp, ?_, ?_⟩
              · show sp.prev = some x
                rw [← heq, hxq]
                exact hyp
              · show sq.stop = sp.start
                rw [← heq]
                exact hkey
            · have hyn : y ≠ segs.length := by
                have := get?_some_lt hy
                omega
              refine ⟨sy, ?_, by rw [hxq]; exact hyp, hkey⟩
              rw [hgo y hyp2 hyq, get?_append_lt _ _ _ (get?_some_lt hy)]
              exact hy
        · rw [hgo x hxp hxq] at hx
          rcases get?_append_single_cases hx with ⟨hlt, hold⟩ | ⟨he, rfl⟩
          · obtain ⟨sy, hy, hyp, hkey⟩ := hN x y sx hold hxn
            by_cases hyq : y = q
            · rw [hyq, hsq] at hy
              obtain rfl := Option.some.inj hy
              rw [hsqprev] at hyp
              cases hyp
            · by_cases hyp2 : y = p
              · rw [hyp2] at hy
                rw [hy] at hsp
                have heq := Option.some.inj hsp
                refine ⟨{ sp with next := some segs.length },
                  by rw [hyp2]; exact hgp, ?_, ?_⟩
                · show sp.prev = some x
                  rw [← heq]
                  exact hyp
                · show sx.stop = sp.start
                  rw [← heq]
                  exact hkey
              · refine ⟨sy, ?_, hyp, hkey⟩
                rw [hgo y hyp2 hyq, get?_append_lt _ _ _ (get?_some_lt hy)]
                exact hy
          · exact absurd he hxn2
  · intro x y sy hy hyp
    by_cases hyq : y = q
    · rw [hyq, hgq] at hy
      obtain rfl := Option.some.inj hy
      simp only at hyp
      have hxn : segs.length = x := Option.some.inj hyp
      rw [hyq, ← hxn]
      exact ⟨fresh, hgn, rfl⟩
    · by_cases hyn : y = segs.length
      · rw [hyn, hgn] at hy
        obtain rfl := Option.some.inj hy
        have hxp : p = x := Option.some.inj hyp
        rw [hyn, ← hxp]
        exact ⟨{ sp with next := some segs.length }, hgp, rfl⟩
      · by_cases hyp2 : y = p
        · rw [hyp2, hgp] at hy
          obtain rfl := Option.some.inj hy
          simp only at hyp
          obtain ⟨sx, hx, hxn⟩ := hP x p sp hsp hyp
          by_cases hxp : x = p
          · rw [hxp] at hx
            rw [hx] at hsp
            have heq := Option.some.inj hsp
            rw [heq, hspnext] at hxn
            cases hxn
          · by_cases hxq : x = q
            · rw [hxq] at hx
              rw [hx] at hsq
              have heq := Option.some.inj hsq
              refine ⟨{ sq with prev := some segs.length },
                by rw [hxq]; exact hgq, ?_⟩
              show sq.next = some y
              rw [← heq, hyp2]
              exact hxn
            · refine ⟨sx, ?_, by rw [hyp2]; exact hxn⟩
              rw [hgo x hxp hxq, get?_append_lt _ _ _ (get?_some_lt hx)]
              exact hx
        · rw [hgo y hyp2 hyq] at hy
          rcases get?_append_single_cases hy with ⟨hlt, hold⟩ | ⟨he, rfl⟩
          · obtain ⟨sx, hx, hxn⟩ := hP x y sy hold hyp
            by_cases hxp : x = p
            · rw [hxp] at hx
              rw [hx] at hsp
              have heq := Option.some.inj hsp
              rw [heq, hspnext] at hxn
              cases hxn
            · by_cases hxq : x = q
              · rw [hxq] at hx
                rw [hx] at hsq
                have heq := Option.some.inj hsq
                refine ⟨{ sq with prev := some segs.length },
                  by rw [hxq]; exact hgq, ?_⟩
                show sq.next = some y
                rw [← heq]
                exact hxn
              · refine ⟨sx, ?_, hxn⟩
                rw [hgo x hxp hxq, get?_append_lt _ _ _ (get?_some_lt hx)]
                exact hx
          · exact absurd he hyn
  · intro x s hx
    by_cases hxp : x = p
    · rw [hxp, hgp] at hx
      obtain rfl := Option.some.inj hx
      exact hD p sp hsp
    · by_cases hxq : x = q
      · rw [hxq, hgq] at hx
        obtain rfl := Option.some.inj hx
        exact hD q sq hsq
      · rw [hgo x hxp hxq] at hx
        rcases get?_append_single_cases hx with ⟨hlt, hold⟩ | ⟨he, rfl⟩
        · exact hD x s hold
        · exact hab

theorem inv2_write_ss_eq (segs : List Segment) (ty : Nat) (dir : Direction)
    (a b : Vertex) (p : Nat) (sp : Segment)
    (hinv : Inv2 segs) (hab : a ≠ b)
    (hsp : segs.get? p = some sp) (hspstop : sp.stop = a)
    (hspstart : sp.start = b)
    (hspnext : sp.next = none) (hspprev : sp.prev = none) :
    Inv2 (modSeg (fun s => { s with prev := some segs.length }) p
      (modSeg (fun s => { s with next := some segs.length }) p
        (segs ++ [(⟨ty, dir, a, b, some p, some p, none⟩ : Segment)]))) := by
  obtain ⟨hN, hP, hD⟩ := hinv
  have hplt : p < segs.length := get?_some_lt hsp
  set fresh : Segment := ⟨ty, dir, a, b, some p, some p, none⟩ with hfreshdef
  set S := modSeg (fun s => { s with prev := some segs.length }) p
    (modSeg (fun s => { s with next := some segs.length }) p
      (segs ++ [fresh])) with hSdef
  have hgp : S.get? p =
      some ({ sp with next := some segs.length, prev := some segs.length }) := by
    rw [hSdef, modSeg_get?_eq, modSeg_get?_eq,
      get?_append_lt _ _ _ hplt, hsp]
    rfl
  have hgn : S.get? segs.length = some fresh := by
    rw [hSdef, modSeg_get?_ne _ _ _ _ (by omega),
      modSeg_get?_ne _ _ _ _ (by omega), get?_append_length]
  have hgo : ∀ z, z ≠ p → S.get? z = (segs ++ [fresh]).get? z := by
    intro z hzp
    rw [hSdef, modSeg_get?_ne _ _ _ _ hzp, modSeg_get?_ne _ _ _ _ hzp]
  refine ⟨?_, ?_, ?_⟩
  · intro x y sx hx hxn
    by_cases hxp : x = p
    · rw [hxp, hgp] at hx
      obtain rfl := Option.some.inj hx
      simp only at hxn
      have hyn : segs.length = y := Option.some.inj hxn
      rw [← hyn]
      exact ⟨fresh, hgn, by rw [hxp], by simpa using hspstop⟩
    · by_cases hxn2 : x = segs.length
      · rw [hxn2, hgn] at hx
        obtain rfl := Option.some.inj hx
        have hyp2 : p = y := Option.some.inj hxn
        rw [← hyp2]
        refine ⟨({ sp with next := some segs.length, prev := some segs.length }),
          hgp, by rw [hxn2], ?_⟩
        show fresh.stop = sp.start
        rw [hspstart]
      · rw [hgo x hxp] at hx
        rcases get?_append_single_cases hx with ⟨hlt, hold⟩ | ⟨he, rfl⟩
        · obtain ⟨sy, hy, hyp, hkey⟩ := hN x y sx hold hxn
          by_cases hyp2 : y = p
          · rw [hyp2, hsp] at hy
            obtain rfl := Option.some.inj hy
            rw [hspprev] at hyp
            cases hyp
          · refine ⟨sy, ?_, hyp, hkey⟩
            rw [hgo y hyp2, get?_append_lt _ _ _ (get?_some_lt hy)]
            exact hy
        · exact absurd he hxn2
  · intro x y sy hy hyp
    by_cases hyp2 : y = p
    · rw [hyp2, hgp] at hy
      obtain rfl := Option.some.inj hy
      simp only at hyp
      have hxn : segs.length = x := Option.some.inj hyp
      rw [hyp2, ← hxn]
      exact ⟨fresh, hgn, rfl⟩
    · by_cases hyn : y = segs.length
      · rw [hyn, hgn] at hy
        obtain rfl := Option.some.inj hy
        have hxp : p = x := Option.some.inj hyp
        rw [hyn, ← hxp]
        exact ⟨({ sp with next := some segs.length, prev := some segs.length }),
          hgp, rfl⟩
      · rw [hgo y hyp2] at hy
        rcases get?_append_single_cases hy with ⟨hlt, hold⟩ | ⟨he, rfl⟩
        · obtain ⟨sx, hx, hxn⟩ := hP x y sy hold hyp
          have hxp : x ≠ p := by
            intro h
            rw [h] at hx
            rw [hx] at hsp
            have heq := Option.some.inj hsp
            rw [heq, hspnext] at hxn
            cases hxn
          refine ⟨sx, ?_, hxn⟩
          rw [hgo x hxp, get?_append_lt _ _ _ (get?_some_lt hx)]
          exact hx
        · exact absurd he hyn
  · intro x s hx
    by_cases hxp : x = p
    · rw [hxp, hgp] at hx
      obtain rfl := Option.some.inj hx
      exact hD p sp hsp
    · rw [hgo x hxp] at hx
      rcases get?_append_single_cases hx with ⟨hlt, hold⟩ | ⟨he, rfl⟩
      · exact hD x s hold
      · exact hab

/-- The store writes of a fresh insertion preserve the doubly-linked
invariant. -/
theorem inv2_linkWrite (segs : List Segment) (ty : Nat) (dir : Direction)
    (a b : Vertex)
    (hfs : findByStart segs a = none) (hfe : findByEnd segs b = none)
    (hinv : Inv2 segs) (hab : a ≠ b) :
    Inv2 (linkWrite segs ty dir a b) := by
  unfold linkWrite
  cases hpr : findByEnd segs a with
  | none =>
    cases hnx : findByStart segs b with
    | none => exact inv2_write_nn segs ty dir a b hinv hab
    | some q =>
      obtain ⟨sq, hsq, hsqstart⟩ := findByStart_some hnx
      exact inv2_write_ns segs ty dir a b q sq hinv hab hsq hsqstart
        (prev_none_of_nostop hinv hfe hsq hsqstart)
  | some p =>
    obtain ⟨sp, hsp, hspstop⟩ := findByEnd_some hpr
    have hspnext := next_none_of_nostart hinv hfs hsp hspstop
    cases hnx : findByStart segs b with
    | none =>
      exact inv2_write_sn segs ty dir a b p sp hinv hab hsp hspstop hspnext
        (findByStart_none_nostart hfs)
    | some q =>
      obtain ⟨sq, hsq, hsqstart⟩ := findByStart_some hnx
      have hsqprev := prev_none_of_nostop hinv hfe hsq hsqstart
      by_cases hpq : p = q
      · rw [← hpq] at hsq ⊢
        rw [hsq] at hsp
        obtain rfl := Option.some.inj hsp
        exact inv2_write_ss_eq segs ty dir a b p sq hinv hab hsq hspstop
          hsqstart hspnext hsqprev
      · exact inv2_write_ss_ne segs ty dir a b p q sp sq hpq hinv hab hsp
          hspstop hspnext hsq hsqstart hsqprev

theorem sameSeg_symm {A B : List Segment} {x : Nat} (h : sameSeg A B x) :
    sameSeg B A x := h.symm

theorem sameSeg_trans {A B C : List Segment} {x : Nat} (h1 : sameSeg A B x)
    (h2 : sameSeg B C x) : sameSeg A C x := by
  unfold sameSeg at h1 h2 ⊢
  rw [h2, h1]

theorem sameSeg_of_get?_eq {A B : List Segment} {x : Nat}
    (h : B.get? x = A.get? x) : sameSeg A B x := by
  unfold sameSeg
  rw [h]

theorem sameSeg_none_right {A B : List Segment} {x : Nat} (h : sameSeg A B x)
    (hb : B.get? x = none) : A.get? x = none := by
  unfold sameSeg at h
  rw [hb] at h
  simpa using h.symm

theorem sameSeg_get_right {A B : List Segment} {x : Nat} (h : sameSeg A B x)
    {t : Segment} (ht : B.get? x = some t) :
    ∃ u, A.get? x = some u ∧ u.start = t.start ∧ u.stop = t.stop ∧
      u.prev = t.prev ∧ u.next = t.next ∧ u.dir = t.dir ∧ u.type = t.type := by
  unfold sameSeg at h
  rw [ht] at h
  cases hu : A.get? x with
  | none => rw [hu] at h; simp at h
  | some u =>
    rw [hu] at h
    simp only [Option.map_some'] at h
    have he : noL t = noL u := Option.some.inj h
    exact ⟨u, rfl, (congrArg Segment.start he).symm,
      (congrArg Segment.stop he).symm, (congrArg Segment.prev he).symm,
      (congrArg Segment.next he).symm, (congrArg Segment.dir he).symm,
      (congrArg Segment.type he).symm⟩

theorem sameSeg_get_left {A B : List Segment} {x : Nat} (h : sameSeg A B x)
    {u : Segment} (hu : A.get? x = some u) :
    ∃ t, B.get? x = some t ∧ t.start = u.start ∧ t.stop = u.stop ∧
      t.prev = u.prev ∧ t.next = u.next ∧ t.dir = u.dir ∧ t.type = u.type :=
  sameSeg_get_right (sameSeg_symm h) hu

theorem map_keyOf_of_sameSeg {A B : List Segment} (h : ∀ x, sameSeg A B x) :
    B.map keyOf = A.map keyOf := by
  apply List.ext_get?
  intro n
  rw [List.get?_map, List.get?_map]
  exact keys_of_sameSeg (h n)

theorem inv2_of_sameSeg {A B : List Segment} (h : ∀ x, sameSeg A B x)
    (hinv : Inv2 A) : Inv2 B := by
  obtain ⟨hN, hP, hD⟩ := hinv
  refine ⟨?_, ?_, ?_⟩
  · intro x y sx hx hxn
    obtain ⟨u, hu, hust, husp, hupr, hunx, -, -⟩ := sameSeg_get_right (h x) hx
    obtain ⟨sy, hy, hyp, hkey⟩ := hN x y u hu (by rw [hunx]; exact hxn)
    obtain ⟨t, ht, htst, -, htpr, -, -, -⟩ := sameSeg_get_left (h y) hy
    refine ⟨t, ht, by rw [htpr]; exact hyp, ?_⟩
    rw [← husp, hkey, htst]
  · intro x y sy hy hyp
    obtain ⟨t, ht, -, -, htpr, -, -, -⟩ := sameSeg_get_right (h y) hy
    obtain ⟨sx, hx, hxn⟩ := hP x y t ht (by rw [htpr]; exact hyp)
    obtain ⟨u, hu, -, -, -, hunx, -, -⟩ := sameSeg_get_left (h x) hx
    exact ⟨u, hu, by rw [hunx]; exact hxn⟩
  · intro x s hx
    obtain ⟨u, hu, hust, husp, -, -, -, -⟩ := sameSeg_get_right (h x) hx
    have := hD x u hu
    rw [hust, husp] at this
    exact this

theorem mem_of_getLast?_some {l : List Nat} {x : Nat}
    (h : l.getLast? = some x) : x ∈ l := by
  cases l with
  | nil => cases h
  | cons a t =>
    rw [List.getLast?_eq_getLast _ (by simp)] at h
    rw [← Option.some.inj h]
    exact List.getLast_mem _

theorem mem_of_head?_some {l : List Nat} {x : Nat}
    (h : l.head? = some x) : x ∈ l := by
  cases l with
  | nil => cases h
  | cons a t =>
    simp only [List.head?_cons] at h
    rw [← Option.some.inj h]
    exact List.mem_cons_self a t

theorem walkSpell_of_sameSeg (P : Params) {A B : List Segment} :
    ∀ (l : List Nat) (p : Nat), (∀ x ∈ p :: l, sameSeg A B x) →
      walkSpell P B p l = walkSpell P A p l := by
  intro l
  induction l with
  | nil => intro p h; rfl
  | cons s t ih =>
    intro p h
    rw [walkSpell_cons P B p s t, walkSpell_cons P A p s t]
    have htail : walkSpell P B s t = walkSpell P A s t := by
      refine ih s (fun x hx => h x ?_)
      rcases List.mem_cons.mp hx with rfl | hx2
      · exact List.mem_cons_of_mem p (List.mem_cons_self x t)
      · exact List.mem_cons_of_mem p (List.mem_cons_of_mem s hx2)
    rw [htail]
    have hs := h s (List.mem_cons_of_mem p (List.mem_cons_self s t))
    have hp := h p (List.mem_cons_self p (s :: t))
    cases hbs : B.get? s with
    | none =>
      rw [sameSeg_none_right hs hbs]
    | some tb =>
      obtain ⟨ua, hua, e1, -, -, -, e5, -⟩ := sameSeg_get_right hs hbs
      cases hbp : B.get? p with
      | none =>
        rw [hua, sameSeg_none_right hp hbp]
      | some pb =>
        obtain ⟨up, hup, -, -, -, -, g5, -⟩ := sameSeg_get_right hp hbp
        rw [hua, hup]
        dsimp only
        rw [e1, e5, g5]

theorem cycClosed_of_sameSeg {A B : List Segment} {cyc : List Nat}
    (h : ∀ x ∈ cyc, sameSeg A B x) (hc : CycClosed A cyc) : CycClosed B cyc := by
  obtain ⟨hne, hchain, hwrap⟩ := hc
  refine ⟨hne, chain'_of_sameSeg h hchain, ?_⟩
  intro x y hx hy
  exact linked_of_sameSeg (h x (mem_of_getLast?_some hx))
    (h y (mem_of_head?_some hy)) (hwrap x y hx hy)

theorem ringOfCycle_of_sameSeg (P : Params) {A B : List Segment}
    {cyc : List Nat} (h : ∀ x ∈ cyc, sameSeg A B x) :
    ringOfCycle P B cyc = ringOfCycle P A cyc := by
  unfold ringOfCycle
  cases cyc with
  | nil => rfl
  | cons head rest =>
    cases hlst : (head :: rest).getLast? with
    | none => simp at hlst
    | some lst =>
      have hlm : lst ∈ head :: rest := mem_of_getLast?_some hlst
      dsimp only
      have hh := h head (List.mem_cons_self head rest)
      have hl := h lst hlm
      cases hbh : B.get? head with
      | none =>
        rw [sameSeg_none_right hh hbh]
      | some tb =>
        obtain ⟨ua, hua, e1, -, -, -, -, e6⟩ := sameSeg_get_right hh hbh
        cases hbl : B.get? lst with
        | none =>
          rw [hua, sameSeg_none_right hl hbl]
          dsimp only
          rw [e1]
        | some lb =>
          obtain ⟨la, hla, -, -, -, -, -, f6⟩ := sameSeg_get_right hl hbl
          rw [hua, hla]
          dsimp only
          rw [e1, e6, f6]
          have hrest : walkSpell P B head rest = walkSpell P A head rest :=
            walkSpell_of_sameSeg P rest head h
          have hrest2 : walkSpell P B head rest.dropLast =
              walkSpell P A head rest.dropLast := by
            refine walkSpell_of_sameSeg P rest.dropLast head (fun x hx => h x ?_)
            rcases List.mem_cons.mp hx with rfl | hx2
            · exact List.mem_cons_self x rest
            · exact List.mem_cons_of_mem head
                ((List.dropLast_sublist rest).subset hx2)
          by_cases hty : tb.type ≠ lb.type
          · rw [if_pos hty, if_pos hty, hrest]
          · rw [if_neg hty, if_neg hty, hrest2]

theorem ringWitness_persist (P : Params) {A B : List Segment}
    {ring : List Vertex} (hw : RingWitness P A ring)
    (hbusy : ∀ x s, A.get? x = some s → s.next ≠ none → s.prev ≠ none →
      sameSeg A B x) :
    RingWitness P B ring := by
  obtain ⟨cyc, hc, hr⟩ := hw
  have hmem : ∀ x ∈ cyc, sameSeg A B x := by
    intro x hx
    obtain ⟨hn, hp⟩ := cycClosed_next_ne hc x hx
    unfold segNext at hn
    unfold segPrev at hp
    cases hgx : A.get? x with
    | none => rw [hgx] at hn; exact absurd rfl hn
    | some s =>
      rw [hgx] at hn hp
      exact hbusy x s hgx (by simpa using hn) (by simpa using hp)
  refine ⟨cyc, cycClosed_of_sameSeg hmem hc, ?_⟩
  rw [ringOfCycle_of_sameSeg P hmem]
  exact hr

theorem map_keyOf_modSeg (f : Segment → Segment)
    (hf : ∀ s, keyOf (f s) = keyOf s) (n : Nat) (l : List Segment) :
    (modSeg f n l).map keyOf = l.map keyOf := by
  induction l generalizing n with
  | nil => cases n <;> rfl
  | cons s t ih =>
    cases n with
    | zero =>
      show keyOf (f s) :: t.map keyOf = keyOf s :: t.map keyOf
      rw [hf]
    | succ n =>
      show keyOf s :: (modSeg f n t).map keyOf = keyOf s :: t.map keyOf
      rw [ih]

theorem map_keyOf_modSeg_next (v : Option Nat) (n : Nat) (l : List Segment) :
    (modSeg (fun s => { s with next := v }) n l).map keyOf = l.map keyOf :=
  map_keyOf_modSeg (fun s => { s with next := v }) (fun s => rfl) n l

theorem map_keyOf_modSeg_prev (v : Option Nat) (n : Nat) (l : List Segment) :
    (modSeg (fun s => { s with prev := v }) n l).map keyOf = l.map keyOf :=
  map_keyOf_modSeg (fun s => { s with prev := v }) (fun s => rfl) n l

theorem linkWrite_keys (segs : List Segment) (ty : Nat) (dir : Direction)
    (a b : Vertex) :
    (linkWrite segs ty dir a b).map keyOf = segs.map keyOf ++ [(a, b)] := by
  simp only [linkWrite]
  cases hpr : findByEnd segs a with
  | none =>
    cases hnx : findByStart segs b with
    | none =>
      dsimp only
      rw [List.map_append]
      rfl
    | some q =>
      dsimp only
      rw [map_keyOf_modSeg_prev, List.map_append]
      rfl
  | some p =>
    cases hnx : findByStart segs b with
    | none =>
      dsimp only
      rw [map_keyOf_modSeg_next, List.map_append]
      rfl
    | some q =>
      dsimp only
      rw [map_keyOf_modSeg_prev, map_keyOf_modSeg_next, List.map_append]
      rfl

theorem linkWrite_busy (segs : List Segment) (ty : Nat) (dir : Direction)
    (a b : Vertex) (hinv : Inv2 segs)
    (hfs : findByStart segs a = none) (hfe : findByEnd segs b = none) :
    ∀ x s, segs.get? x = some s → s.next ≠ none → s.prev ≠ none →
      (linkWrite segs ty dir a b).get? x = segs.get? x := by
  intro x s hx hn hp
  have hxlt := get?_some_lt hx
  simp only [linkWrite]
  cases hpr : findByEnd segs a with
  | none =>
    cases hnx : findByStart segs b with
    | none =>
      dsimp only
      exact get?_append_lt _ _ _ hxlt
    | some q =>
      obtain ⟨sq, hsq, hsqs⟩ := findByStart_some hnx
      have hqp := prev_none_of_nostop hinv hfe hsq hsqs
      have hxq : x ≠ q := by
        intro he
        rw [he, hsq] at hx
        rw [← Option.some.inj hx, hqp] at hp
        exact hp rfl
      dsimp only
      rw [modSeg_get?_ne _ _ _ _ hxq, get?_append_lt _ _ _ hxlt]
  | some p =>
    obtain ⟨sp, hsp, hsps⟩ := findByEnd_some hpr
    have hpn := next_none_of_nostart hinv hfs hsp hsps
    have hxp : x ≠ p := by
      intro he
      rw [he, hsp] at hx
      rw [← Option.some.inj hx, hpn] at hn
      exact hn rfl
    cases hnx : findByStart segs b with
    | none =>
      dsimp only
      rw [modSeg_get?_ne _ _ _ _ hxp, get?_append_lt _ _ _ hxlt]
    | some q =>
      obtain ⟨sq, hsq, hsqs⟩ := findByStart_some hnx
      have hqp := prev_none_of_nostop hinv hfe hsq hsqs
      have hxq : x ≠ q := by
        intro he
        rw [he, hsq] at hx
        rw [← Option.some.inj hx, hqp] at hp
        exact hp rfl
      dsimp only
      rw [modSeg_get?_ne _ _ _ _ hxq, modSeg_get?_ne _ _ _ _ hxp,
        get?_append_lt _ _ _ hxlt]

theorem extract_after_leader (P : Params) (l k : Nat) (v : Option Nat)
    (W : List Segment) (rings0 : List (List Vertex)) (err0 : Bool)
    (hinvW : Inv2 W) :
    (∀ x, sameSeg W (extract P l
      (⟨modSeg (fun s => { s with leader := v }) k W, rings0, err0⟩ :
        LState)).segs x) ∧
    ((extract P l (⟨modSeg (fun s => { s with leader := v }) k W, rings0,
        err0⟩ : LState)).rings = rings0 ∨
      ∃ rg, (extract P l (⟨modSeg (fun s => { s with leader := v }) k W,
          rings0, err0⟩ : LState)).rings = rings0 ++ [rg] ∧
        RingWitness P (extract P l
          (⟨modSeg (fun s => { s with leader := v }) k W, rings0, err0⟩ :
            LState)).segs rg) := by
  have hsame : ∀ x, sameSeg W
      (modSeg (fun s => { s with leader := v }) k W) x :=
    fun x => modSeg_leader_sameSeg v k W x
  have hinv4 : Inv2 (modSeg (fun s => { s with leader := v }) k W) :=
    inv2_of_sameSeg hsame hinvW
  obtain ⟨hsegs, hrings⟩ := extract_shape P l
    (⟨modSeg (fun s => { s with leader := v }) k W, rings0, err0⟩ : LState)
  constructor
  · intro x
    rw [hsegs]
    exact hsame x
  · rcases hrings with h | ⟨hs, hp, hps, s0, vs, hhs, hprev, hhps, hnext,
      hw, heq⟩
    · exact Or.inl h
    · refine Or.inr ⟨hs.start :: vs, heq, ?_⟩
      rw [hsegs]
      exact ring_witness_of_walk P _ hinv4 l hp s0 hs hps vs hhs hprev hhps
        hnext hw

/-- A fresh insertion (no segment in the store shares either key): the
final store is the `linkWrite` shape up to ringLeader fields, and the ring
list is either untouched or extended by one ring extracted from a closed
chain of the final store. -/
theorem linkSegment_fresh (P : Params) (ty : Nat) (dir : Direction)
    (a b : Vertex) (st : LState)
    (hfs : findByStart st.segs a = none) (hfe : findByEnd st.segs b = none)
    (hinv : Inv2 st.segs) (hab : a ≠ b) :
    (∀ x, sameSeg (linkWrite st.segs ty dir a b)
      (linkSegment P ty dir a b st).segs x) ∧
    ((linkSegment P ty dir a b st).rings = st.rings ∨
      ∃ rg, (linkSegment P ty dir a b st).rings = st.rings ++ [rg] ∧
        RingWitness P (linkSegment P ty dir a b st).segs rg) := by
  have hinvW := inv2_linkWrite st.segs ty dir a b hfs hfe hinv hab
  simp only [linkWrite] at hinvW
  simp only [linkSegment, linkWrite]
  rw [hfs, hfe]
  cases hpr : findByEnd st.segs a with
  | none =>
    rw [hpr] at hinvW
    cases hnx : findByStart st.segs b with
    | none =>
      dsimp only
      rw [if_pos ⟨rfl, rfl⟩]
      exact ⟨fun x => sameSeg_refl _ x, Or.inl rfl⟩
    | some q =>
      rw [hnx] at hinvW
      dsimp only
      dsimp only at hinvW
      rw [if_neg (by simp)]
      cases hql : ((st.segs ++
          [(⟨ty, dir, a, b, none, some q, none⟩ : Segment)]).get? q).bind
          (fun s => s.leader) with
      | none =>
        rw [if_pos ⟨rfl, rfl⟩]
        dsimp only
        refine ⟨fun x => ?_, Or.inl rfl⟩
        exact sameSeg_trans (modSeg_leader_sameSeg _ _ _ x)
          (modSeg_leader_sameSeg _ _ _ x)
      | some lB =>
        rw [if_neg (by simp), if_pos rfl]
        dsimp only
        refine ⟨fun x => ?_, Or.inl rfl⟩
        exact distributeRingLeaderPrev_sameSeg q _ x
  | some p =>
    rw [hpr] at hinvW
    cases hnx : findByStart st.segs b with
    | none =>
      rw [hnx] at hinvW
      dsimp only
      dsimp only at hinvW
      rw [if_neg (by simp)]
      cases hpl : ((st.segs ++
          [(⟨ty, dir, a, b, some p, none, none⟩ : Segment)]).get? p).bind
          (fun s => s.leader) with
      | none =>
        rw [if_pos ⟨rfl, rfl⟩]
        dsimp only
        refine ⟨fun x => ?_, Or.inl rfl⟩
        exact sameSeg_trans (modSeg_leader_sameSeg _ _ _ x)
          (modSeg_leader_sameSeg _ _ _ x)
      | some lA =>
        rw [if_neg (by simp), if_neg (by simp), if_pos rfl]
        dsimp only
        refine ⟨fun x => ?_, Or.inl rfl⟩
        exact distributeRingLeaderNext_sameSeg p _ x
    | some q =>
      rw [hnx] at hinvW
      dsimp only
      dsimp only at hinvW
      rw [if_neg (by simp)]
      cases hpl : ((st.segs ++
          [(⟨ty, dir, a, b, some p, some q, none⟩ : Segment)]).get? p).bind
          (fun s => s.leader) with
      | none =>
        cases hql : ((st.segs ++
            [(⟨ty, dir, a, b, some p, some q, none⟩ : Segment)]).get? q).bind
            (fun s => s.leader) with
        | none =>
          rw [if_pos ⟨rfl, rfl⟩]
          dsimp only
          refine ⟨fun x => ?_, Or.inl rfl⟩
          exact sameSeg_trans (modSeg_leader_sameSeg _ _ _ x)
            (sameSeg_trans (modSeg_leader_sameSeg _ _ _ x)
              (modSeg_leader_sameSeg _ _ _ x))
        | some lB =>
          rw [if_neg (by simp), if_pos rfl]
          dsimp only
          refine ⟨fun x => ?_, Or.inl rfl⟩
          exact distributeRingLeaderPrev_sameSeg q _ x
      | some lA =>
        cases hql : ((st.segs ++
            [(⟨ty, dir, a, b, some p, some q, none⟩ : Segment)]).get? q).bind
            (fun s => s.leader) with
        | none =>
          rw [if_neg (by simp), if_neg (by simp), if_pos rfl]
          dsimp only
          refine ⟨fun x => ?_, Or.inl rfl⟩
          exact distributeRingLeaderNext_sameSeg p _ x
        | some lB =>
          rw [if_neg (by simp), if_neg (by simp), if_neg (by simp)]
          by_cases hAB : lA = lB
          · rw [hAB, if_neg (by simp)]
            dsimp only
            exact extract_after_leader P lB st.segs.length (some lB) _
              st.rings st.err hinvW
          · rw [if_pos (by simpa using hAB)]
            dsimp only
            refine ⟨fun x => ?_, Or.inl rfl⟩
            exact distributeRingLeaderNext_sameSeg p _ x

theorem keysAfter_cons_dup (K : List (Vertex × Vertex)) (c : Call)
    (cs : List Call) (hc : ∃ k ∈ K, k.1 = c.a ∨ k.2 = c.b) :
    keysAfter K (c :: cs) = keysAfter K cs := by
  show (if ∃ k ∈ K, k.1 = c.a ∨ k.2 = c.b then keysAfter K cs
    else keysAfter (K ++ [(c.a, c.b)]) cs) = keysAfter K cs
  rw [if_pos hc]

theorem keysAfter_cons_fresh (K : List (Vertex × Vertex)) (c : Call)
    (cs : List Call) (hc : ¬ ∃ k ∈ K, k.1 = c.a ∨ k.2 = c.b) :
    keysAfter K (c :: cs) = keysAfter (K ++ [(c.a, c.b)]) cs := by
  show (if ∃ k ∈ K, k.1 = c.a ∨ k.2 = c.b then keysAfter K cs
    else keysAfter (K ++ [(c.a, c.b)]) cs) = keysAfter (K ++ [(c.a, c.b)]) cs
  rw [if_neg hc]

theorem stepCall_fresh (P : Params) (st : BState) (c : Call)
    (K : List (Vertex × Vertex)) (hinv : KeyInv P st K)
    (hfr : ∀ k ∈ K, k.1 ≠ c.a ∧ k.2 ≠ c.b) (hab : c.a ≠ c.b) :
    KeyInv P (stepCall P st c) (K ++ [(c.a, c.b)]) := by
  obtain ⟨hkeys, hinv2, hrw⟩ := hinv
  have hfs : findByStart st.segs c.a = none := by
    refine findByStart_none _ _ (fun s hs => ?_)
    have hks : keyOf s ∈ K := by
      rw [← hkeys]
      exact List.mem_map_of_mem keyOf hs
    exact (hfr _ hks).1
  have hfe : findByEnd st.segs c.b = none := by
    refine findByEnd_none _ _ (fun s hs => ?_)
    have hks : keyOf s ∈ K := by
      rw [← hkeys]
      exact List.mem_map_of_mem keyOf hs
    exact (hfr _ hks).2
  obtain ⟨hss, hrings⟩ := linkSegment_fresh P c.ty c.dir c.a c.b
    ⟨st.segs, st.rings, st.err⟩ hfs hfe hinv2 hab
  have hbusy : ∀ x s, st.segs.get? x = some s → s.next ≠ none →
      s.prev ≠ none → sameSeg st.segs
        (linkSegment P c.ty c.dir c.a c.b
          ⟨st.segs, st.rings, st.err⟩).segs x :=
    fun x s hx hn hp =>
      sameSeg_trans
        (sameSeg_of_get?_eq
          (linkWrite_busy st.segs c.ty c.dir c.a c.b hinv2 hfs hfe x s hx
            hn hp)) (hss x)
  refine ⟨?_, ?_, ?_⟩
  · show (linkSegment P c.ty c.dir c.a c.b
        ⟨st.segs, st.rings, st.err⟩).segs.map keyOf = K ++ [(c.a, c.b)]
    rw [map_keyOf_of_sameSeg hss, linkWrite_keys, hkeys]
  · exact inv2_of_sameSeg hss
      (inv2_linkWrite st.segs c.ty c.dir c.a c.b hfs hfe hinv2 hab)
  · intro ring hring
    rcases hrings with he | ⟨rg, he, hwit⟩
    · rw [show (stepCall P st c).rings =
          (linkSegment P c.ty c.dir c.a c.b
            ⟨st.segs, st.rings, st.err⟩).rings from rfl, he] at hring
      exact ringWitness_persist P (hrw ring hring) hbusy
    · rw [show (stepCall P st c).rings =
          (linkSegment P c.ty c.dir c.a c.b
            ⟨st.segs, st.rings, st.err⟩).rings from rfl, he] at hring
      rcases List.mem_append.mp hring with h1 | h2
      · exact ringWitness_persist P (hrw ring h1) hbusy
      · rw [List.mem_singleton.mp h2]
        exact hwit

theorem stepCall_dup (P : Params) (st : BState) (c : Call)
    (K : List (Vertex × Vertex)) (hinv : KeyInv P st K)
    (hpr : ∀ k ∈ K, k.2 ≠ c.a) (hnx : ∀ k ∈ K, k.1 ≠ c.b)
    (hcol : ∃ k ∈ K, k.1 = c.a ∨ k.2 = c.b) :
    KeyInv P (stepCall P st c) K := by
  obtain ⟨hkeys, hinv2, hrw⟩ := hinv
  have hpr' : findByEnd st.segs c.a = none := by
    refine findByEnd_none _ _ (fun s hs => ?_)
    have hks : keyOf s ∈ K := by
      rw [← hkeys]
      exact List.mem_map_of_mem keyOf hs
    exact hpr _ hks
  have hnx' : findByStart st.segs c.b = none := by
    refine findByStart_none _ _ (fun s hs => ?_)
    have hks : keyOf s ∈ K := by
      rw [← hkeys]
      exact List.mem_map_of_mem keyOf hs
    exact hnx _ hks
  have hcol' : ¬(findByStart st.segs c.a = none ∧
      findByEnd st.segs c.b = none) := by
    rintro ⟨h1, h2⟩
    obtain ⟨k, hk, hor⟩ := hcol
    rw [← hkeys] at hk
    obtain ⟨s, hsmem, rfl⟩ := List.mem_map.mp hk
    obtain ⟨n, hn⟩ := List.get?_of_mem hsmem
    rcases hor with h | h
    · exact findByStart_none_nostart h1 n s hn h
    · exact findByEnd_none_nostop h2 n s hn h
  have hid := linkSegment_noop P c.ty c.dir c.a c.b
    ⟨st.segs, st.rings, st.err⟩ hcol' hpr' hnx'
  show KeyInv P ⟨(linkSegment P c.ty c.dir c.a c.b
      ⟨st.segs, st.rings, st.err⟩).segs,
    setBorder c.ty c.i c.j st.border,
    (linkSegment P c.ty c.dir c.a c.b ⟨st.segs, st.rings, st.err⟩).rings,
    (linkSegment P c.ty c.dir c.a c.b ⟨st.segs, st.rings, st.err⟩).err⟩ K
  rw [hid]
  exact ⟨hkeys, hinv2, hrw⟩

theorem runCalls_inv (P : Params) (cs : List Call) (st : BState)
    (K : List (Vertex × Vertex)) (hinv : KeyInv P st K) (hok : RunOK K cs) :
    KeyInv P (runCalls P cs st) (keysAfter K cs) := by
  induction cs generalizing st K with
  | nil => exact hinv
  | cons c cs ih =>
    rcases hok with ⟨hfr, hab, hok'⟩ | ⟨hd, hcol, hok'⟩
    · have hstep := stepCall_fresh P st c K hinv hfr hab
      have hcond : ¬ ∃ k ∈ K, k.1 = c.a ∨ k.2 = c.b := by
        rintro ⟨k, hk, h | h⟩
        · exact (hfr k hk).1 h
        · exact (hfr k hk).2 h
      rw [keysAfter_cons_fresh K c cs hcond]
      exact ih _ _ hstep hok'
    · have hpr : ∀ k ∈ K, k.2 ≠ c.a := fun k hk => (hd k hk).1
      have hnx : ∀ k ∈ K, k.1 ≠ c.b := fun k hk => (hd k hk).2
      have hstep := stepCall_dup P st c K hinv hpr hnx hcol
      rw [keysAfter_cons_dup K c cs hcol]
      exact ih _ _ hstep hok'

theorem runOK_prefix (t cs : List Call) (K : List (Vertex × Vertex))
    (hp : t <+: cs) (h : RunOK K cs) : RunOK K t := by
  induction t generalizing K cs with
  | nil => trivial
  | cons c t ih =>
    cases cs with
    | nil =>
      obtain ⟨r, hr⟩ := hp
      simp at hr
    | cons c' cs =>
      obtain ⟨r, hr⟩ := hp
      rw [List.cons_append] at hr
      injection hr with h1 h2
      subst h1
      rcases h with ⟨hfr, hab, hok'⟩ | ⟨hd, hcol, hok'⟩
      · exact Or.inl ⟨hfr, hab, ih cs _ ⟨r, h2⟩ hok'⟩
      · exact Or.inr ⟨hd, hcol, ih cs _ ⟨r, h2⟩ hok'⟩

theorem keysAfter_append (K : List (Vertex × Vertex)) (cs1 cs2 : List Call) :
    keysAfter K (cs1 ++ cs2) = keysAfter (keysAfter K cs1) cs2 := by
  induction cs1 generalizing K with
  | nil => rfl
  | cons c cs ih =>
    by_cases hc : ∃ k ∈ K, k.1 = c.a ∨ k.2 = c.b
    · rw [show ((c :: cs) ++ cs2) = c :: (cs ++ cs2) from rfl,
        keysAfter_cons_dup K c (cs ++ cs2) hc, keysAfter_cons_dup K c cs hc]
      exact ih K
    · rw [show ((c :: cs) ++ cs2) = c :: (cs ++ cs2) from rfl,
        keysAfter_cons_fresh K c (cs ++ cs2) hc,
        keysAfter_cons_fresh K c cs hc]
      exact ih (K ++ [(c.a, c.b)])

theorem runOK_append (K : List (Vertex × Vertex)) (cs1 cs2 : List Call)
    (h1 : RunOK K cs1) (h2 : RunOK (keysAfter K cs1) cs2) :
    RunOK K (cs1 ++ cs2) := by
  induction cs1 generalizing K with
  | nil => exact h2
  | cons c cs ih =>
    rcases h1 with ⟨hfr, hab, hok'⟩ | ⟨hd, hcol, hok'⟩
    · have hcond : ¬ ∃ k ∈ K, k.1 = c.a ∨ k.2 = c.b := by
        rintro ⟨k, hk, h | h⟩
        · exact (hfr k hk).1 h
        · exact (hfr k hk).2 h
      refine Or.inl ⟨hfr, hab, ih _ hok' ?_⟩
      rw [keysAfter_cons_fresh K c cs hcond] at h2
      exact h2
    · refine Or.inr ⟨hd, hcol, ih _ hok' ?_⟩
      rw [keysAfter_cons_dup K c cs hcol] at h2
      exact h2

theorem exists_prefix_of_mem_scanl {α β : Type} (f : β → α → β) :
    ∀ (l : List α) (b : β) (x : β), x ∈ l.scanl f b →
      ∃ t, t <+: l ∧ x = t.foldl f b := by
  intro l
  induction l with
  | nil =>
    intro b x hx
    simp only [List.scanl_nil, List.mem_singleton] at hx
    exact ⟨[], List.nil_prefix, hx⟩
  | cons a l ih =>
    intro b x hx
    rw [List.scanl_cons] at hx
    rcases List.mem_cons.mp hx with rfl | hx2
    · exact ⟨[], List.nil_prefix, rfl⟩
    · obtain ⟨t, ⟨r, hr⟩, he⟩ := ih (f b a) x hx2
      exact ⟨a :: t, ⟨r, by rw [List.cons_append, hr]⟩, he⟩

theorem foldl_mem_scanl {α β : Type} (f : β → α → β) :
    ∀ (l : List α) (b : β), l.foldl f b ∈ l.scanl f b := by
  intro l
  induction l with
  | nil =>
    intro b
    simp
  | cons a l ih =>
    intro b
    rw [List.scanl_cons, List.foldl_cons]
    exact List.mem_cons_of_mem _ (ih (f b a))

theorem vpair_ne {x1 y1 x2 y2 : ℤ} (h : ¬(x1 = x2 ∧ y1 = y2)) :
    ((x1, y1) : Vertex) ≠ (x2, y2) := by
  intro he
  rw [Prod.mk.injEq] at he
  exact h he

theorem keys_nondeg : ∀ code ∈ List.range 16, ∀ cls ∈ List.range 3,
    ∀ (isB : Bool), ∀ k ∈ cellKeysN isB code cls, k.1 ≠ k.2 := by decide

theorem cellKey_nondeg (r : Raster) (P : Params) (c : Cell) :
    ∀ k ∈ cellStoreKeys r P c, k.1 ≠ k.2 := by
  intro k hk
  unfold cellStoreKeys at hk
  obtain ⟨k0, hk0, rfl⟩ := List.mem_map.mp hk
  have h := keys_nondeg _ (List.mem_range.mpr (getFlags_lt16 r c.i c.j)) _
    (List.mem_range.mpr (ambClass_lt3 _ _)) c.isBorder k0 hk0
  intro he
  apply h
  simp only [shiftKey, Prod.mk.injEq] at he
  exact Prod.ext_iff.mpr ⟨by omega, by omega⟩

theorem runOK_all_fresh (K : List (Vertex × Vertex)) (cs : List Call)
    (hK : ∀ k ∈ K, ∀ k' ∈ cs.map callKey, k.1 ≠ k'.1 ∧ k.2 ≠ k'.2)
    (hpair : (cs.map callKey).Pairwise (fun k k' => k.1 ≠ k'.1 ∧ k.2 ≠ k'.2))
    (hnd : ∀ k ∈ cs.map callKey, k.1 ≠ k.2) :
    RunOK K cs ∧ keysAfter K cs = K ++ cs.map callKey := by
  induction cs generalizing K with
  | nil =>
    refine ⟨trivial, ?_⟩
    show K = K ++ ([] : List (Vertex × Vertex))
    rw [List.append_nil]
  | cons c cs ih =>
    have hkc : callKey c ∈ (c :: cs).map callKey := by
      rw [List.map_cons]
      exact List.mem_cons_self _ _
    have hfr : ∀ k ∈ K, k.1 ≠ c.a ∧ k.2 ≠ c.b := fun k hk => hK k hk _ hkc
    have hab : c.a ≠ c.b := hnd _ hkc
    have hcond : ¬ ∃ k ∈ K, k.1 = c.a ∨ k.2 = c.b := by
      rintro ⟨k, hk, h | h⟩
      · exact (hfr k hk).1 h
      · exact (hfr k hk).2 h
    rw [List.map_cons] at hpair
    obtain ⟨hhd, htl⟩ := List.pairwise_cons.mp hpair
    have hK' : ∀ k ∈ K ++ [(c.a, c.b)], ∀ k' ∈ cs.map callKey,
        k.1 ≠ k'.1 ∧ k.2 ≠ k'.2 := by
      intro k hk k' hk'
      rcases List.mem_append.mp hk with h1 | h2
      · refine hK k h1 k' ?_
        rw [List.map_cons]
        exact List.mem_cons_of_mem _ hk'
      · rw [List.mem_singleton.mp h2]
        exact hhd k' hk'
    have hnd' : ∀ k ∈ cs.map callKey, k.1 ≠ k.2 := by
      intro k hk
      refine hnd k ?_
      rw [List.map_cons]
      exact List.mem_cons_of_mem _ hk
    obtain ⟨hrun, hkeys⟩ := ih (K ++ [(c.a, c.b)]) hK' htl hnd'
    refine ⟨Or.inl ⟨hfr, hab, hrun⟩, ?_⟩
    rw [keysAfter_cons_fresh K c cs hcond, hkeys, List.map_cons,
      List.append_assoc]
    rfl

theorem cellStoreKeys_border2 (r : Raster) (P : Params) (c : Cell)
    (hb : c.isBorder = true) (h2 : getFlags r c.i c.j = 2) :
    cellStoreKeys r P c =
      [((2*c.i+1, 2*c.j+2), (2*c.i+1, 2*c.j+1)),
       ((2*c.i+1, 2*c.j+1), (2*c.i+2, 2*c.j+1))] := by
  unfold cellStoreKeys
  rw [hb, h2]
  rfl

theorem cell_runOK (P : Params) (r : Raster) (c : Cell)
    (K : List (Vertex × Vertex))
    (hK : ∀ k ∈ K, ∀ k' ∈ cellStoreKeys r P c, k.1 ≠ k'.1 ∧ k.2 ≠ k'.2)
    (hpair : (cellStoreKeys r P c).Pairwise
      (fun k k' => k.1 ≠ k'.1 ∧ k.2 ≠ k'.2))
    (hdupfresh : hasDup c.isBorder (getFlags r c.i c.j) = true →
      ∀ k ∈ K, k.1 ≠ ((2*c.i : ℤ), (2*c.j+1 : ℤ)) ∧
        k.2 ≠ ((2*c.i : ℤ), (2*c.j+1 : ℤ)) ∧
        k.1 ≠ ((2*c.i+2 : ℤ), (2*c.j+1 : ℤ))) :
    RunOK K (cellCalls P r c) ∧
    keysAfter K (cellCalls P r c) = K ++ cellStoreKeys r P c := by
  have hck := cellCalls_keys P r c
  by_cases hdup : hasDup c.isBorder (getFlags r c.i c.j) = true
  case neg =>
    have hck' : (cellCalls P r c).map callKey = cellStoreKeys r P c := by
      rw [hck, if_neg hdup, List.append_nil]
    have hres := runOK_all_fresh K (cellCalls P r c) (by rw [hck']; exact hK)
      (by rw [hck']; exact hpair) (by rw [hck']; exact cellKey_nondeg r P c)
    rw [hck'] at hres
    exact hres
  case pos =>
    have hdup2 := hdup
    unfold hasDup at hdup2
    rw [Bool.and_eq_true] at hdup2
    obtain ⟨hb, hc2⟩ := hdup2
    have hcode : getFlags r c.i c.j = 2 := by simpa using hc2
    have hsk := cellStoreKeys_border2 r P c hb hcode
    have hcc : cellCalls P r c =
        [(⟨2, .u, c.i, c.j, (2*c.i+1, 2*c.j+2), (2*c.i+1, 2*c.j+1)⟩ : Call),
         ⟨2, .r, c.i, c.j, (2*c.i+1, 2*c.j+1), (2*c.i+2, 2*c.j+1)⟩,
         ⟨2, .r, c.i, c.j, (2*c.i, 2*c.j+1), (2*c.i+2, 2*c.j+1)⟩] := by
      unfold cellCalls
      rw [hcode, hb, if_pos rfl]
      show addBorderCalls c.i c.j 2 = _
      unfold addBorderCalls mkCall
      simp only [add_zero]
    have hm1 : (((2*c.i+1, 2*c.j+2), (2*c.i+1, 2*c.j+1)) :
        Vertex × Vertex) ∈ cellStoreKeys r P c := by
      rw [hsk]
      exact List.mem_cons_self _ _
    have hm2 : (((2*c.i+1, 2*c.j+1), (2*c.i+2, 2*c.j+1)) :
        Vertex × Vertex) ∈ cellStoreKeys r P c := by
      rw [hsk]
      exact List.mem_cons_of_mem _ (List.mem_cons_self _ _)
    have hfr1 : ∀ k ∈ K, k.1 ≠ ((2*c.i+1, 2*c.j+2) : Vertex) ∧
        k.2 ≠ ((2*c.i+1, 2*c.j+1) : Vertex) := fun k hk => hK k hk _ hm1
    have hfr2K : ∀ k ∈ K, k.1 ≠ ((2*c.i+1, 2*c.j+1) : Vertex) ∧
        k.2 ≠ ((2*c.i+2, 2*c.j+1) : Vertex) := fun k hk => hK k hk _ hm2
    have hcond1 : ¬ ∃ k ∈ K, k.1 = ((2*c.i+1, 2*c.j+2) : Vertex) ∨
        k.2 = ((2*c.i+1, 2*c.j+1) : Vertex) := by
      rintro ⟨k, hk, h | h⟩
      · exact (hfr1 k hk).1 h
      · exact (hfr1 k hk).2 h
    have hfr2 : ∀ k ∈ K ++ [(((2*c.i+1, 2*c.j+2), (2*c.i+1, 2*c.j+1)) :
        Vertex × Vertex)], k.1 ≠ ((2*c.i+1, 2*c.j+1) : Vertex) ∧
        k.2 ≠ ((2*c.i+2, 2*c.j+1) : Vertex) := by
      intro k hk
      rcases List.mem_append.mp hk with h1 | h2
      · exact hfr2K k h1
      · rw [List.mem_singleton.mp h2]
        exact ⟨vpair_ne (by omega), vpair_ne (by omega)⟩
    have hcond2 : ¬ ∃ k ∈ K ++ [(((2*c.i+1, 2*c.j+2), (2*c.i+1, 2*c.j+1)) :
        Vertex × Vertex)], k.1 = ((2*c.i+1, 2*c.j+1) : Vertex) ∨
        k.2 = ((2*c.i+2, 2*c.j+1) : Vertex) := by
      rintro ⟨k, hk, h | h⟩
      · exact (hfr2 k hk).1 h
      · exact (hfr2 k hk).2 h
    have hd3 : ∀ k ∈ (K ++ [(((2*c.i+1, 2*c.j+2), (2*c.i+1, 2*c.j+1)) :
        Vertex × Vertex)]) ++ [(((2*c.i+1, 2*c.j+1), (2*c.i+2, 2*c.j+1)) :
        Vertex × Vertex)],
        k.2 ≠ ((2*c.i, 2*c.j+1) : Vertex) ∧
        k.1 ≠ ((2*c.i+2, 2*c.j+1) : Vertex) := by
      intro k hk
      rcases List.mem_append.mp hk with h12 | h3
      · rcases List.mem_append.mp h12 with h1 | h2
        · obtain ⟨g1, g2, g3⟩ := hdupfresh hdup k h1
          exact ⟨g2, g3⟩
        · rw [List.mem_singleton.mp h2]
          exact ⟨vpair_ne (by omega), vpair_ne (by omega)⟩
      · rw [List.mem_singleton.mp h3]
        exact ⟨vpair_ne (by omega), vpair_ne (by omega)⟩
    have hcol3 : ∃ k ∈ (K ++ [(((2*c.i+1, 2*c.j+2), (2*c.i+1, 2*c.j+1)) :
        Vertex × Vertex)]) ++ [(((2*c.i+1, 2*c.j+1), (2*c.i+2, 2*c.j+1)) :
        Vertex × Vertex)],
        k.1 = ((2*c.i, 2*c.j+1) : Vertex) ∨
        k.2 = ((2*c.i+2, 2*c.j+1) : Vertex) := by
      refine ⟨(((2*c.i+1, 2*c.j+1), (2*c.i+2, 2*c.j+1)) : Vertex × Vertex),
        ?_, Or.inr rfl⟩
      exact List.mem_append.mpr (Or.inr (List.mem_singleton.mpr rfl))
    rw [hcc, hsk]
    constructor
    · refine Or.inl ⟨hfr1, vpair_ne (by omega), Or.inl
        ⟨hfr2, vpair_ne (by omega), Or.inr ⟨hd3, hcol3, trivial⟩⟩⟩
    · rw [keysAfter_cons_fresh _ _ _ hcond1,
        keysAfter_cons_fresh _ _ _ hcond2, keysAfter_cons_dup _ _ _ hcol3]
      rw [List.append_assoc]
      rfl

theorem cells_runOK_aux (P : Params) (r : Raster)
    (hcross : ∀ c' c : Cell, c' ∈ processedCells r → c ∈ processedCells r →
      ¬(c'.i = c.i ∧ c'.j = c.j) →
      ∀ k ∈ cellStoreKeys r P c', ∀ k' ∈ cellStoreKeys r P c,
        k.1 ≠ k'.1 ∧ k.2 ≠ k'.2)
    (hdupf : ∀ c c' : Cell, c ∈ processedCells r → c' ∈ processedCells r →
      getFlags r c.i c.j = 2 → cellLt c' c →
      ∀ k ∈ cellStoreKeys r P c', k.1 ≠ ((2*c.i : ℤ), (2*c.j+1 : ℤ)) ∧
        k.2 ≠ ((2*c.i : ℤ), (2*c.j+1 : ℤ)) ∧
        k.1 ≠ ((2*c.i+2 : ℤ), (2*c.j+1 : ℤ)))
    (hpairAll : ∀ c ∈ processedCells r, (cellStoreKeys r P c).Pairwise
      (fun k k' => k.1 ≠ k'.1 ∧ k.2 ≠ k'.2))
    (hsorted : List.Pairwise cellLt (processedCells r)) :
    ∀ (todo done : List Cell), processedCells r = done ++ todo →
      RunOK ((done.map (cellStoreKeys r P)).flatten)
        (todo.flatMap (cellCalls P r)) ∧
      keysAfter ((done.map (cellStoreKeys r P)).flatten)
        (todo.flatMap (cellCalls P r)) =
        (((done ++ todo).map (cellStoreKeys r P)).flatten) := by
  intro todo
  induction todo with
  | nil =>
    intro done hsplit
    have h0 : ([] : List Cell).flatMap (cellCalls P r) = [] := by simp
    rw [h0, List.append_nil]
    exact ⟨trivial, rfl⟩
  | cons c todo ih =>
    intro done hsplit
    have hcmem : c ∈ processedCells r := by
      rw [hsplit]
      exact List.mem_append.mpr (Or.inr (List.mem_cons_self _ _))
    have hdonemem : ∀ c' ∈ done, c' ∈ processedCells r := by
      intro c' h
      rw [hsplit]
      exact List.mem_append.mpr (Or.inl h)
    have hdonelt : ∀ c' ∈ done, cellLt c' c := by
      have hs2 := hsorted
      rw [hsplit] at hs2
      obtain ⟨-, -, hrel⟩ := List.pairwise_append.mp hs2
      exact fun c' h => hrel c' h c (List.mem_cons_self _ _)
    have hKmem : ∀ k ∈ (done.map (cellStoreKeys r P)).flatten,
        ∃ c' ∈ done, k ∈ cellStoreKeys r P c' := by
      intro k hk
      obtain ⟨s, hs, hks⟩ := List.mem_flatten.mp hk
      obtain ⟨c', hc', rfl⟩ := List.mem_map.mp hs
      exact ⟨c', hc', hks⟩
    have hK : ∀ k ∈ (done.map (cellStoreKeys r P)).flatten,
        ∀ k' ∈ cellStoreKeys r P c, k.1 ≠ k'.1 ∧ k.2 ≠ k'.2 := by
      intro k hk k' hk'
      obtain ⟨c', hc'd, hkc'⟩ := hKmem k hk
      have hlt := hdonelt c' hc'd
      have hne : ¬(c'.i = c.i ∧ c'.j = c.j) := by
        rcases hlt with h | ⟨h1, h2⟩ <;> rintro ⟨hi, hj⟩ <;> omega
      exact hcross c' c (hdonemem c' hc'd) hcmem hne k hkc' k' hk'
    have hdupfc : hasDup c.isBorder (getFlags r c.i c.j) = true →
        ∀ k ∈ (done.map (cellStoreKeys r P)).flatten,
          k.1 ≠ ((2*c.i : ℤ), (2*c.j+1 : ℤ)) ∧
          k.2 ≠ ((2*c.i : ℤ), (2*c.j+1 : ℤ)) ∧
          k.1 ≠ ((2*c.i+2 : ℤ), (2*c.j+1 : ℤ)) := by
      intro hd k hk
      have hd2 := hd
      unfold hasDup at hd2
      rw [Bool.and_eq_true] at hd2
      have hcode : getFlags r c.i c.j = 2 := by simpa using hd2.2
      obtain ⟨c', hc'd, hkc'⟩ := hKmem k hk
      exact hdupf c c' hcmem (hdonemem c' hc'd) hcode (hdonelt c' hc'd) k hkc'
    obtain ⟨hrun, hkeys⟩ := cell_runOK P r c
      ((done.map (cellStoreKeys r P)).flatten) hK (hpairAll c hcmem) hdupfc
    obtain ⟨hrun', hkeys'⟩ := ih (done ++ [c])
      (by rw [hsplit, List.append_assoc]; rfl)
    have hKc : (((done ++ [c]).map (cellStoreKeys r P)).flatten) =
        ((done.map (cellStoreKeys r P)).flatten) ++ cellStoreKeys r P c := by
      rw [List.map_append, List.flatten_append]
      simp
    rw [hKc] at hrun' hkeys'
    constructor
    · show RunOK ((done.map (cellStoreKeys r P)).flatten)
        (cellCalls P r c ++ todo.flatMap (cellCalls P r))
      refine runOK_append _ _ _ hrun ?_
      rw [hkeys]
      exact hrun'
    · show keysAfter ((done.map (cellStoreKeys r P)).flatten)
        (cellCalls P r c ++ todo.flatMap (cellCalls P r)) = _
      rw [keysAfter_append, hkeys, hkeys']
      rw [List.append_assoc]
      rfl

theorem inv2_nil : Inv2 [] := by
  refine ⟨?_, ?_, ?_⟩
  · intro x y sx hx
    have : ([] : List Segment).get? x = none := by cases x <;> rfl
    rw [this] at hx
    cases hx
  · intro x y sy hy
    have : ([] : List Segment).get? y = none := by cases y <;> rfl
    rw [this] at hy
    cases hy
  · intro x s hx
    have : ([] : List Segment).get? x = none := by cases x <;> rfl
    rw [this] at hx
    cases hx

theorem keyInv_init (P : Params) : KeyInv P initState [] := by
  refine ⟨rfl, inv2_nil, ?_⟩
  intro ring h
  cases h

theorem sweepStates_inv_geom (P : Params) (r : Raster)
    (hcross : ∀ c' c : Cell, c' ∈ processedCells r → c ∈ processedCells r →
      ¬(c'.i = c.i ∧ c'.j = c.j) →
      ∀ k ∈ cellStoreKeys r P c', ∀ k' ∈ cellStoreKeys r P c,
        k.1 ≠ k'.1 ∧ k.2 ≠ k'.2)
    (hdupf : ∀ c c' : Cell, c ∈ processedCells r → c' ∈ processedCells r →
      getFlags r c.i c.j = 2 → cellLt c' c →
      ∀ k ∈ cellStoreKeys r P c', k.1 ≠ ((2*c.i : ℤ), (2*c.j+1 : ℤ)) ∧
        k.2 ≠ ((2*c.i : ℤ), (2*c.j+1 : ℤ)) ∧
        k.1 ≠ ((2*c.i+2 : ℤ), (2*c.j+1 : ℤ)))
    (hpairAll : ∀ c ∈ processedCells r, (cellStoreKeys r P c).Pairwise
      (fun k k' => k.1 ≠ k'.1 ∧ k.2 ≠ k'.2))
    (hsorted : List.Pairwise cellLt (processedCells r)) :
    ∀ st ∈ sweepStates P r, ∃ K, KeyInv P st K := by
  intro st hst
  obtain ⟨t, hpre, rfl⟩ := exists_prefix_of_mem_scanl (stepCall P)
    (sweepCalls P r) initState st hst
  have hall := cells_runOK_aux P r hcross hdupf hpairAll hsorted
    (processedCells r) [] rfl
  have hok0 : RunOK [] (sweepCalls P r) := by
    have := hall.1
    simpa [sweepCalls] using this
  have hok := runOK_prefix t (sweepCalls P r) [] hpre hok0
  exact ⟨keysAfter [] t, runCalls_inv P t initState [] (keyInv_init P) hok⟩

theorem getFlags_degenerate (r : Raster)
    (hd : r.width ≤ 0 ∨ r.height ≤ 0) (x y : ℤ) : getFlags r x y = 0 := by
  have hg : ∀ u v, r.get u v = 0 := by
    intro u v
    unfold Raster.get
    rw [if_neg]
    rintro ⟨h1, h2, h3, h4, h5⟩
    rcases hd with h | h <;> omega
  unfold getFlags
  rw [hg, hg, hg, hg]

theorem sweepCalls_degenerate (P : Params) (r : Raster)
    (hd : r.width ≤ 0 ∨ r.height ≤ 0) : sweepCalls P r = [] := by
  unfold sweepCalls
  have hall : ∀ c ∈ processedCells r, cellCalls P r c = [] := by
    intro c hc
    unfold cellCalls
    rw [getFlags_degenerate r hd]
    cases hb : c.isBorder <;> simp [hb] <;> rfl
  revert hall
  generalize processedCells r = l
  intro hall
  induction l with
  | nil => rfl
  | cons a t ih =>
    rw [List.flatMap_cons, hall a (List.mem_cons_self _ _),
      ih (fun c hc => hall c (List.mem_cons_of_mem _ hc)), List.nil_append]

theorem sweepStates_inv_degenerate (P : Params) (r : Raster)
    (hd : r.width ≤ 0 ∨ r.height ≤ 0) :
    ∀ st ∈ sweepStates P r, ∃ K, KeyInv P st K := by
  intro st hst
  unfold sweepStates at hst
  rw [sweepCalls_degenerate P r hd] at hst
  simp only [List.scanl_nil, List.mem_singleton] at hst
  refine ⟨[], ?_⟩
  rw [hst]
  exact keyInv_init P

theorem cfg_valid {r : Raster} {c : Cell} (hc : c ∈ processedCells r) :
    validCfg c.isBorder (getFlags r c.i c.j) := fun hb =>
  border_code_mem r c hc hb

theorem cross_exclusive (r : Raster) (P : Params) (c c' : Cell)
    (hc : c ∈ processedCells r) (hc' : c' ∈ processedCells r)
    (hne : ¬(c.i = c'.i ∧ c.j = c'.j)) :
    ∀ k ∈ cellStoreKeys r P c, ∀ k' ∈ cellStoreKeys r P c',
      k.1 ≠ k'.1 ∧ k.2 ≠ k'.2 := by
  have hv := cfg_valid hc
  have hv' := cfg_valid hc'
  rcases c with ⟨i, j, ib⟩
  rcases c' with ⟨i', j', ib'⟩
  dsimp only at hv hv' hne ⊢
  intro k hk k' hk'
  unfold cellStoreKeys at hk hk'
  dsimp only at hk hk'
  obtain ⟨k0, hk0, rfl⟩ := List.mem_map.mp hk
  obtain ⟨k0', hk0', rfl⟩ := List.mem_map.mp hk'
  have hofs := keys_offOK _ (List.mem_range.mpr (getFlags_lt16 r i j)) _
    (List.mem_range.mpr (ambClass_lt3 _ _)) _ hv k0 hk0
  have hofs' := keys_offOK _ (List.mem_range.mpr (getFlags_lt16 r i' j')) _
    (List.mem_range.mpr (ambClass_lt3 _ _)) _ hv' k0' hk0'
  obtain ⟨⟨⟨ha11, ha12, ha13, ha14⟩, ha2⟩, ⟨hb11, hb12, hb13, hb14⟩, hb2⟩ := hofs
  obtain ⟨⟨⟨hc11, hc12, hc13, hc14⟩, hc2⟩, ⟨hd11, hd12, hd13, hd14⟩, hd2⟩ := hofs'
  by_cases hho : i' = i + 1 ∧ j' = j
  · rw [hho.1, hho.2] at hk0' hv' ⊢
    rw [getFlags_eq_bits r i j] at hk0 hv
    rw [getFlags_eq_bits r (i+1) j] at hk0' hv'
    have hx := keys_horizontal (r.get i (j+1) == 1) (r.get i j == 1)
      (r.get (i+1) (j+1) == 1) (r.get (i+1) j == 1)
      (r.get (i+1+1) (j+1) == 1) (r.get (i+1+1) j == 1) ib ib'
      _ (List.mem_range.mpr (ambClass_lt3 _ _))
      _ (List.mem_range.mpr (ambClass_lt3 _ _))
      hv hv' k0 hk0 k0' hk0'
    constructor <;> intro heq <;>
      simp only [shiftKey, Prod.mk.injEq] at heq
    · exact hx.1 ⟨by omega, by omega⟩
    · exact hx.2 ⟨by omega, by omega⟩
  · by_cases hho' : i = i' + 1 ∧ j = j'
    · rw [hho'.1, hho'.2] at hk0 hv ⊢
      rw [getFlags_eq_bits r i' j'] at hk0' hv'
      rw [getFlags_eq_bits r (i'+1) j'] at hk0 hv
      have hx := keys_horizontal (r.get i' (j'+1) == 1) (r.get i' j' == 1)
        (r.get (i'+1) (j'+1) == 1) (r.get (i'+1) j' == 1)
        (r.get (i'+1+1) (j'+1) == 1) (r.get (i'+1+1) j' == 1) ib' ib
        _ (List.mem_range.mpr (ambClass_lt3 _ _))
        _ (List.mem_range.mpr (ambClass_lt3 _ _))
        hv' hv k0' hk0' k0 hk0
      constructor <;> intro heq <;>
        simp only [shiftKey, Prod.mk.injEq] at heq
      · exact hx.1 ⟨by omega, by omega⟩
      · exact hx.2 ⟨by omega, by omega⟩
    · by_cases hve : i' = i ∧ j' = j + 1
      · rw [hve.1, hve.2] at hk0' hv' ⊢
        rw [getFlags_eq_bits r i j] at hk0 hv
        rw [getFlags_eq_bits r i (j+1)] at hk0' hv'
        have hx := keys_vertical (r.get i (j+1) == 1)
          (r.get (i+1) (j+1) == 1) (r.get (i+1) j == 1) (r.get i j == 1)
          (r.get i (j+1+1) == 1) (r.get (i+1) (j+1+1) == 1) ib ib'
          _ (List.mem_range.mpr (ambClass_lt3 _ _))
          _ (List.mem_range.mpr (ambClass_lt3 _ _))
          hv hv' k0 hk0 k0' hk0'
        constructor <;> intro heq <;>
          simp only [shiftKey, Prod.mk.injEq] at heq
        · exact hx.1 ⟨by omega, by omega⟩
        · exact hx.2 ⟨by omega, by omega⟩
      · by_cases hve' : i = i' ∧ j = j' + 1
        · rw [hve'.1, hve'.2] at hk0 hv ⊢
          rw [getFlags_eq_bits r i' j'] at hk0' hv'
          rw [getFlags_eq_bits r i' (j'+1)] at hk0 hv
          have hx := keys_vertical (r.get i' (j'+1) == 1)
            (r.get (i'+1) (j'+1) == 1) (r.get (i'+1) j' == 1)
            (r.get i' j' == 1)
            (r.get i' (j'+1+1) == 1) (r.get (i'+1) (j'+1+1) == 1) ib' ib
            _ (List.mem_range.mpr (ambClass_lt3 _ _))
            _ (List.mem_range.mpr (ambClass_lt3 _ _))
            hv' hv k0' hk0' k0 hk0
          constructor <;> intro heq <;>
            simp only [shiftKey, Prod.mk.injEq] at heq
          · exact hx.1 ⟨by omega, by omega⟩
          · exact hx.2 ⟨by omega, by omega⟩
        · constructor <;> intro heq <;>
            simp only [shiftKey, Prod.mk.injEq] at heq <;>
            rcases ha2 with h1 | h1 <;> rcases hc2 with h2 | h2 <;>
            rcases hb2 with h3 | h3 <;> rcases hd2 with h4 | h4 <;>
            omega

theorem sameCell_exclusive (r : Raster) (P : Params) (c : Cell)
    (hc : c ∈ processedCells r) :
    (cellStoreKeys r P c).Pairwise
      (fun k k' => k.1 ≠ k'.1 ∧ k.2 ≠ k'.2) := by
  unfold cellStoreKeys
  rw [List.pairwise_map]
  have hp := keys_same_cell (getFlags r c.i c.j)
    (List.mem_range.mpr (getFlags_lt16 r c.i c.j))
    (ambClass (getFlags r c.i c.j)
      (P.ambiguousType (2*c.i, 2*c.j) (getFlags r c.i c.j)))
    (List.mem_range.mpr (ambClass_lt3 _ _)) c.isBorder (cfg_valid hc)
  refine hp.imp ?_
  intro k k' hkk
  constructor
  · intro he
    simp only [shiftKey, Prod.mk.injEq] at he
    exact hkk.1 (Prod.ext_iff.mpr ⟨by omega, by omega⟩)
  · intro he
    simp only [shiftKey, Prod.mk.injEq] at he
    exact hkk.2 (Prod.ext_iff.mpr ⟨by omega, by omega⟩)

theorem dup_point_fresh (r : Raster) (P : Params) (c c' : Cell)
    (hc : c ∈ processedCells r) (hc' : c' ∈ processedCells r)
    (h2 : getFlags r c.i c.j = 2) (hlt : cellLt c' c) :
    ∀ k ∈ cellStoreKeys r P c', k.1 ≠ (2*c.i, 2*c.j+1) ∧
      k.2 ≠ (2*c.i, 2*c.j+1) ∧ k.1 ≠ (2*c.i+2, 2*c.j+1) := by
  intro k hk
  have hv' := cfg_valid hc'
  unfold cellStoreKeys at hk
  obtain ⟨k0, hk0, rfl⟩ := List.mem_map.mp hk
  have hofs := keys_offOK _ (List.mem_range.mpr (getFlags_lt16 r c'.i c'.j)) _
    (List.mem_range.mpr (ambClass_lt3 _ _)) _ hv' k0 hk0
  obtain ⟨⟨⟨ha11, ha12, ha13, ha14⟩, ha2⟩, ⟨hb11, hb12, hb13, hb14⟩, hb2⟩ := hofs
  -- the bits of cell c forced by code 2
  have g0 := get_le_one r c.i (c.j+1)
  have g1 := get_le_one r (c.i+1) (c.j+1)
  have g2 := get_le_one r (c.i+1) c.j
  have g3 := get_le_one r c.i c.j
  have hbit : r.get c.i (c.j+1) = 0 ∧ r.get c.i c.j = 0 := by
    unfold getFlags at h2
    omega
  by_cases hL : c'.i = c.i - 1 ∧ c'.j = c.j
  · -- left neighbour: its right-edge bits are zero
    have hi1 : c'.i + 1 = c.i := by omega
    rw [getFlags_eq_bits r c'.i c'.j] at hk0 hv'
    rw [hi1, hL.2, hbit.1, hbit.2] at hk0 hv'
    have he0 : ((0 : ℕ) == 1) = false := rfl
    rw [he0] at hk0 hv'
    have hm := keys_no_left_midpoint (r.get c'.i (c.j+1) == 1)
      (r.get c'.i c.j == 1) c'.isBorder
      _ (List.mem_range.mpr (ambClass_lt3 _ _)) hv' k0 hk0
    refine ⟨?_, ?_, ?_⟩
    · intro he
      simp only [shiftKey, Prod.mk.injEq] at he
      exact hm.1 (Prod.ext_iff.mpr ⟨by omega, by omega⟩)
    · intro he
      simp only [shiftKey, Prod.mk.injEq] at he
      exact hm.2 (Prod.ext_iff.mpr ⟨by omega, by omega⟩)
    · intro he
      simp only [shiftKey, Prod.mk.injEq] at he
      unfold cellLt at hlt
      rcases ha2 with h | h <;> omega
  · refine ⟨?_, ?_, ?_⟩ <;> intro he <;>
      simp only [shiftKey, Prod.mk.injEq] at he <;>
      unfold cellLt at hlt <;>
      rcases ha2 with h | h <;> rcases hb2 with h' | h' <;> omega

theorem sweepStates_keyInv (P : Params) (r : Raster) :
    ∀ st ∈ sweepStates P r, ∃ K, KeyInv P st K := by
  by_cases hd : 1 ≤ r.width ∧ 1 ≤ r.height
  · exact sweepStates_inv_geom P r
      (fun c' c hc' hc hne => cross_exclusive r P c' c hc' hc hne)
      (fun c c' hc hc' h2 hlt => dup_point_fresh r P c c' hc hc' h2 hlt)
      (fun c hc => sameCell_exclusive r P c hc)
      (processedCells_sorted r hd.1 hd.2)
  · exact sweepStates_inv_degenerate P r (by omega)

/-- C8: at every point during a `find_contour` sweep (any raster, any
oracle, any parameters), whenever a stored segment `A` has `A.next = B`,
the segment `B` exists, `B.prev = A`, and `A.end = B.start`; in
particular every `addSegment` call preserves this invariant, since
`sweepStates` lists the builder state after each call. -/
theorem c8_next_prev (P : Params) (r : Raster) (st : BState)
    (hst : st ∈ sweepStates P r) (x y : Nat) (sx sy : Segment)
    (hx : st.segs.get? x = some sx) (hn : sx.next = some y)
    (hy : st.segs.get? y = some sy) :
    sy.prev = some x ∧ sx.stop = sy.start := by
  obtain ⟨K, -, ⟨hN, -, -⟩, -⟩ := sweepStates_keyInv P r st hst
  obtain ⟨sy', hy', hp, hkey⟩ := hN x y sx hx hn
  rw [hy] at hy'
  obtain rfl := Option.some.inj hy'
  exact ⟨hp, hkey⟩

theorem c8_next_prev_witness :
    (sweep paramsC raster11 ∈ sweepStates paramsC raster11) ∧
    (sweep paramsC raster11).segs.get? 0 =
      some ⟨2, .u, (-1, 0), (-1, -1), some 5, some 1, some 1⟩ ∧
    (⟨2, .u, (-1, 0), (-1, -1), some 5, some 1, some 1⟩ : Segment).next =
      some 1 ∧
    (sweep paramsC raster11).segs.get? 1 =
      some ⟨2, .r, (-1, -1), (0, -1), some 0, some 2, some 1⟩ ∧
    ((⟨2, .r, (-1, -1), (0, -1), some 0, some 2, some 1⟩ : Segment).prev =
        some 0 ∧
      (⟨2, .u, (-1, 0), (-1, -1), some 5, some 1, some 1⟩ : Segment).stop =
        (⟨2, .r, (-1, -1), (0, -1), some 0, some 2, some 1⟩ :
          Segment).start) :=
  ⟨foldl_mem_scanl (stepCall paramsC) (sweepCalls paramsC raster11) initState,
   by decide, rfl, by decide,
   c8_next_prev paramsC raster11 (sweep paramsC raster11)
     (foldl_mem_scanl (stepCall paramsC) (sweepCalls paramsC raster11)
       initState)
     0 1 _ _ (by decide) rfl (by decide)⟩

/-- C7: whenever `find_contour` returns a contour, every emitted ring was
read off a cyclically closed chain of stored lattice segments — consecutive
chain members are `next`/`prev`-linked with matching endpoints and the last
links back to the first — and the ring is that chain's vertex spell
converted to pixel coordinates, so the polygon's end joins its start. -/
theorem c7_rings_closed (P : Params) (r : Raster) (co : Contour)
    (h : findContour P r = some co) :
    ∀ ring ∈ co.rings, ∃ cyc, CycClosed (sweep P r).segs cyc ∧
      ring = (ringOfCycle P (sweep P r).segs cyc).map (cvt (offset P)) := by
  intro ring hring
  obtain ⟨K, -, -, hrw⟩ := sweepStates_keyInv P r (sweep P r)
    (foldl_mem_scanl (stepCall P) (sweepCalls P r) initState)
  unfold findContour at h
  by_cases herr : (sweep P r).err
  · rw [if_pos herr] at h
    cases h
  · rw [if_neg herr] at h
    obtain rfl := Option.some.inj h
    obtain ⟨ring0, hr0, rfl⟩ := List.mem_map.mp hring
    obtain ⟨cyc, hcc, hrc⟩ := hrw ring0 hr0
    exact ⟨cyc, hcc, by rw [hrc]⟩

theorem c7_rings_closed_witness :
    findContour paramsC raster11 = some contour11 ∧
    ∀ ring ∈ contour11.rings, ∃ cyc,
      CycClosed (sweep paramsC raster11).segs cyc ∧
      ring = (ringOfCycle paramsC (sweep paramsC raster11).segs cyc).map
        (cvt (offset paramsC)) :=
  ⟨contour11_eval,
   c7_rings_closed paramsC raster11 contour11 contour11_eval⟩

end Imgproc
